import Mathlib

/-!
# Epulse: the search and filter manager (`src/js/search-filter-manager.js`)

A shallow embedding of the class `SearchFilterManager` and theorems about it.

Modelling conventions.

* A JavaScript string is a Lean `String`; the text algorithms work on its list of
  characters (`String.data`), so `length` counts characters. `toLowerCase` maps
  `Char.toLower` over the characters (letters outside ASCII are left as they are).
* A JavaScript value is a `JsVal`; numbers are restricted to integers.
* A JavaScript number that is a score is an exact rational (`ℚ`): the scores of the
  program are `25 * k + 100 + 50 + boost` and `matches / length * 10`.
* A `TypeError` raised by the program is the `Except.error` result.
* `Map` and plain objects are association lists in enumeration (insertion) order; a `Set`
  is the list of its elements in insertion order.
* The flag `i` of a regular expression compares the characters after `canonicalize`, which
  is `Char.toUpper` on ASCII and lists few rows of the Unicode table beyond it; what is
  proved of it uses only that ASCII characters, and no others, have an ASCII upper case.
* `emit` (listener callbacks of the user interface) and the `localStorage` writes are
  outside the engine state and are not modelled.
* What the environment gives to a method is an argument of its definition: the readings of
  the clock, the id that `generateId` returns, and `JSON.parse`.
-/

namespace Epulse

/-! ## JavaScript values -/

/-- A JavaScript value. -/
inductive JsVal where
  | undefined
  | null
  | bool (b : Bool)
  | num (n : Int)
  | str (s : String)
  | arr (items : List JsVal)
  | obj (props : List (String × JsVal))

namespace JsVal

/-- The JavaScript truthiness of a value (`ToBoolean`). -/
def truthy : JsVal → Bool
  | undefined => false
  | null => false
  | bool b => b
  | num n => n != 0
  | str s => s.data != []
  | arr _ => true
  | obj _ => true

/-- The test `typeof value === 'string'`. -/
def isString : JsVal → Bool
  | str _ => true
  | _ => false

/-- The operator `a || b`. -/
def or (a b : JsVal) : JsVal := if a.truthy then a else b

mutual
/-- The JavaScript conversion `ToString`, as a template literal applies it. -/
def toStr : JsVal → String
  | undefined => "undefined"
  | null => "null"
  | bool b => if b then "true" else "false"
  | num n => toString n
  | str s => s
  | arr items => joinItems items
  | obj _ => "[object Object]"
termination_by structural v => v
/-- The conversion of an array: the elements joined by commas, `null` and `undefined`
elements being empty. -/
def joinItems : List JsVal → String
  | [] => ""
  | x :: rest =>
    (match x with
      | undefined => ""
      | null => ""
      | v => toStr v)
      ++ (match rest with
        | [] => ""
        | _ => ",")
      ++ joinItems rest
termination_by structural l => l
end

end JsVal

/-- Property access `object.name` on the property list of an object: `undefined` when the
property is absent. -/
def getProp (props : List (String × JsVal)) (name : String) : JsVal :=
  match props.find? (fun p => p.1 == name) with
  | some p => p.2
  | none => JsVal.undefined

/-! ## String primitives -/

/-- The characters matched by `\s` in a JavaScript regular expression. -/
def isJsSpace (c : Char) : Bool :=
  let n := c.toNat
  (9 ≤ n && n ≤ 13) || n == 32 || n == 160 || n == 5760 || (8192 ≤ n && n ≤ 8202)
    || n == 8232 || n == 8233 || n == 8239 || n == 8287 || n == 12288 || n == 65279

/-- The test `text.startsWith(query)` on character lists. -/
def startsWithChars (text query : List Char) : Bool := query.isPrefixOf text

/-- The test `text.includes(query)` on character lists. -/
def includesChars : List Char → List Char → Bool
  | [], query => query.isPrefixOf []
  | c :: cs, query => query.isPrefixOf (c :: cs) || includesChars cs query

/-- The scan of `split(/\s+/)`: `cur` is the word being read (reversed) and `inRun` tells
that the previous character was a separator. -/
def splitSpacesAux : List Char → Bool → List Char → List (List Char)
  | cur, _, [] => [cur.reverse]
  | cur, inRun, c :: cs =>
    if isJsSpace c then
      if inRun then splitSpacesAux [] true cs
      else cur.reverse :: splitSpacesAux [] true cs
    else splitSpacesAux (c :: cur) false cs

/-- The call `s.toLowerCase()`. -/
def toLowerCase (s : String) : String := ⟨s.data.map Char.toLower⟩

/-- The call `text.includes(query)`. -/
def includes (text query : String) : Bool := includesChars text.data query.data

/-- The call `text.startsWith(query)`. -/
def startsWith (text query : String) : Bool := startsWithChars text.data query.data

/-- The call `query.split(/\s+/)`: the pieces between the maximal runs of whitespace; a
leading or trailing run leaves an empty piece, and the empty string gives one empty piece. -/
def splitSpaces (s : String) : List String :=
  (splitSpacesAux [] false s.data).map String.mk

/-- The search of `indexOf` from position `i` on: the index of the first occurrence of `c`
in the rest `rest` of the text, which starts at position `i`; `-1` when there is none. -/
def indexOfAux (c : Char) : List Char → Nat → Int
  | [], _ => -1
  | d :: ds, i => if d = c then (i : Int) else indexOfAux c ds (i + 1)

/-- The call `text.indexOf(char, start)` for a one-character string `char`. -/
def indexOf (text : String) (c : Char) (start : Nat) : Int :=
  indexOfAux c (text.data.drop start) start

/-- The call `strings.join(' ')`. -/
def joinSpace : List String → String
  | [] => ""
  | [s] => s
  | s :: t :: rest => s ++ " " ++ joinSpace (t :: rest)

/-! ## The search index -/

/-- An entry of `searchIndex`: `{ type, id, searchableText, data }`. -/
structure IndexedRecord where
  type : String
  id : JsVal
  searchableText : String
  data : List (String × JsVal)

/-- The string values of an object, in enumeration order:
`Object.values(searchableData).filter(value => typeof value === 'string')`. -/
def stringValues : List (String × JsVal) → List String
  | [] => []
  | (_, JsVal.str s) :: rest => s :: stringValues rest
  | _ :: rest => stringValues rest

/-- The searchable text that `addToIndex` computes from the data. -/
def searchableTextOf (searchableData : List (String × JsVal)) : String :=
  toLowerCase (joinSpace (stringValues searchableData))

/-- The record that `addToIndex(type, id, searchableData)` stores. -/
def mkRecord (type : String) (id : JsVal) (searchableData : List (String × JsVal)) :
    IndexedRecord :=
  { type := type, id := id, searchableText := searchableTextOf searchableData,
    data := searchableData }

/-- The key of `addToIndex`: the template literal of type and id. -/
def indexKey (type : String) (id : JsVal) : String := type ++ ":" ++ id.toStr

/-- The call `map.set(key, value)`: the value of an existing key is replaced in place, a
new key is appended. -/
def mapSet {α : Type} (key : String) (value : α) : List (String × α) → List (String × α)
  | [] => [(key, value)]
  | (k, v) :: rest => if k = key then (k, value) :: rest else (k, v) :: mapSet key value rest

/-- The method `addToIndex` on the index. -/
def addToIndex (searchIndex : List (String × IndexedRecord)) (type : String) (id : JsVal)
    (searchableData : List (String × JsVal)) : List (String × IndexedRecord) :=
  mapSet (indexKey type id) (mkRecord type id searchableData) searchIndex

/-! ## Scoring -/

/-- The ways in which a call does not return: a `TypeError` is raised, an `Error` made by
the program is raised, or a loop never ends. -/
inductive Failure where
  | typeError (message : String)
  | error (message : String)
  | diverges

/-- The error of calling `toLowerCase` on a value that is not a string. -/
def noToLowerCase : Failure := Failure.typeError "toLowerCase is not a function"

/-- The loop of `fuzzyScore`: `textIndex` is the position after the last match and
`matched` the number of characters found so far. -/
def fuzzyLoop (text : String) : List Char → Nat → Nat → Nat
  | [], _, matched => matched
  | char :: rest, textIndex, matched =>
    let found := indexOf text char textIndex
    if found ≠ -1 then fuzzyLoop text rest (found + 1).toNat (matched + 1)
    else fuzzyLoop text rest textIndex matched

/-- The number of matches that the loop of `fuzzyScore` counts. -/
def fuzzyMatches (query text : String) : Nat := fuzzyLoop text query.data 0 0

/-- The method `fuzzyScore`. For the empty query JavaScript computes `0 / 0`, which is not
a number; the method is only reached with a query that the text does not contain, hence a
query that is not empty. -/
def fuzzyScore (query text : String) : ℚ :=
  ((fuzzyMatches query text : ℚ) / (query.length : ℚ)) * 10

/-- The word loop of `calculateSearchScore`: 25 for every word that the text contains. -/
def wordScore (text : String) (words : List String) (score : Nat) : Nat :=
  words.foldl (fun acc word => if includes text word then acc + 25 else acc) score

/-- The score of `calculateSearchScore` before the fuzzy fallback: the exact match, the
boost for a match at the start and the word matches. -/
def textScore (query text : String) : Nat :=
  let score := if includes text query then (if startsWith text query then 100 + 50 else 100) else 0
  wordScore text (splitSpaces query) score

/-- The guarded test `value && value.toLowerCase().includes(query)` followed by
`score += boost`; a truthy value that is not a string has no method `toLowerCase`. -/
def fieldBoost (value : JsVal) (query : String) (boost : ℚ) (score : ℚ) : Except Failure ℚ :=
  if value.truthy then
    match value with
    | JsVal.str s => if includes (toLowerCase s) query then .ok (score + boost) else .ok score
    | _ => .error noToLowerCase
  else .ok score

/-- The method `calculateSearchScore(query, item, fuzzy)`. -/
def calculateSearchScore (query : String) (item : IndexedRecord) (fuzzy : Bool) :
    Except Failure ℚ :=
  let text := item.searchableText
  let score := textScore query text
  let score : ℚ := if fuzzy && score == 0 then (score : ℚ) + fuzzyScore query text else score
  if item.type = "task" then fieldBoost (getProp item.data "title") query 30 score
  else if item.type = "member" then fieldBoost (getProp item.data "name") query 40 score
  else if item.type = "project" then fieldBoost (getProp item.data "name") query 35 score
  else .ok score

/-! ## The score as the specification words it -/

/-- The primary field of a record: the title of a task, the name of a member or of a
project; goals, comments and other types have none. -/
def primaryField (item : IndexedRecord) : JsVal :=
  if item.type = "task" then getProp item.data "title"
  else if item.type = "member" then getProp item.data "name"
  else if item.type = "project" then getProp item.data "name"
  else JsVal.undefined

/-- The boost of a type: 30 for a task, 40 for a member, 35 for a project, 0 otherwise. -/
def boostOf (type : String) : Nat :=
  if type = "task" then 30
  else if type = "member" then 40
  else if type = "project" then 35
  else 0

/-- The field boost as the specification words it: the boost of the type when the primary
field, lowercased, contains the query. -/
def claimedFieldBoost (query : String) (item : IndexedRecord) : Nat :=
  match primaryField item with
  | JsVal.str s => if query.data <:+: (toLowerCase s).data then boostOf item.type else 0
  | _ => 0

/-- The field boost with the guard of the program: the primary field is a string that is
not empty and, lowercased, contains the query. -/
def guardedFieldBoost (query : String) (item : IndexedRecord) : Nat :=
  match primaryField item with
  | JsVal.str s =>
    if s ≠ "" ∧ query.data <:+: (toLowerCase s).data then boostOf item.type else 0
  | _ => 0

/-- The sum of the text bonuses as the specification words it: 100 when the text contains
the query, 50 more when it starts with the query, 25 for each word of the split query that
the text contains. -/
def claimedTextScore (query text : String) : Nat :=
  (if query.data <:+: text.data then 100 else 0)
    + (if query.data <+: text.data then 50 else 0)
    + 25 * (splitSpaces query).countP (fun word => decide (word.data <:+: text.data))

/-- The score without fuzzy matching as the specification words it. -/
def claimedScore (query : String) (item : IndexedRecord) : Nat :=
  claimedTextScore query item.searchableText + claimedFieldBoost query item

/-- The score without fuzzy matching, with the guard of the program on the primary field. -/
def guardedScore (query : String) (item : IndexedRecord) : Nat :=
  claimedTextScore query item.searchableText + guardedFieldBoost query item

/-- The primary field makes `calculateSearchScore` raise: it is truthy and not a string. -/
def raisesOn (item : IndexedRecord) : Bool :=
  (primaryField item).truthy && !(primaryField item).isString

/-! ## Results, filters and the state of the manager -/

/-- A highlight of `getHighlights`: `{ start, end, text }`; the field `end` is `stop`. -/
structure Highlight where
  start : Nat
  stop : Nat
  text : String
deriving DecidableEq

/-- A search result: `{ ...item, score, highlights }`; `highlights` is `null` when they
were not asked for. -/
structure SearchResult extends IndexedRecord where
  score : ℚ
  highlights : Option (List Highlight)

/-- An entry of `filters` and of `activeFilters`: the predicate `function`, the flag
`active`, the current `value` and the options given at registration (a label and a widget
type, which the engine does not read). -/
structure Filter where
  function : SearchResult → JsVal → Bool
  active : Bool
  value : JsVal
  options : List (String × JsVal)

/-- An entry of `savedSearches`. -/
structure SavedSearch where
  id : String
  name : String
  query : String
  filters : List (String × Filter)
  created : String
  lastUsed : String
  useCount : Nat

/-- An entry of `searchHistory`: `{ query, timestamp, count }`. -/
structure HistoryEntry where
  query : String
  timestamp : String
  count : Nat
deriving DecidableEq

/-- The state of a `SearchFilterManager`. -/
structure SearchFilterManager where
  searchIndex : List (String × IndexedRecord)
  filters : List (String × Filter)
  savedSearches : List SavedSearch
  searchHistory : List HistoryEntry
  activeFilters : List (String × Filter)

/-- The call `list.slice(0, limit)`: a negative limit counts from the end. -/
def sliceTo {α : Type} (list : List α) (limit : Int) : List α :=
  if limit < 0 then list.take (list.length - limit.natAbs) else list.take limit.toNat

/-! ## Search history -/

/-- The method `addToSearchHistory(query)`; `now` is the reading of the clock. -/
def addToSearchHistory (searchHistory : List HistoryEntry) (query : String) (now : String) :
    List HistoryEntry :=
  if query.length < 2 then searchHistory
  else
    -- Remove existing entry
    let searchHistory := searchHistory.filter (fun item => item.query != query)
    -- Add to front
    let count :=
      (match searchHistory.find? (fun h => h.query == query) with
        | some h => h.count
        | none => 0) + 1
    let searchHistory := { query := query, timestamp := now, count := count } :: searchHistory
    -- Keep only last 100 searches
    searchHistory.take 100

/-- The comparator `(a, b) => b.count - a.count` puts `a` first when its count is not
smaller; `sort` is stable. -/
def sortByCount (entries : List HistoryEntry) : List HistoryEntry :=
  entries.insertionSort (fun a b => b.count ≤ a.count)

/-- The method `getSearchHistory(limit)`. -/
def getSearchHistory (searchHistory : List HistoryEntry) (limit : Int) : List HistoryEntry :=
  sliceTo searchHistory limit

/-- The method `getPopularSearches(limit)`. -/
def getPopularSearches (searchHistory : List HistoryEntry) (limit : Int) : List HistoryEntry :=
  sliceTo (sortByCount searchHistory) limit

/-! ## Filters -/

/-- The loop over the active filters in the callback of `applyFilters`: the first filter
that rejects the result ends it. -/
def passesFilters : List (String × Filter) → SearchResult → Bool
  | [], _ => true
  | (_, filter) :: rest, result =>
    if !filter.function result filter.value then false else passesFilters rest result

/-- The method `applyFilters(results)`. -/
def applyFilters (activeFilters : List (String × Filter)) (results : List SearchResult) :
    List SearchResult :=
  if activeFilters.length = 0 then results
  else results.filter (fun result => passesFilters activeFilters result)

/-! ## Highlights -/

/-- The character that the flag `i` compares (`Canonicalize` of ECMAScript, without the
flag `u`): the upper case of the character, unless that is ASCII for a character that is
not, or is more than one code unit. An ASCII character has `Char.toUpper`. Of the other
characters, the two small sigmas (U+03C3, U+03C2, upper case U+03A3) and the micro sign
and the small mu (U+00B5, U+03BC, upper case U+039C) have their row of the Unicode table;
a character without a row here is left as it is. -/
def canonicalize (c : Char) : Char :=
  if c.toNat < 128 then Char.toUpper c
  else if c.toNat = 963 ∨ c.toNat = 962 then Char.ofNat 931
  else if c.toNat = 181 ∨ c.toNat = 956 then Char.ofNat 924
  else c

/-- The literal pattern matches at the start of `rest`, letter case ignored as the flag
`i` ignores it. -/
def matchesAt (query rest : List Char) : Bool :=
  (query.map canonicalize).isPrefixOf (rest.map canonicalize)

/-- The loop of `getHighlights` for a query that is not empty: `pos` is the position of
`rest` in the text and `skip` the number of characters up to `lastIndex`. -/
def highlightScan (query : List Char) : List Char → Nat → Nat → List Highlight
  | [], _, _ => []
  | _ :: cs, pos, skip + 1 => highlightScan query cs (pos + 1) skip
  | c :: cs, pos, 0 =>
    if matchesAt query (c :: cs) then
      { start := pos, stop := pos + query.length, text := ⟨(c :: cs).take query.length⟩ }
        :: highlightScan query cs (pos + 1) (query.length - 1)
    else highlightScan query cs (pos + 1) 0

/-- The method `getHighlights(query, item)`. The pattern is the escaped query, matched
globally and without regard to case. For the empty query `exec` matches at position 0
again and again and the loop never ends. -/
def getHighlights (query : String) (item : IndexedRecord) : Except Failure (List Highlight) :=
  if query.data = [] then .error Failure.diverges
  else .ok (highlightScan query.data item.searchableText.data 0 0)

/-! ## Search -/

/-- The options of `search` with their defaults. -/
structure SearchOptions where
  types : List String := ["task", "member", "project", "goal", "comment"]
  limit : Int := 50
  fuzzy : Bool := false
  includeHighlights : Bool := true

/-- The loop of `search` over the index: the results in the order of the index. -/
def collectResults (query : String) (options : SearchOptions) :
    List (String × IndexedRecord) → Except Failure (List SearchResult)
  | [] => .ok []
  | (_, item) :: rest =>
    if !options.types.contains item.type then collectResults query options rest
    else
      match calculateSearchScore query item options.fuzzy with
      | .error e => .error e
      | .ok score =>
        if score > 0 then
          match (if options.includeHighlights then (getHighlights query item).map some
                 else .ok none) with
          | .error e => .error e
          | .ok highlights =>
            match collectResults query options rest with
            | .error e => .error e
            | .ok results =>
              .ok ({ toIndexedRecord := item, score := score, highlights := highlights }
                :: results)
        else collectResults query options rest

/-- The comparator `(a, b) => b.score - a.score` puts `a` first when its score is not
smaller; `sort` is stable, so the result is that of any stable sorting procedure. -/
def sortByScore (results : List SearchResult) : List SearchResult :=
  results.insertionSort (fun a b => b.score ≤ a.score)

/-- The method `search(query, options)`; `now` is the reading of the clock. The value is
the result of the call (the list returned, or the failure) and the state after it. -/
def search (m : SearchFilterManager) (query : String) (options : SearchOptions)
    (now : String) : Except Failure (List SearchResult) × SearchFilterManager :=
  if query.length < 2 then (.ok [], m)
  else
    let normalizedQuery := toLowerCase query
    -- Add to search history
    let m := { m with searchHistory := addToSearchHistory m.searchHistory query now }
    match collectResults normalizedQuery options m.searchIndex with
    | .error e => (.error e, m)
    | .ok results =>
      -- Sort by relevance score, apply active filters, limit results
      (.ok (sliceTo (applyFilters m.activeFilters (sortByScore results)) options.limit), m)

/-! ## Building the index -/

/-- A value on which reading a property raises a type error: `undefined` or `null`. -/
def isNullish : JsVal → Bool
  | JsVal.undefined => true
  | JsVal.null => true
  | _ => false

/-- The value of `value.name` for a value that is not nullish and a property name that the
indexers read: the property of an object, `undefined` on a primitive value or an array. -/
def fieldOf (value : JsVal) (name : String) : JsVal :=
  match value with
  | JsVal.obj props => getProp props name
  | _ => JsVal.undefined

/-- The error of reading a property of `undefined` or `null`. -/
def cannotRead : Failure := Failure.typeError "Cannot read properties of undefined or null"

/-- The error of calling `forEach` on a value that is not an array. -/
def noForEach : Failure := Failure.typeError "forEach is not a function"

/-- The loop of `array.forEach(callback)`: the callback that raises ends the loop, and what
the earlier callbacks did to the state remains. -/
def forEachItems {σ : Type} (callback : JsVal → σ → Except Failure σ) :
    List JsVal → σ → Except Failure Unit × σ
  | [], state => (.ok (), state)
  | item :: rest, state =>
    match callback item state with
    | .error e => (.error e, state)
    | .ok state => forEachItems callback rest state

/-- The call `value.forEach(callback)` on any value. -/
def forEach {σ : Type} (callback : JsVal → σ → Except Failure σ) (value : JsVal) (state : σ) :
    Except Failure Unit × σ :=
  match value with
  | JsVal.arr items => forEachItems callback items state
  | JsVal.undefined => (.error cannotRead, state)
  | JsVal.null => (.error cannotRead, state)
  | _ => (.error noForEach, state)

/-- A card of the board, as `getAllTasks` reads it from the document: the two entries of
its `dataset` and the values that `getTaskStatusFromCard`, `getTaskPriorityFromCard` and
`getTaskAssigneeFromCard` return for it. -/
structure TaskCard where
  taskId : Option String
  taskName : Option String
  status : String
  priority : String
  assignee : String

/-- The method `getAllTasks`: a card gives a task when its id and its name are truthy. -/
def getAllTasks (cards : List TaskCard) : List JsVal :=
  cards.filterMap (fun card =>
    match card.taskId, card.taskName with
    | some taskId, some taskName =>
      if (JsVal.str taskId).truthy && (JsVal.str taskName).truthy then
        some (JsVal.obj [("id", JsVal.str taskId), ("name", JsVal.str taskName),
          ("title", JsVal.str taskName), ("status", JsVal.str card.status),
          ("priority", JsVal.str card.priority), ("assignee", JsVal.str card.assignee),
          ("project", JsVal.str "current-sprint")])
      else none
    | _, _ => none)

/-- The members that `getAllTeamMembers` returns when the collaboration manager fails. -/
def sampleMembers : JsVal :=
  JsVal.arr
    [ JsVal.obj [("id", JsVal.str "user1"), ("name", JsVal.str "Alex Johnson"),
        ("email", JsVal.str "alex@company.com"), ("role", JsVal.str "Senior Software Engineer")],
      JsVal.obj [("id", JsVal.str "user2"), ("name", JsVal.str "Sarah Chen"),
        ("email", JsVal.str "sarah@company.com"), ("role", JsVal.str "Product Manager")],
      JsVal.obj [("id", JsVal.str "user3"), ("name", JsVal.str "Mike Rodriguez"),
        ("email", JsVal.str "mike@company.com"), ("role", JsVal.str "DevOps Engineer")],
      JsVal.obj [("id", JsVal.str "user4"), ("name", JsVal.str "Emma Thompson"),
        ("email", JsVal.str "emma@company.com"), ("role", JsVal.str "UI/UX Designer")],
      JsVal.obj [("id", JsVal.str "user5"), ("name", JsVal.str "David Park"),
        ("email", JsVal.str "david@company.com"), ("role", JsVal.str "Backend Developer")] ]

/-- The method `getAllProjects`. -/
def getAllProjects : JsVal :=
  JsVal.arr
    [ JsVal.obj [("id", JsVal.str "proj1"), ("name", JsVal.str "Authentication & Security"),
        ("status", JsVal.str "active"), ("type", JsVal.str "development")],
      JsVal.obj [("id", JsVal.str "proj2"), ("name", JsVal.str "Mobile App"),
        ("status", JsVal.str "planning"), ("type", JsVal.str "development")],
      JsVal.obj [("id", JsVal.str "proj3"), ("name", JsVal.str "Performance Optimization"),
        ("status", JsVal.str "active"), ("type", JsVal.str "improvement")],
      JsVal.obj [("id", JsVal.str "proj4"), ("name", JsVal.str "API Documentation"),
        ("status", JsVal.str "completed"), ("type", JsVal.str "documentation")] ]

/-- What the sources of `buildSearchIndex` give: the cards of the document, and the
outcomes of `getTeamMembers()` on the collaboration manager, of `getGoals()` on the goals
manager and of reading `comments` on the collaboration manager (obtaining a manager may
itself raise). -/
structure Sources where
  taskCards : List TaskCard
  teamMembers : Except Failure JsVal
  goals : Except Failure JsVal
  comments : Except Failure JsVal

/-- The method `getAllTeamMembers`: the sample members when the manager raises. -/
def getAllTeamMembers (sources : Sources) : JsVal :=
  match sources.teamMembers with
  | .ok members => members
  | .error _ => sampleMembers

/-- The value of `value || new Date().toISOString()`: the clock is read, and advances,
only when the value is falsy. `clock n` is the reading number `n`. -/
def orNow (clock : Nat → String) (value : JsVal) (tick : Nat) : JsVal × Nat :=
  if value.truthy then (value, tick) else (JsVal.str (clock tick), tick + 1)

/-- The callback of `indexTasks`; the state is the index and the number of clock readings
made so far. -/
def indexTask (clock : Nat → String) (task : JsVal)
    (state : List (String × IndexedRecord) × Nat) :
    Except Failure (List (String × IndexedRecord) × Nat) :=
  if isNullish task then .error cannotRead
  else
    let created := orNow clock (fieldOf task "createdDate") state.2
    let updated := orNow clock (fieldOf task "updatedDate") created.2
    .ok (addToIndex state.1 "task" (fieldOf task "id")
      [("title", (fieldOf task "name").or (fieldOf task "title")),
        ("description", (fieldOf task "description").or (JsVal.str "")),
        ("status", (fieldOf task "status").or (JsVal.str "backlog")),
        ("priority", (fieldOf task "priority").or (JsVal.str "medium")),
        ("assignee", (fieldOf task "assignee").or (JsVal.str "unassigned")),
        ("tags", (fieldOf task "tags").or (JsVal.arr [])),
        ("project", (fieldOf task "project").or (JsVal.str "default")),
        ("created", created.1),
        ("updated", updated.1),
        ("data", task)], updated.2)

/-- The callback of `indexTeamMembers`. -/
def indexMember (member : JsVal) (searchIndex : List (String × IndexedRecord)) :
    Except Failure (List (String × IndexedRecord)) :=
  if isNullish member then .error cannotRead
  else
    .ok (addToIndex searchIndex "member" (fieldOf member "id")
      [("name", fieldOf member "name"),
        ("email", fieldOf member "email"),
        ("role", fieldOf member "role"),
        ("department", (fieldOf member "department").or (JsVal.str "")),
        ("skills", (fieldOf member "skills").or (JsVal.arr [])),
        ("status", (fieldOf member "status").or (JsVal.str "active")),
        ("data", member)])

/-- The callback of `indexProjects`. -/
def indexProject (project : JsVal) (searchIndex : List (String × IndexedRecord)) :
    Except Failure (List (String × IndexedRecord)) :=
  if isNullish project then .error cannotRead
  else
    .ok (addToIndex searchIndex "project" (fieldOf project "id")
      [("name", fieldOf project "name"),
        ("description", (fieldOf project "description").or (JsVal.str "")),
        ("status", (fieldOf project "status").or (JsVal.str "active")),
        ("type", (fieldOf project "type").or (JsVal.str "development")),
        ("owner", (fieldOf project "owner").or (JsVal.str "")),
        ("tags", (fieldOf project "tags").or (JsVal.arr [])),
        ("data", project)])

/-- The callback of `indexGoals`. -/
def indexGoal (goal : JsVal) (searchIndex : List (String × IndexedRecord)) :
    Except Failure (List (String × IndexedRecord)) :=
  if isNullish goal then .error cannotRead
  else
    .ok (addToIndex searchIndex "goal" (fieldOf goal "id")
      [("title", fieldOf goal "title"),
        ("description", (fieldOf goal "description").or (JsVal.str "")),
        ("type", fieldOf goal "type"),
        ("status", fieldOf goal "status"),
        ("priority", fieldOf goal "priority"),
        ("timeframe", fieldOf goal "timeframe"),
        ("data", goal)])

/-- The callback of `indexComments`; `comment.author.name` raises when the author is
`undefined` or `null`. -/
def indexComment (comment : JsVal) (searchIndex : List (String × IndexedRecord)) :
    Except Failure (List (String × IndexedRecord)) :=
  if isNullish comment then .error cannotRead
  else if isNullish (fieldOf comment "author") then .error cannotRead
  else
    .ok (addToIndex searchIndex "comment" (fieldOf comment "id")
      [("content", fieldOf comment "content"),
        ("author", fieldOf (fieldOf comment "author") "name"),
        ("entityType", fieldOf comment "entityType"),
        ("entityId", fieldOf comment "entityId"),
        ("created", fieldOf comment "createdAt"),
        ("data", comment)])

/-- The method `indexTasks`. -/
def indexTasks (sources : Sources) (clock : Nat → String)
    (searchIndex : List (String × IndexedRecord)) :
    Except Failure Unit × List (String × IndexedRecord) :=
  let done := forEachItems (indexTask clock) (getAllTasks sources.taskCards) (searchIndex, 0)
  (done.1, done.2.1)

/-- The method `indexTeamMembers`. -/
def indexTeamMembers (sources : Sources) (searchIndex : List (String × IndexedRecord)) :
    Except Failure Unit × List (String × IndexedRecord) :=
  forEach indexMember (getAllTeamMembers sources) searchIndex

/-- The method `indexProjects`. -/
def indexProjects (searchIndex : List (String × IndexedRecord)) :
    Except Failure Unit × List (String × IndexedRecord) :=
  forEach indexProject getAllProjects searchIndex

/-- The method `indexGoals`: what is raised inside is caught, the records added before
remain. -/
def indexGoals (sources : Sources) (searchIndex : List (String × IndexedRecord)) :
    List (String × IndexedRecord) :=
  match sources.goals with
  | .error _ => searchIndex
  | .ok goals => (forEach indexGoal goals searchIndex).2

/-- The method `indexComments`: what is raised inside is caught, the records added before
remain. -/
def indexComments (sources : Sources) (searchIndex : List (String × IndexedRecord)) :
    List (String × IndexedRecord) :=
  match sources.comments with
  | .error _ => searchIndex
  | .ok comments => (forEach indexComment comments searchIndex).2

/-- The method `buildSearchIndex`; `clock n` is the reading number `n` of the clock during
the call. The value is the outcome of the call and the state after it. -/
def buildSearchIndex (m : SearchFilterManager) (sources : Sources) (clock : Nat → String) :
    Except Failure Unit × SearchFilterManager :=
  -- Clear existing index
  match indexTasks sources clock [] with
  | (.error e, searchIndex) => (.error e, { m with searchIndex := searchIndex })
  | (.ok _, searchIndex) =>
    match indexTeamMembers sources searchIndex with
    | (.error e, searchIndex) => (.error e, { m with searchIndex := searchIndex })
    | (.ok _, searchIndex) =>
      match indexProjects searchIndex with
      | (.error e, searchIndex) => (.error e, { m with searchIndex := searchIndex })
      | (.ok _, searchIndex) =>
        (.ok (), { m with
          searchIndex := indexComments sources (indexGoals sources searchIndex) })

/-! ## The results of a search as the specification words them -/

/-- The result that `search` builds for a record with a given score. -/
def resultFor (query : String) (options : SearchOptions) (item : IndexedRecord) (score : ℚ) :
    SearchResult :=
  { toIndexedRecord := item, score := score,
    highlights :=
      if options.includeHighlights then (getHighlights query item).toOption else none }

/-- The result of a record when its type is requested and its score is positive. -/
def candidate (query : String) (options : SearchOptions) (item : IndexedRecord) :
    Option SearchResult :=
  if options.types.contains item.type then
    match calculateSearchScore query item options.fuzzy with
    | .ok score => if 0 < score then some (resultFor query options item score) else none
    | .error _ => none
  else none

/-- A record is a match of a search: its type is requested, its score is positive and its
result passes every active filter. -/
def isMatch (activeFilters : List (String × Filter)) (query : String) (options : SearchOptions)
    (item : IndexedRecord) : Bool :=
  match candidate query options item with
  | some result => activeFilters.all (fun f => f.2.function result f.2.value)
  | none => false

/-! ## The greedy scan as the specification words it -/

/-- The rest of the text after the first occurrence of the character, if there is one. -/
def dropThrough (c : Char) : List Char → Option (List Char)
  | [] => none
  | d :: ds => if d = c then some ds else dropThrough c ds

/-- The number of characters of the query that are found when the query is read from left
to right and each character is searched in the text from just after the previous match. -/
def greedyMatches : List Char → List Char → Nat
  | [], _ => 0
  | c :: cs, text =>
    match dropThrough c text with
    | some rest => greedyMatches cs rest + 1
    | none => greedyMatches cs text

/-! ## Two indexes of the same shape -/

/-- Two entries of the same shape: the same key, and either the same record or two task
records of the same id. -/
def sameShape (e e' : String × IndexedRecord) : Prop :=
  e.1 = e'.1 ∧ (e.2 = e'.2 ∨ (e.2.type = "task" ∧ e'.2.type = "task" ∧ e.2.id = e'.2.id))

/-- A callback of an indexer that keeps two indexes in the same shape: on two indexes of the
same shape it raises the same error, or it returns two indexes of the same shape. -/
def keepsShape (callback : JsVal → List (String × IndexedRecord) →
    Except Failure (List (String × IndexedRecord))) : Prop :=
  ∀ item index index', List.Forall₂ sameShape index index' →
    (∃ e, callback item index = .error e ∧ callback item index' = .error e)
      ∨ (∃ next next', callback item index = .ok next ∧ callback item index' = .ok next'
          ∧ List.Forall₂ sameShape next next')

/-! ## The index as a map, and the searchable text as the specification words it -/

/-- The call `map.get(key)`: the value of the first entry with the key. -/
def mapGet {α : Type} (key : String) : List (String × α) → Option α
  | [] => none
  | (k, v) :: rest => if k = key then some v else mapGet key rest

/-- The five entity types. -/
def entityTypes : List String := ["task", "member", "project", "goal", "comment"]

/-- An index as `addToIndex` keeps it: no key occurs twice (it is a `Map`), and every
record is stored under the key of its type and id. -/
def indexWellFormed (searchIndex : List (String × IndexedRecord)) : Prop :=
  (searchIndex.map Prod.fst).Nodup ∧ ∀ e ∈ searchIndex, e.1 = indexKey e.2.type e.2.id

/-- The string-typed values of a field mapping, in field order. -/
def stringFields (fields : List (String × JsVal)) : List String :=
  fields.filterMap (fun field =>
    match field.2 with
    | JsVal.str s => some s
    | _ => none)

/-- The lowercased concatenation of the string-typed field values, joined by one space. -/
def claimedSearchableText (fields : List (String × JsVal)) : String :=
  toLowerCase (String.intercalate " " (stringFields fields))

/-! ## Sequences of recorded queries -/

/-- The calls `addToSearchHistory(query)` made one after the other; each call is given with
the reading of the clock at the call. -/
def recordAll (calls : List (String × String)) (searchHistory : List HistoryEntry) :
    List HistoryEntry :=
  calls.foldl (fun history call => addToSearchHistory history call.1 call.2) searchHistory

/-! ## Activating and clearing filters -/

/-- The statement `delete object[key]`. -/
def mapDelete {α : Type} (key : String) (entries : List (String × α)) : List (String × α) :=
  entries.filter (fun e => e.1 != key)

/-- The method `activateFilter(name, value = true)`: the default stands for an argument
that is `undefined`. The entry of the registry is changed in place and a copy of it becomes
the entry of `activeFilters`. -/
def activateFilter (m : SearchFilterManager) (name : String) (value : JsVal) :
    Bool × SearchFilterManager :=
  match mapGet name m.filters with
  | some filter =>
    let value :=
      match value with
      | JsVal.undefined => JsVal.bool true
      | v => v
    let filter := { filter with active := true, value := value }
    (true, { m with
      filters := mapSet name filter m.filters
      activeFilters := mapSet name filter m.activeFilters })
  | none => (false, m)

/-- The method `deactivateFilter(name)`. -/
def deactivateFilter (m : SearchFilterManager) (name : String) : Bool × SearchFilterManager :=
  match mapGet name m.filters with
  | some filter =>
    (true, { m with
      filters := mapSet name { filter with active := false } m.filters
      activeFilters := mapDelete name m.activeFilters })
  | none => (false, m)

/-- The method `clearAllFilters`: `deactivateFilter` on each of the keys that
`activeFilters` has when the method is called. -/
def clearAllFilters (m : SearchFilterManager) : SearchFilterManager :=
  (m.activeFilters.map Prod.fst).foldl (fun m name => (deactivateFilter m name).2) m

/-! ## Saved searches -/

/-- The method `saveSearch(query, name)`; `id` is what `generateId()` returns, `created` and
`lastUsed` are the two readings of the clock. The third parameter of the method is not
read: the snapshot is a copy of `activeFilters`. -/
def saveSearch (m : SearchFilterManager) (query name : String) (id created lastUsed : String) :
    SavedSearch × SearchFilterManager :=
  let savedSearch : SavedSearch :=
    { id := id
      name := if (JsVal.str name).truthy then name else query
      query := query
      filters := m.activeFilters
      created := created
      lastUsed := lastUsed
      useCount := 1 }
  (savedSearch, { m with savedSearches := m.savedSearches ++ [savedSearch] })

/-- The change of the first element that satisfies the test: what the program does to the
object that `find` returned. -/
def updateFirst {α : Type} (test : α → Bool) (change : α → α) : List α → List α
  | [] => []
  | a :: rest => if test a then change a :: rest else a :: updateFirst test change rest

/-- The method `loadSavedSearch(searchId)`; `now` is the reading of the clock for the usage
and `searchNow` the one of the search. The value is `null` (here `none`) when no saved
search has the id, else the results of the search. -/
def loadSavedSearch (m : SearchFilterManager) (searchId : String) (now searchNow : String) :
    Except Failure (Option (List SearchResult)) × SearchFilterManager :=
  match m.savedSearches.find? (fun s => s.id == searchId) with
  | some savedSearch =>
    -- Clear current filters
    let m := clearAllFilters m
    -- Apply saved filters
    let m := savedSearch.filters.foldl
      (fun m entry => (activateFilter m entry.1 entry.2.value).2) m
    -- Update usage
    let m := { m with
      savedSearches := updateFirst (fun s => s.id == searchId)
        (fun s => { s with lastUsed := now, useCount := s.useCount + 1 }) m.savedSearches }
    -- Return search results
    let found := search m savedSearch.query {} searchNow
    (found.1.map some, found.2)
  | none => (.ok none, m)

/-- The method `deleteSavedSearch(searchId)`. -/
def deleteSavedSearch (m : SearchFilterManager) (searchId : String) :
    Bool × SearchFilterManager :=
  match m.savedSearches.findIdx? (fun s => s.id == searchId) with
  | some index => (true, { m with savedSearches := m.savedSearches.eraseIdx index })
  | none => (false, m)

/-! ## Sequences of filter calls -/

/-- A call of one of the three methods that change the active filters. -/
inductive FilterCall where
  | activate (name : String) (value : JsVal)
  | deactivate (name : String)
  | clearAll

/-- The state after a call. -/
def applyFilterCall (m : SearchFilterManager) : FilterCall → SearchFilterManager
  | FilterCall.activate name value => (activateFilter m name value).2
  | FilterCall.deactivate name => (deactivateFilter m name).2
  | FilterCall.clearAll => clearAllFilters m

/-- The state after a sequence of calls. -/
def applyFilterCalls (m : SearchFilterManager) (calls : List FilterCall) : SearchFilterManager :=
  calls.foldl applyFilterCall m

/-- The name is a key of the registry `filters`. -/
def registered (m : SearchFilterManager) (name : String) : Prop :=
  (mapGet name m.filters).isSome = true

/-- The active filters as the three methods keep them: no name occurs twice (they are the
keys of an object), every name is registered, and no value is `undefined`. -/
def filtersWellFormed (m : SearchFilterManager) : Prop :=
  (m.activeFilters.map Prod.fst).Nodup
    ∧ ∀ e ∈ m.activeFilters, registered m e.1 ∧ e.2.value ≠ JsVal.undefined

/-- The names of the active filters with their values. -/
def activeValues (m : SearchFilterManager) : List (String × JsVal) :=
  m.activeFilters.map (fun e => (e.1, e.2.value))

/-! ## Import -/

/-- What the payload of an import holds where a list is expected: nothing or a falsy
value; an array (its entries are taken to have the shape of the entries of the list: the
program does not look at them); a truthy value that is not an array and can be spread,
such as a non-empty string or a `Set`, with the values that the spread yields (the
characters of the string), which are not entries of the list; or a truthy value that
cannot be spread, such as a number or a plain object. -/
inductive PayloadList (α : Type) where
  | falsy
  | array (items : List α)
  | iterable (elements : List JsVal)
  | notIterable

/-- The payload of an import: `null` or `undefined`, of which no property can be read, or
any other value, with what its properties `savedSearches` and `searchHistory` hold. -/
inductive Payload where
  | nullish
  | object (savedSearches : PayloadList SavedSearch) (searchHistory : PayloadList HistoryEntry)

/-- The argument of `importSearchData`: a string, which is parsed, or a value. -/
inductive ImportInput where
  | text (json : String)
  | value (payload : Payload)

/-- The message of an error. -/
def Failure.message : Failure → String
  | Failure.typeError message => message
  | Failure.error message => message
  | Failure.diverges => ""

/-- The error that `importSearchData` raises for what it caught. -/
def invalidImport (cause : Failure) : Failure :=
  Failure.error ("Invalid import data: " ++ cause.message)

/-- The error of spreading a value that is not iterable. -/
def notIterableError : Failure := Failure.typeError "importData is not iterable"

/-- The array after `if (value) list = [...old, ...value]`: its entries, followed by the
values that are not entries, which the spread of a string or of a `Set` puts behind them. -/
def mergeList {α : Type} (old : List α) :
    PayloadList α → Except Failure (List α × List JsVal)
  | PayloadList.falsy => .ok (old, [])
  | PayloadList.array items => .ok (old ++ items, [])
  | PayloadList.iterable elements => .ok (old, elements)
  | PayloadList.notIterable => .error notIterableError

/-- The merged array as a list of the state: `none` when it holds values that are not
entries, which leaves the states that the embedding describes. -/
def listOf {α : Type} (merged : List α × List JsVal) : Option (List α) :=
  if merged.2.isEmpty then some merged.1 else none

/-- The list after `if (value) list = value`: `none` when the value stored is not a list,
which leaves the states that the embedding describes. -/
def replaceList {α : Type} (old : List α) : PayloadList α → Option (List α)
  | PayloadList.falsy => some old
  | PayloadList.array items => some items
  | PayloadList.iterable _ => none
  | PayloadList.notIterable => none

/-- The value of `typeof data === 'string' ? JSON.parse(data) : data`. -/
def readPayload (parse : String → Except Failure Payload) (data : ImportInput) :
    Except Failure Payload :=
  match data with
  | ImportInput.text json => parse json
  | ImportInput.value payload => .ok payload

/-- The method `importSearchData(data, { merge })`; `parse` is `JSON.parse` followed by the
reading of the payload. The value is the outcome of the call and the state after it, which
is `none` when a list of the state was replaced by a value that is not a list or by an
array that holds values that are not entries. -/
def importSearchData (parse : String → Except Failure Payload) (m : SearchFilterManager)
    (data : ImportInput) (merge : Bool) : Except Failure Bool × Option SearchFilterManager :=
  match readPayload parse data with
  | .error e => (.error (invalidImport e), some m)
  | .ok Payload.nullish => (.error (invalidImport cannotRead), some m)
  | .ok (Payload.object savedSearches searchHistory) =>
    if merge then
      match mergeList m.savedSearches savedSearches with
      | .error e => (.error (invalidImport e), some m)
      | .ok saved =>
        -- `this.savedSearches` is assigned before the history is read
        match mergeList m.searchHistory searchHistory with
        | .error e =>
          (.error (invalidImport e),
            (listOf saved).map (fun saved => { m with savedSearches := saved }))
        | .ok history =>
          match listOf saved, listOf history with
          | some saved, some history =>
            (.ok true, some { m with savedSearches := saved, searchHistory := history })
          | _, _ => (.ok true, none)
    else
      match replaceList m.savedSearches savedSearches,
        replaceList m.searchHistory searchHistory with
      | some saved, some history =>
        (.ok true, some { m with savedSearches := saved, searchHistory := history })
      | _, _ => (.ok true, none)

/-! ## The records of the tasks, members and projects -/

/-- The key is that of a task, a member or a project: it starts with `t`, `m` or `p`. -/
def isFrontKey (key : String) : Prop :=
  key.data.head? = some 't' ∨ key.data.head? = some 'm' ∨ key.data.head? = some 'p'

/-- The sources with other outcomes for the goals and the comments. -/
def withGoalsAndComments (sources : Sources) (goals comments : Except Failure JsVal) :
    Sources :=
  { sources with goals := goals, comments := comments }

/-! ## Suggestions -/

/-- The method `getSimilarQueries(query, limit)`: `filter` returns a new array, which is
sorted by count and cut at the limit. -/
def getSimilarQueries (searchHistory : List HistoryEntry) (query : String) (limit : Int) :
    List String :=
  let normalizedQuery := toLowerCase query
  (sliceTo (sortByCount (searchHistory.filter (fun item =>
      toLowerCase item.query != normalizedQuery &&
        (includes (toLowerCase item.query) normalizedQuery ||
          includes normalizedQuery (toLowerCase item.query))))) limit).map
    (fun item => item.query)

/-- The call `suggestions.add(word)` on a `Set`, whose elements stay in the order in which
they were first added. -/
def setAdd (suggestions : List String) (word : String) : List String :=
  if word ∈ suggestions then suggestions else suggestions ++ [word]

/-- The method `getAutoCompleteSuggestions(query)`. -/
def getAutoCompleteSuggestions (searchIndex : List (String × IndexedRecord)) (query : String) :
    List String :=
  let normalizedQuery := toLowerCase query
  searchIndex.foldl (fun suggestions entry =>
    let words := splitSpaces entry.2.searchableText
    words.foldl (fun suggestions word =>
      if word.length > 2 && startsWith word normalizedQuery && word != normalizedQuery then
        setAdd suggestions word
      else suggestions) suggestions) []

/-- The `items` of a suggestion: entries of the history for the popular searches, strings
for the two other kinds. -/
inductive SuggestionItems where
  | entries (items : List HistoryEntry)
  | queries (items : List String)
deriving DecidableEq

/-- A suggestion of `generateSuggestions`: `{ type, title, items }`. -/
structure Suggestion where
  type : String
  title : String
  items : SuggestionItems
deriving DecidableEq

/-- The method `generateSuggestions(query, results)` with the state it leaves. It reads the
history through `getPopularSearches` (which sorts the copy `[...this.searchHistory]`) and
`getSimilarQueries` (which sorts the array that `filter` returned), and the index through
`getAutoCompleteSuggestions`; it assigns to no field. The parameter `results` is not read. -/
def generateSuggestions (m : SearchFilterManager) (query : String)
    (_results : List SearchResult) : List Suggestion × SearchFilterManager :=
  let suggestions : List Suggestion := []
  -- Popular searches
  let popularSearches := sliceTo (getPopularSearches m.searchHistory 10) 3
  let suggestions := suggestions ++
    [{ type := "popular", title := "Popular Searches",
       items := SuggestionItems.entries popularSearches }]
  -- Similar queries from history
  let similarQueries := sliceTo (getSimilarQueries m.searchHistory query 5) 3
  let suggestions :=
    if similarQueries.length > 0 then
      suggestions ++ [{ type := "similar", title := "Similar Searches",
                        items := SuggestionItems.queries similarQueries }]
    else suggestions
  -- Auto-complete suggestions
  let autoComplete := sliceTo (getAutoCompleteSuggestions m.searchIndex query) 5
  let suggestions :=
    if autoComplete.length > 0 then
      suggestions ++ [{ type := "autocomplete", title := "Suggestions",
                        items := SuggestionItems.queries autoComplete }]
    else suggestions
  (suggestions, m)

/-! ## The similar queries as the specification words them -/

/-- The entry's query differs from `p` and one of the two contains the other, letter case
ignored. -/
@[reducible]
def isSimilar (p : String) (e : HistoryEntry) : Prop :=
  toLowerCase e.query ≠ toLowerCase p
    ∧ ((toLowerCase p).data <:+: (toLowerCase e.query).data
      ∨ (toLowerCase e.query).data <:+: (toLowerCase p).data)

/-- The word is a suggestion for `p`: it has more than two characters, starts with the
lowercased `p` and is not the lowercased `p`. -/
@[reducible]
def completes (p word : String) : Prop :=
  2 < word.length ∧ (toLowerCase p).data <+: word.data ∧ word ≠ toLowerCase p

/-! ## The last call that affects a filter, as the specification words it -/

/-- The value that `activateFilter` stores for an argument: the default `true` of the
parameter stands for `undefined`. -/
def storedValue : JsVal → JsVal
  | JsVal.undefined => JsVal.bool true
  | v => v

/-- One call read for the name: an activation of the name leaves the value passed, a
deactivation of the name and `clearAllFilters` leave nothing, a call for another name
changes nothing. -/
def lastStep (name : String) (last : Option JsVal) : FilterCall → Option JsVal
  | FilterCall.activate n value => if n = name then some value else last
  | FilterCall.deactivate n => if n = name then none else last
  | FilterCall.clearAll => none

/-- The value passed by the last call that affects the name, when that call is an
activation; `none` when it is a deactivation or `clearAllFilters`, or when no call affects
the name. -/
def lastActivation (name : String) (calls : List FilterCall) : Option JsVal :=
  calls.foldl (lastStep name) none

/-- The flag `active` of every filter of the registry tells whether its name is a key of
`activeFilters`. -/
def flagsAgree (m : SearchFilterManager) : Prop :=
  ∀ name filter, mapGet name m.filters = some filter →
    (filter.active = true ↔ name ∈ m.activeFilters.map Prod.fst)

/-! ## Sample data -/

/-- The history after recording "auth" three times and then "authentication bug" once,
from the empty history, at the clock readings `t1` to `t4`. -/
def authHistory : List HistoryEntry :=
  addToSearchHistory
    (addToSearchHistory
      (addToSearchHistory (addToSearchHistory [] "auth" "t1") "auth" "t2") "auth" "t3")
    "authentication bug" "t4"

/-- The filter `taskPriority` of `setupDefaultFilters`, for values that are strings:
`result.type === 'task' && result.data.priority === priority`. -/
def taskPriorityFilter : SearchResult → JsVal → Bool := fun result priority =>
  result.type == "task" &&
    (match getProp result.data "priority", priority with
      | JsVal.str a, JsVal.str b => a == b
      | _, _ => false)

/-- A manager with three records and no active filter. -/
def sampleManager : SearchFilterManager :=
  { searchIndex :=
      addToIndex
        (addToIndex
          (addToIndex [] "task" (JsVal.str "t1")
            [("title", JsVal.str "Fix authentication bug"), ("status", JsVal.str "todo"),
              ("priority", JsVal.str "high")])
          "task" (JsVal.str "t2")
          [("title", JsVal.str "Fix login page"), ("status", JsVal.str "todo"),
            ("priority", JsVal.str "low")])
        "member" (JsVal.str "user1")
        [("name", JsVal.str "Alex Johnson"), ("role", JsVal.str "Bug fixer")]
    filters := [("taskPriority",
      { function := taskPriorityFilter, active := false, value := JsVal.undefined,
        options := [("label", JsVal.str "Priority"), ("type", JsVal.str "select")] })]
    savedSearches := []
    searchHistory := []
    activeFilters := [] }

/-- The sample manager with the filter `taskPriority` active on the value "high". -/
def filteredManager : SearchFilterManager :=
  { sampleManager with
    activeFilters := [("taskPriority",
      { function := taskPriorityFilter, active := true, value := JsVal.str "high",
        options := [("label", JsVal.str "Priority"), ("type", JsVal.str "select")] })] }

/-- The record of the task `t1` of the sample manager, as `addToIndex` builds it. -/
def sampleTask : IndexedRecord :=
  mkRecord "task" (JsVal.str "t1")
    [("title", JsVal.str "Fix authentication bug"), ("status", JsVal.str "todo"),
      ("priority", JsVal.str "high")]

/-- A card of the board. -/
def sampleCard : TaskCard :=
  { taskId := some "t1", taskName := some "Fix bug", status := "todo", priority := "high",
    assignee := "unassigned" }

/-- Sources with one card and no manager for members, goals and comments. -/
def oneCardSources : Sources :=
  { taskCards := [sampleCard]
    teamMembers := .error (Failure.typeError "CollaborationManager is not defined")
    goals := .error (Failure.typeError "GoalsManager is not defined")
    comments := .error (Failure.typeError "CollaborationManager is not defined") }

/-- A goal as the goals manager holds it. -/
def sampleGoal : JsVal :=
  JsVal.obj [("id", JsVal.str "g1"), ("title", JsVal.str "Ship release"),
    ("type", JsVal.str "custom"), ("status", JsVal.str "active"),
    ("priority", JsVal.str "high"), ("timeframe", JsVal.str "monthly")]

/-- A comment as the collaboration manager holds it. -/
def sampleComment : JsVal :=
  JsVal.obj [("id", JsVal.str "c1"), ("content", JsVal.str "Looks good"),
    ("author", JsVal.obj [("name", JsVal.str "Sarah Chen")]),
    ("entityType", JsVal.str "task"), ("entityId", JsVal.str "t1"),
    ("createdAt", JsVal.str "2024-01-01T00:00:00.000Z")]

/-- Sources in which `getTeamMembers()` returns an array that holds `null`, as it does when
the stored list of members holds `null`; the other sources are in order. -/
def malformedMembersSources : Sources :=
  { taskCards := [sampleCard]
    teamMembers := .ok (JsVal.arr [JsVal.null])
    goals := .ok (JsVal.arr [sampleGoal])
    comments := .ok (JsVal.arr [sampleComment]) }

/-- The same sources with `getTeamMembers()` raising instead. -/
def raisingMembersSources : Sources :=
  { malformedMembersSources with
    teamMembers := .error (Failure.typeError "getTeamMembers is not a function") }

/-- The query number `i`: the letter `q` written `i + 2` times. -/
def numberedQuery (i : Nat) : String := String.mk (List.replicate (i + 2) 'q')

/-- A history of `n` entries with the queries number `0` to `n - 1`. -/
def numberedHistory (n : Nat) : List HistoryEntry :=
  (List.range n).map (fun i => { query := numberedQuery i, timestamp := "t0", count := 1 })

/-- The calls that record the queries number `0` to `n - 1`. -/
def numberedCalls (n : Nat) : List (String × String) :=
  (List.range n).map (fun i => (numberedQuery i, "t1"))

/-- The filtered manager after saving the search "fix" under the id `search_1`. -/
def savedManager : SearchFilterManager :=
  (saveSearch filteredManager "fix" "My fixes" "search_1" "t1" "t1").2

/-- A parser that accepts the text of the empty object only. -/
def sampleParse (json : String) : Except Failure Payload :=
  if json = "{}" then .ok (Payload.object PayloadList.falsy PayloadList.falsy)
  else .error (Failure.error "Unexpected token in JSON")

/-- A saved search of a payload. -/
def importedSearch : SavedSearch :=
  { id := "search_9", name := "Imported", query := "login", filters := [], created := "t0",
    lastUsed := "t0", useCount := 1 }

/-- A payload that holds one saved search and the history of the sample scenario. -/
def importedLists : ImportInput :=
  ImportInput.value
    (Payload.object (PayloadList.array [importedSearch]) (PayloadList.array authHistory))

/-- The payload `{ savedSearches: "ab", searchHistory: 5 }`: the spread of the string
yields its two characters, the number cannot be spread. -/
def stringPayload : ImportInput :=
  ImportInput.value
    (Payload.object (PayloadList.iterable [JsVal.str "a", JsVal.str "b"])
      PayloadList.notIterable)

/-- Calls on the sample manager: `taskPriority` is activated twice, the name `unknown` is
not registered. -/
def sampleCalls : List FilterCall :=
  [FilterCall.activate "taskPriority" (JsVal.str "high"),
    FilterCall.activate "unknown" (JsVal.bool true),
    FilterCall.activate "taskPriority" (JsVal.str "low"),
    FilterCall.deactivate "unknown"]

/-- The record of a task whose title is "ας": the small alpha and the final small sigma
(U+03B1, U+03C2). -/
def sigmaRecord : IndexedRecord :=
  mkRecord "task" (JsVal.str "t3") [("title", JsVal.str "ας")]

/-- A manager whose index holds the record of the task "ας". -/
def sigmaManager : SearchFilterManager :=
  { sampleManager with
    searchIndex := addToIndex [] "task" (JsVal.str "t3") [("title", JsVal.str "ας")] }

/-! # Theorems -/

/-! ## Lemmas on the string primitives -/

theorem includesChars_iff (text query : List Char) :
    includesChars text query = true ↔ query <:+: text := by
  induction text with
  | nil =>
    simp [includesChars, List.isPrefixOf_iff_prefix]
  | cons c cs ih =>
    simp only [includesChars, Bool.or_eq_true, List.isPrefixOf_iff_prefix, ih]
    constructor
    · rintro (h | h)
      · exact h.isInfix
      · exact h.trans (List.suffix_cons c cs).isInfix
    · intro h
      rcases List.infix_cons_iff.mp h with h | h
      · exact Or.inl h
      · exact Or.inr h

theorem includes_iff (text query : String) :
    includes text query = true ↔ query.data <:+: text.data :=
  includesChars_iff _ _

theorem startsWith_iff (text query : String) :
    startsWith text query = true ↔ query.data <+: text.data := by
  simp [startsWith, startsWithChars, List.isPrefixOf_iff_prefix]

theorem wordScore_eq (text : String) (words : List String) (score : Nat) :
    wordScore text words score
      = score + 25 * words.countP (fun word => decide (word.data <:+: text.data)) := by
  induction words generalizing score with
  | nil => simp [wordScore]
  | cons w ws ih =>
    have ih' := ih
    unfold wordScore at ih' ⊢
    rw [List.foldl_cons, ih']
    by_cases h : includes text w = true
    · have h' : w.data <:+: text.data := (includes_iff _ _).mp h
      simp [h, h', List.countP_cons]
      ring
    · have h' : ¬ w.data <:+: text.data := fun hh => h ((includes_iff _ _).mpr hh)
      simp [h, h', List.countP_cons]

theorem textScore_eq (query text : String) :
    textScore query text = claimedTextScore query text := by
  unfold textScore claimedTextScore
  rw [wordScore_eq]
  by_cases h : includes text query = true
  · have h' := (includes_iff _ _).mp h
    by_cases hs : startsWith text query = true
    · have hs' := (startsWith_iff _ _).mp hs
      simp [h, h', hs, hs']
    · have hs' : ¬ query.data <+: text.data := fun hh => hs ((startsWith_iff _ _).mpr hh)
      simp [h, h', hs, hs']
  · have h' : ¬ query.data <:+: text.data := fun hh => h ((includes_iff _ _).mpr hh)
    have hs' : ¬ query.data <+: text.data := fun hh => h' hh.isInfix
    simp [h, h', hs']

/-! ## Lemmas on the score -/

theorem fieldBoost_eq (value : JsVal) (query : String) (boost : Nat) (score : ℚ) :
    fieldBoost value query (boost : ℚ) score
      = if value.truthy && !value.isString then
          .error noToLowerCase
        else .ok (score + ((match value with
          | JsVal.str s =>
            if s ≠ "" ∧ query.data <:+: (toLowerCase s).data then boost else 0
          | _ => 0 : Nat) : ℚ)) := by
  cases value with
  | str s =>
    by_cases hs : s = ""
    · subst hs
      simp [fieldBoost, JsVal.truthy, JsVal.isString]
    · have hd : s.data ≠ [] := fun h => hs (by cases s; simp_all)
      by_cases hq : includes (toLowerCase s) query = true
      · have hq' := (includes_iff _ _).mp hq
        simp [fieldBoost, JsVal.truthy, JsVal.isString, hs, hd, hq, hq']
      · have hq' : ¬ query.data <:+: (toLowerCase s).data :=
          fun hh => hq ((includes_iff _ _).mpr hh)
        simp [fieldBoost, JsVal.truthy, JsVal.isString, hs, hd, hq, hq']
  | bool b => cases b <;> simp [fieldBoost, JsVal.truthy, JsVal.isString]
  | num n =>
    by_cases hn : n = 0
    · simp [fieldBoost, JsVal.truthy, JsVal.isString, hn]
    · simp [fieldBoost, JsVal.truthy, JsVal.isString, hn]
  | undefined => simp [fieldBoost, JsVal.truthy, JsVal.isString]
  | null => simp [fieldBoost, JsVal.truthy, JsVal.isString]
  | arr items => simp [fieldBoost, JsVal.truthy, JsVal.isString]
  | obj props => simp [fieldBoost, JsVal.truthy, JsVal.isString]

/-- The score is the field boost of the primary field applied to the text score, to which
the fuzzy score was added when it was requested and the text score was zero. -/
theorem calculateSearchScore_eq (query : String) (item : IndexedRecord) (fuzzy : Bool) :
    calculateSearchScore query item fuzzy
      = fieldBoost (primaryField item) query ((boostOf item.type : Nat) : ℚ)
          (if fuzzy && textScore query item.searchableText == 0 then
            (textScore query item.searchableText : ℚ) + fuzzyScore query item.searchableText
          else (textScore query item.searchableText : ℚ)) := by
  unfold calculateSearchScore primaryField boostOf
  by_cases h1 : item.type = "task"
  · simp [h1]
  · by_cases h2 : item.type = "member"
    · simp [h2]
    · by_cases h3 : item.type = "project"
      · simp [h3]
      · simp [h1, h2, h3, fieldBoost, JsVal.truthy]

/-! ## C1: the score without fuzzy matching -/

/-- C1, as stated, fails: for the member record built from the data with the empty name
and the empty query, the program returns 175 (no boost, the empty name is falsy), while the
claimed sum is 215 (the empty name contains the empty query). -/
theorem claimedScore_fails_on_empty_name :
    calculateSearchScore "" (mkRecord "member" (JsVal.str "u1") [("name", JsVal.str "")]) false
        = .ok 175
      ∧ claimedScore "" (mkRecord "member" (JsVal.str "u1") [("name", JsVal.str "")]) = 215
      ∧ ((175 : ℚ) ≠ ((215 : Nat) : ℚ)) := by
  refine ⟨?_, by decide, by norm_num⟩
  with_unfolding_all rfl

/-- C1, amended: for every record and every query, the score without fuzzy matching is the
sum of 100 if the searchable text contains the query, 50 more if it starts with the query,
25 for each word of the split query that the text contains, and the boost of the type (30
for a task title, 40 for a member name, 35 for a project name, 0 otherwise) when the primary
field is a string that is not empty and, lowercased, contains the query; when the primary
field is truthy and not a string the call raises a type error. -/
theorem calculateSearchScore_non_fuzzy (query : String) (item : IndexedRecord) :
    calculateSearchScore query item false
      = if raisesOn item then .error noToLowerCase
        else .ok ((guardedScore query item : Nat) : ℚ) := by
  rw [calculateSearchScore_eq, fieldBoost_eq]
  unfold raisesOn guardedScore guardedFieldBoost
  rw [textScore_eq]
  simp only [Bool.false_and, Bool.false_eq_true, if_false]
  split
  · rfl
  · congr 1
    push_cast
    rfl

/-! ## C2: the count of a recorded query -/

/-- The front entry after `addToSearchHistory` always has count 1: the entry of the query
was removed before its count is looked up. -/
theorem addToSearchHistory_front (searchHistory : List HistoryEntry) (query now : String)
    (h : 2 ≤ query.length) :
    (addToSearchHistory searchHistory query now).head?
      = some { query := query, timestamp := now, count := 1 } := by
  have hlt : ¬ query.length < 2 := by omega
  have hfind : (searchHistory.filter (fun item => item.query != query)).find?
      (fun e => e.query == query) = none := by
    rw [List.find?_eq_none]
    intro e he
    have := (List.mem_filter.mp he).2
    simpa using this
  simp only [addToSearchHistory, hlt, if_false, hfind]
  rfl

/-- C2: after recording "auth" three times and then "authentication bug" once, the
program holds the entry of "auth" with count 1, not 3, and `getPopularSearches(1)` is the
entry of "authentication bug", not that of "auth". -/
theorem addToSearchHistory_auth_count :
    authHistory =
        [{ query := "authentication bug", timestamp := "t4", count := 1 },
          { query := "auth", timestamp := "t3", count := 1 }]
      ∧ getPopularSearches authHistory 1
        = [{ query := "authentication bug", timestamp := "t4", count := 1 }] := by
  decide

/-! ## C3 and C4: the filters are a conjunction -/

theorem passesFilters_eq_all (activeFilters : List (String × Filter)) (result : SearchResult) :
    passesFilters activeFilters result
      = activeFilters.all (fun f => f.2.function result f.2.value) := by
  induction activeFilters with
  | nil => rfl
  | cons f rest ih =>
    obtain ⟨name, filter⟩ := f
    simp only [passesFilters, List.all_cons, ih]
    cases filter.function result filter.value <;> simp

theorem applyFilters_eq_filter (activeFilters : List (String × Filter))
    (results : List SearchResult) :
    applyFilters activeFilters results
      = results.filter (fun result => passesFilters activeFilters result) := by
  unfold applyFilters
  split
  · next h =>
    have : activeFilters = [] := List.length_eq_zero.mp h
    subst this
    simp [passesFilters]
  · rfl

/-- C3: `applyFilters` keeps, in their order, exactly the results that every active filter
accepts when it is applied to the result and to the value of the filter; with no active
filter it returns the list it was given. -/
theorem applyFilters_keeps_accepted (activeFilters : List (String × Filter))
    (results : List SearchResult) :
    applyFilters activeFilters results
        = results.filter
          (fun result => activeFilters.all (fun f => f.2.function result f.2.value))
      ∧ applyFilters [] results = results := by
  constructor
  · rw [applyFilters_eq_filter]
    congr 1
    funext result
    exact passesFilters_eq_all activeFilters result
  · rfl

/-- C4: with two filters active, `applyFilters` gives the list that the two filters give
when they are applied one after the other, in either order, and the order of the two
entries in `activeFilters` does not matter. -/
theorem applyFilters_pair (name₁ name₂ : String) (filter₁ filter₂ : Filter)
    (results : List SearchResult) :
    applyFilters [(name₁, filter₁), (name₂, filter₂)] results
        = applyFilters [(name₂, filter₂)] (applyFilters [(name₁, filter₁)] results)
      ∧ applyFilters [(name₁, filter₁), (name₂, filter₂)] results
        = applyFilters [(name₁, filter₁)] (applyFilters [(name₂, filter₂)] results)
      ∧ applyFilters [(name₂, filter₂), (name₁, filter₁)] results
        = applyFilters [(name₁, filter₁), (name₂, filter₂)] results := by
  simp only [applyFilters_eq_filter, passesFilters_eq_all, List.filter_filter, List.all_cons,
    List.all_nil, Bool.and_true]
  refine ⟨?_, ?_, ?_⟩ <;>
    first
      | trivial
      | (congr 1; funext result; exact Bool.and_comm _ _)

/-! ## C7: a query shorter than two characters -/

/-- C7: for a query of length below 2 (the empty query included) `search` returns the empty
list and the state of the manager, with its history, index and active filters, is the one
before the call. -/
theorem search_short_query (m : SearchFilterManager) (query : String)
    (options : SearchOptions) (now : String) (h : query.length < 2) :
    search m query options now = (.ok [], m) := by
  simp [search, h]

/-- The query "a" on the sample manager: the empty list, the state unchanged. -/
theorem search_short_query_witness :
    "a".length < 2 ∧ search sampleManager "a" {} "t1" = (.ok [], sampleManager) :=
  ⟨by decide, search_short_query sampleManager "a" {} "t1" (by decide)⟩

/-! ## Lemmas on search -/

theorem collectResults_eq_filterMap (query : String) (options : SearchOptions) :
    ∀ (searchIndex : List (String × IndexedRecord)) (results : List SearchResult),
      collectResults query options searchIndex = .ok results →
      results = searchIndex.filterMap (fun e => candidate query options e.2)
  | [], results, h => by
    simp only [collectResults, Except.ok.injEq] at h
    simp [← h]
  | (key, item) :: rest, results, h => by
    unfold collectResults at h
    by_cases ht : options.types.contains item.type = true
    · simp only [ht, Bool.not_true, Bool.false_eq_true, if_false] at h
      cases hc : calculateSearchScore query item options.fuzzy with
      | error e =>
        rw [hc] at h
        simp at h
      | ok score =>
        rw [hc] at h
        simp only at h
        by_cases hs : 0 < score
        · have hs' : score > 0 := hs
          simp only [hs', if_true] at h
          cases hr : collectResults query options rest with
          | error e =>
            rw [hr] at h
            split at h <;> simp at h
          | ok results' =>
            have ih := collectResults_eq_filterMap query options rest results' hr
            rw [hr] at h
            by_cases hi : options.includeHighlights = true
            · cases hg : getHighlights query item with
              | error e =>
                simp [hi, hg, Except.map] at h
              | ok hl =>
                simp only [hi, hg, Except.map, if_true, Except.ok.injEq] at h
                have hcand : candidate query options item
                    = some { toIndexedRecord := item, score := score, highlights := some hl } := by
                  simp only [candidate, ht, hc, hs, if_true, resultFor, hi, hg, Except.toOption]
                rw [List.filterMap_cons]
                dsimp only
                rw [hcand, ← h, ih]
            · simp only [hi, Bool.false_eq_true, if_false, Except.ok.injEq] at h
              have hcand : candidate query options item
                  = some { toIndexedRecord := item, score := score, highlights := none } := by
                simp only [candidate, ht, hc, hs, if_true, resultFor, hi, Bool.false_eq_true,
                  if_false]
              rw [List.filterMap_cons]
              dsimp only
              rw [hcand, ← h, ih]
        · have hs' : ¬ score > 0 := hs
          simp only [hs', if_false] at h
          have ih := collectResults_eq_filterMap query options rest results h
          have hcand : candidate query options item = none := by
            simp only [candidate, ht, hc, hs, if_true, if_false]
          rw [List.filterMap_cons]
          dsimp only
          rw [hcand]
          exact ih
    · simp only [ht, Bool.not_false, if_true] at h
      have ih := collectResults_eq_filterMap query options rest results h
      have hcand : candidate query options item = none := by
        simp only [candidate, ht, Bool.false_eq_true, if_false]
      rw [List.filterMap_cons]
      dsimp only
      rw [hcand]
      exact ih

theorem search_ok_cases (m : SearchFilterManager) (query : String) (options : SearchOptions)
    (now : String) (res : List SearchResult) (h : (search m query options now).1 = .ok res) :
    (query.length < 2 ∧ res = []) ∨
      (2 ≤ query.length ∧ ∃ results,
        collectResults (toLowerCase query) options m.searchIndex = .ok results ∧
        res = sliceTo (applyFilters m.activeFilters (sortByScore results)) options.limit) := by
  unfold search at h
  by_cases hq : query.length < 2
  · left
    simp only [hq, if_true, Except.ok.injEq] at h
    exact ⟨hq, h.symm⟩
  · right
    simp only [hq, if_false] at h
    refine ⟨by omega, ?_⟩
    cases hc : collectResults (toLowerCase query) options m.searchIndex with
    | error e =>
      rw [hc] at h
      simp at h
    | ok results =>
      rw [hc] at h
      simp only [Except.ok.injEq] at h
      exact ⟨results, rfl, h.symm⟩

theorem sliceTo_sublist {α : Type} (list : List α) (limit : Int) :
    List.Sublist (sliceTo list limit) list := by
  unfold sliceTo
  split <;> exact List.take_sublist _ _

theorem applyFilters_sublist (activeFilters : List (String × Filter))
    (results : List SearchResult) :
    List.Sublist (applyFilters activeFilters results) results := by
  rw [applyFilters_eq_filter]
  exact List.filter_sublist _

theorem sortByScore_sorted (results : List SearchResult) :
    (sortByScore results).Pairwise (fun a b => b.score ≤ a.score) := by
  haveI : IsTotal SearchResult (fun a b => b.score ≤ a.score) := ⟨fun a b => le_total _ _⟩
  haveI : IsTrans SearchResult (fun a b => b.score ≤ a.score) :=
    ⟨fun _ _ _ hab hbc => le_trans hbc hab⟩
  exact List.sorted_insertionSort _ results

theorem sortByScore_perm (results : List SearchResult) : (sortByScore results).Perm results :=
  List.perm_insertionSort _ results

/-- The sort is stable: the results of one score keep the order they had. -/
theorem sortByScore_filter_score (results : List SearchResult) (s : ℚ) :
    (sortByScore results).filter (fun r => decide (r.score = s))
      = results.filter (fun r => decide (r.score = s)) := by
  have hpw : (results.filter (fun r => decide (r.score = s))).Pairwise
      (fun a b => b.score ≤ a.score) := by
    rw [List.pairwise_iff_forall_sublist]
    intro a b hab
    have ha : a ∈ results.filter (fun r => decide (r.score = s)) :=
      hab.subset (by simp)
    have hb : b ∈ results.filter (fun r => decide (r.score = s)) :=
      hab.subset (by simp)
    have ha' : a.score = s := by simpa using (List.mem_filter.mp ha).2
    have hb' : b.score = s := by simpa using (List.mem_filter.mp hb).2
    rw [ha', hb']
  have hsub : List.Sublist (results.filter (fun r => decide (r.score = s)))
      (sortByScore results) :=
    List.sublist_insertionSort hpw (List.filter_sublist _)
  have hsub' := hsub.filter (fun r => decide (r.score = s))
  rw [List.filter_filter] at hsub'
  simp only [Bool.and_self] at hsub'
  have hlen : ((sortByScore results).filter (fun r => decide (r.score = s))).length
      = (results.filter (fun r => decide (r.score = s))).length :=
    ((sortByScore_perm results).filter _).length_eq
  exact (hsub'.eq_of_length hlen.symm).symm

theorem candidates_sublist (query : String) (options : SearchOptions)
    (searchIndex : List (String × IndexedRecord)) :
    List.Sublist
      ((searchIndex.filterMap (fun e => candidate query options e.2)).map
        SearchResult.toIndexedRecord)
      (searchIndex.map Prod.snd) := by
  induction searchIndex with
  | nil => simp
  | cons e rest ih =>
    rw [List.filterMap_cons]
    cases hc : candidate query options e.2 with
    | none =>
      simp only [List.map_cons]
      exact ih.trans (List.sublist_cons_self _ _)
    | some r =>
      have hr : r.toIndexedRecord = e.2 := by
        unfold candidate at hc
        split at hc
        · split at hc
          · split at hc
            · simp only [Option.some.injEq] at hc
              rw [← hc]
              rfl
            · simp at hc
          · simp at hc
        · simp at hc
      simp only [List.map_cons, hr]
      exact ih.cons₂ _

/-! ## C5: the order of the results -/

/-- C5: the list that `search` returns is in non-increasing order of score, and results of
equal score are in the order of their records in the index: for every score the records of
the results with that score form a sublist of the records of the index, and so do the
records of any two results of equal score, taken in the order of the list. -/
theorem search_sorted_stable (m : SearchFilterManager) (query : String)
    (options : SearchOptions) (now : String) (res : List SearchResult)
    (h : (search m query options now).1 = .ok res) :
    res.Pairwise (fun a b => b.score ≤ a.score)
      ∧ (∀ s : ℚ, List.Sublist
          ((res.filter (fun r => decide (r.score = s))).map SearchResult.toIndexedRecord)
          (m.searchIndex.map Prod.snd))
      ∧ (∀ a b : SearchResult, List.Sublist [a, b] res → a.score = b.score →
          List.Sublist [a.toIndexedRecord, b.toIndexedRecord] (m.searchIndex.map Prod.snd)) := by
  have key : res.Pairwise (fun a b => b.score ≤ a.score)
      ∧ (∀ s : ℚ, List.Sublist
          ((res.filter (fun r => decide (r.score = s))).map SearchResult.toIndexedRecord)
          (m.searchIndex.map Prod.snd)) := by
    rcases search_ok_cases m query options now res h with ⟨_, hres⟩ | ⟨_, results, hc, hres⟩
    · subst hres
      simp
    · have hsub : List.Sublist res (sortByScore results) := by
        rw [hres]
        exact (sliceTo_sublist _ _).trans (applyFilters_sublist _ _)
      refine ⟨(sortByScore_sorted results).sublist hsub, fun s => ?_⟩
      have h1 := hsub.filter (fun r => decide (r.score = s))
      rw [sortByScore_filter_score] at h1
      have h2 := (h1.trans (List.filter_sublist _)).map SearchResult.toIndexedRecord
      rw [collectResults_eq_filterMap _ _ _ _ hc] at h2
      exact h2.trans (candidates_sublist _ _ _)
  refine ⟨key.1, key.2, fun a b hab hs => ?_⟩
  have h1 := hab.filter (fun r => decide (r.score = a.score))
  have h2 : [a, b].filter (fun r => decide (r.score = a.score)) = [a, b] := by
    simp [List.filter_cons, hs]
  rw [h2] at h1
  exact (h1.map SearchResult.toIndexedRecord).trans (key.2 a.score)

/-- The search for "fix" in the sample manager: the two tasks have the score 205 and come
in the order of the index, the member has the score 125. -/
theorem search_fix_eq : (search sampleManager "fix" {} "t1").1 = .ok
    [ { toIndexedRecord := mkRecord "task" (JsVal.str "t1")
            [("title", JsVal.str "Fix authentication bug"), ("status", JsVal.str "todo"),
              ("priority", JsVal.str "high")],
        score := 205, highlights := some [{ start := 0, stop := 3, text := "fix" }] },
      { toIndexedRecord := mkRecord "task" (JsVal.str "t2")
            [("title", JsVal.str "Fix login page"), ("status", JsVal.str "todo"),
              ("priority", JsVal.str "low")],
        score := 205, highlights := some [{ start := 0, stop := 3, text := "fix" }] },
      { toIndexedRecord := mkRecord "member" (JsVal.str "user1")
            [("name", JsVal.str "Alex Johnson"), ("role", JsVal.str "Bug fixer")],
        score := 125, highlights := some [{ start := 17, stop := 20, text := "fix" }] } ] := by
  with_unfolding_all rfl

/-- The search for "fix" on the sample manager returns the two tasks, of equal score, in
the order of the index, before the member. -/
theorem search_sorted_stable_witness :
    ∃ res, (search sampleManager "fix" {} "t1").1 = .ok res
      ∧ res.map (fun r => (r.id.toStr, r.score)) = [("t1", 205), ("t2", 205), ("user1", 125)]
      ∧ res.Pairwise (fun a b => b.score ≤ a.score)
      ∧ (∀ a b : SearchResult, List.Sublist [a, b] res → a.score = b.score →
          List.Sublist [a.toIndexedRecord, b.toIndexedRecord]
            (sampleManager.searchIndex.map Prod.snd)) :=
  ⟨_, search_fix_eq, by with_unfolding_all rfl,
    (search_sorted_stable sampleManager "fix" {} "t1" _ search_fix_eq).1,
    (search_sorted_stable sampleManager "fix" {} "t1" _ search_fix_eq).2.2⟩

/-! ## C6: the results are the records of positive score -/

theorem candidate_some (query : String) (options : SearchOptions) (item : IndexedRecord)
    (r : SearchResult) (h : candidate query options item = some r) :
    options.types.contains item.type = true
      ∧ calculateSearchScore query item options.fuzzy = .ok r.score
      ∧ 0 < r.score ∧ r.toIndexedRecord = item := by
  unfold candidate at h
  split at h
  · next ht =>
    split at h
    · next score hc =>
      split at h
      · next hs =>
        simp only [Option.some.injEq] at h
        subst h
        exact ⟨ht, hc, hs, rfl⟩
      · simp at h
    · simp at h
  · simp at h

theorem fuzzyScore_nonneg (query text : String) : 0 ≤ fuzzyScore query text := by
  unfold fuzzyScore
  positivity

theorem calculateSearchScore_nonneg (query : String) (item : IndexedRecord) (fuzzy : Bool)
    (s : ℚ) (h : calculateSearchScore query item fuzzy = .ok s) : 0 ≤ s := by
  rw [calculateSearchScore_eq, fieldBoost_eq] at h
  split at h
  · simp at h
  · simp only [Except.ok.injEq] at h
    rw [← h]
    have h1 := fuzzyScore_nonneg query item.searchableText
    split <;> positivity

theorem length_filter_candidates (activeFilters : List (String × Filter)) (query : String)
    (options : SearchOptions) (searchIndex : List (String × IndexedRecord)) :
    ((searchIndex.filterMap (fun e => candidate query options e.2)).filter
        (fun r => passesFilters activeFilters r)).length
      = (searchIndex.filter (fun e => isMatch activeFilters query options e.2)).length := by
  induction searchIndex with
  | nil => rfl
  | cons e rest ih =>
    rw [List.filterMap_cons, List.filter_cons]
    cases hc : candidate query options e.2 with
    | none =>
      have hm : isMatch activeFilters query options e.2 = false := by
        simp only [isMatch, hc]
      simp only [hm, Bool.false_eq_true, if_false]
      exact ih
    | some r =>
      have hm : isMatch activeFilters query options e.2 = passesFilters activeFilters r := by
        simp only [isMatch, hc, passesFilters_eq_all]
      simp only [hm]
      rw [List.filter_cons]
      cases hp : passesFilters activeFilters r
      · simp only [Bool.false_eq_true, if_false]
        exact ih
      · simp only [if_true, List.length_cons]
        rw [ih]

theorem sliceTo_of_length_le {α : Type} (list : List α) (limit : Int)
    (h : (list.length : Int) ≤ limit) : sliceTo list limit = list := by
  unfold sliceTo
  have h0 : ¬ limit < 0 := by omega
  rw [if_neg h0]
  apply List.take_of_length_le
  omega

/-- C6: for a query of length at least 2, every result that `search` returns has a
positive score, which is the score of its record; when the number of matches (the records
of the index whose type is requested, whose score is positive and whose result passes all
active filters) does not exceed the limit, every match is returned; and no score that
`calculateSearchScore` returns is negative. -/
theorem search_positive_complete (m : SearchFilterManager) (query : String)
    (options : SearchOptions) (now : String) (res : List SearchResult)
    (hq : 2 ≤ query.length) (h : (search m query options now).1 = .ok res) :
    (∀ r ∈ res, 0 < r.score
        ∧ calculateSearchScore (toLowerCase query) r.toIndexedRecord options.fuzzy = .ok r.score)
      ∧ (((m.searchIndex.filter
              (fun e => isMatch m.activeFilters (toLowerCase query) options e.2)).length : Int)
            ≤ options.limit →
          ∀ e ∈ m.searchIndex, isMatch m.activeFilters (toLowerCase query) options e.2 = true →
            ∃ r ∈ res, candidate (toLowerCase query) options e.2 = some r)
      ∧ (∀ (q : String) (item : IndexedRecord) (fuzzy : Bool) (s : ℚ),
          calculateSearchScore q item fuzzy = .ok s → 0 ≤ s) := by
  rcases search_ok_cases m query options now res h with ⟨hlt, _⟩ | ⟨_, results, hc, hres⟩
  · omega
  have hresults := collectResults_eq_filterMap _ _ _ _ hc
  refine ⟨fun r hr => ?_, fun hcount e he hm => ?_,
    fun q item fuzzy s hs => calculateSearchScore_nonneg q item fuzzy s hs⟩
  · have h1 : r ∈ sortByScore results := by
      rw [hres] at hr
      exact ((sliceTo_sublist _ _).trans (applyFilters_sublist _ _)).subset hr
    have h2 : r ∈ results := (sortByScore_perm results).mem_iff.mp h1
    rw [hresults] at h2
    obtain ⟨e, _, hcand⟩ := List.mem_filterMap.mp h2
    obtain ⟨_, hscore, hpos, hrec⟩ := candidate_some _ _ _ _ hcand
    rw [hrec]
    exact ⟨hpos, hscore⟩
  · have hlen : (applyFilters m.activeFilters (sortByScore results)).length
        = (m.searchIndex.filter
            (fun e => isMatch m.activeFilters (toLowerCase query) options e.2)).length := by
      rw [applyFilters_eq_filter, ((sortByScore_perm results).filter _).length_eq, hresults]
      exact length_filter_candidates _ _ _ _
    have hall : res = applyFilters m.activeFilters (sortByScore results) := by
      rw [hres]
      apply sliceTo_of_length_le
      rw [hlen]
      exact hcount
    cases hcand : candidate (toLowerCase query) options e.2 with
    | none => simp [isMatch, hcand] at hm
    | some r =>
      refine ⟨r, ?_, rfl⟩
      have hpass : passesFilters m.activeFilters r = true := by
        rw [passesFilters_eq_all]
        simpa [isMatch, hcand] using hm
      have hmem : r ∈ results := by
        rw [hresults]
        exact List.mem_filterMap.mpr ⟨e, he, hcand⟩
      rw [hall, applyFilters_eq_filter]
      exact List.mem_filter.mpr ⟨(sortByScore_perm results).mem_iff.mpr hmem, hpass⟩

/-- The search for "fix" in the sample manager with the priority filter on "high": the only
match is the task `t1`. -/
theorem search_fix_filtered_eq : (search filteredManager "fix" {} "t1").1 = .ok
    [ { toIndexedRecord := mkRecord "task" (JsVal.str "t1")
            [("title", JsVal.str "Fix authentication bug"), ("status", JsVal.str "todo"),
              ("priority", JsVal.str "high")],
        score := 205, highlights := some [{ start := 0, stop := 3, text := "fix" }] } ] := by
  with_unfolding_all rfl

/-- The search for "fix" with the priority filter on "high" returns the one match. -/
theorem search_positive_complete_witness :
    2 ≤ "fix".length
      ∧ ∃ res, (search filteredManager "fix" {} "t1").1 = .ok res
        ∧ res.map (fun r => (r.id.toStr, r.score)) = [("t1", 205)]
        ∧ (∀ r ∈ res, 0 < r.score
          ∧ calculateSearchScore (toLowerCase "fix") r.toIndexedRecord false = .ok r.score)
        ∧ (∀ e ∈ filteredManager.searchIndex,
            isMatch filteredManager.activeFilters (toLowerCase "fix") {} e.2 = true →
              ∃ r ∈ res, candidate (toLowerCase "fix") {} e.2 = some r) :=
  ⟨by decide, _, search_fix_filtered_eq, by with_unfolding_all rfl,
    (search_positive_complete filteredManager "fix" {} "t1" _ (by decide)
      search_fix_filtered_eq).1,
    (search_positive_complete filteredManager "fix" {} "t1" _ (by decide)
      search_fix_filtered_eq).2.1 (by decide!)⟩

/-! ## Lemmas on records built by `addToIndex` -/

theorem getProp_str_mem (props : List (String × JsVal)) (name s : String)
    (h : getProp props name = JsVal.str s) : s ∈ stringValues props := by
  unfold getProp at h
  split at h
  · next p hp =>
    have hmem := List.mem_of_find?_eq_some hp
    clear hp
    induction props with
    | nil => simp at hmem
    | cons q rest ih =>
      rcases List.mem_cons.mp hmem with heq | hin
      · subst heq
        obtain ⟨n, v⟩ := p
        simp only at h
        subst h
        simp [stringValues]
      · have := ih hin
        obtain ⟨n, v⟩ := q
        cases v <;> simp [stringValues, this]
  · simp at h

theorem data_append (a b : String) : (a ++ b).data = a.data ++ b.data := rfl

theorem mem_joinSpace (strings : List String) (s : String) (h : s ∈ strings) :
    s.data <:+: (joinSpace strings).data := by
  induction strings with
  | nil => simp at h
  | cons a rest ih =>
    cases rest with
    | nil =>
      simp only [List.mem_singleton] at h
      subst h
      exact List.infix_refl _
    | cons b rest' =>
      simp only [joinSpace, data_append]
      rcases List.mem_cons.mp h with heq | hin
      · subst heq
        exact ⟨[], " ".data ++ (joinSpace (b :: rest')).data, by simp⟩
      · obtain ⟨l, r, hlr⟩ := ih hin
        exact ⟨a.data ++ " ".data ++ l, r, by simp [← hlr]⟩

/-- The searchable text of a record built by `addToIndex` contains the lowercased value of
every property of the data that is a string. -/
theorem searchableText_contains (type : String) (id : JsVal) (data : List (String × JsVal))
    (name s : String) (h : getProp data name = JsVal.str s) :
    (toLowerCase s).data <:+: (mkRecord type id data).searchableText.data := by
  have h1 := mem_joinSpace _ _ (getProp_str_mem data name s h)
  exact h1.map Char.toLower

theorem primaryField_str_contains (type : String) (id : JsVal) (data : List (String × JsVal))
    (s : String) (h : primaryField (mkRecord type id data) = JsVal.str s) :
    (toLowerCase s).data <:+: (mkRecord type id data).searchableText.data := by
  unfold primaryField at h
  split at h
  · exact searchableText_contains type id data "title" s h
  · split at h
    · exact searchableText_contains type id data "name" s h
    · split at h
      · exact searchableText_contains type id data "name" s h
      · simp at h

/-- For a record built by `addToIndex`, the field boost is zero when the text does not
contain the query. -/
theorem guardedFieldBoost_eq_zero (type : String) (id : JsVal) (data : List (String × JsVal))
    (query : String)
    (h : ¬ query.data <:+: (mkRecord type id data).searchableText.data) :
    guardedFieldBoost query (mkRecord type id data) = 0 := by
  unfold guardedFieldBoost
  split
  · next s hs =>
    have hc := primaryField_str_contains type id data s hs
    have : ¬ (s ≠ "" ∧ query.data <:+: (toLowerCase s).data) := fun hh => h (hh.2.trans hc)
    simp [this]
  · rfl

/-- The score in either mode, for a record that does not make the call raise. -/
theorem calculateSearchScore_ok (query : String) (item : IndexedRecord) (fuzzy : Bool)
    (h : raisesOn item = false) :
    calculateSearchScore query item fuzzy
      = .ok ((if fuzzy && textScore query item.searchableText == 0 then
            (textScore query item.searchableText : ℚ) + fuzzyScore query item.searchableText
          else (textScore query item.searchableText : ℚ))
        + (guardedFieldBoost query item : ℚ)) := by
  rw [calculateSearchScore_eq, fieldBoost_eq]
  unfold raisesOn at h
  rw [h]
  simp only [Bool.false_eq_true, if_false]
  rfl

theorem calculateSearchScore_raises (query : String) (item : IndexedRecord) (fuzzy : Bool)
    (h : raisesOn item = true) :
    calculateSearchScore query item fuzzy = .error noToLowerCase := by
  rw [calculateSearchScore_eq, fieldBoost_eq]
  unfold raisesOn at h
  rw [h]
  simp

theorem collectResults_returns (query : String) (options : SearchOptions)
    (hq : query.data ≠ []) :
    ∀ (searchIndex : List (String × IndexedRecord)),
      (∀ e ∈ searchIndex, options.types.contains e.2.type = true → raisesOn e.2 = false) →
      ∃ results, collectResults query options searchIndex = .ok results
  | [], _ => ⟨[], rfl⟩
  | (key, item) :: rest, h => by
    obtain ⟨results, hr⟩ := collectResults_returns query options hq rest
      (fun e he => h e (List.mem_cons_of_mem _ he))
    unfold collectResults
    by_cases ht : options.types.contains item.type = true
    · have hno := h (key, item) (List.mem_cons_self _ _) ht
      have hok := calculateSearchScore_ok query item options.fuzzy hno
      generalize ((if options.fuzzy && textScore query item.searchableText == 0 then
            (textScore query item.searchableText : ℚ) + fuzzyScore query item.searchableText
          else (textScore query item.searchableText : ℚ))
        + (guardedFieldBoost query item : ℚ)) = score at hok
      simp only [ht, Bool.not_true, Bool.false_eq_true, if_false, hok, hr]
      by_cases hs : score > 0
      · by_cases hi : options.includeHighlights = true
        · simp only [hs, if_true, hi, getHighlights, hq, if_false, Except.map]
          exact ⟨_, rfl⟩
        · simp only [hs, if_true, hi, Bool.false_eq_true, if_false]
          exact ⟨_, rfl⟩
      · simp only [hs, if_false]
        exact ⟨_, rfl⟩
    · simp only [ht, Bool.not_false, if_true]
      exact ⟨results, hr⟩

/-- The call `search` returns a list when no record of a requested type has a primary field
that is truthy and not a string. -/
theorem search_returns (m : SearchFilterManager) (query : String) (options : SearchOptions)
    (now : String)
    (h : ∀ e ∈ m.searchIndex, options.types.contains e.2.type = true → raisesOn e.2 = false) :
    ∃ res, (search m query options now).1 = .ok res := by
  unfold search
  by_cases hq : query.length < 2
  · exact ⟨[], by simp [hq]⟩
  · have hne : (toLowerCase query).data ≠ [] := by
      intro hnil
      have hl : (toLowerCase query).data.length = query.data.length :=
        List.length_map _ _
      rw [hnil] at hl
      have : query.length = query.data.length := rfl
      simp only [List.length_nil] at hl
      omega
    obtain ⟨results, hr⟩ := collectResults_returns (toLowerCase query) options hne
      m.searchIndex h
    simp only [hq, if_false, hr]
    exact ⟨_, rfl⟩

/-! ## Lemmas on the fuzzy scan -/

theorem fuzzyLoop_le (text : String) (query : List Char) (textIndex matched : Nat) :
    fuzzyLoop text query textIndex matched ≤ matched + query.length := by
  induction query generalizing textIndex matched with
  | nil => simp [fuzzyLoop]
  | cons c cs ih =>
    simp only [fuzzyLoop, List.length_cons]
    split
    · have := ih (indexOf text c textIndex + 1).toNat (matched + 1)
      omega
    · have := ih textIndex matched
      omega

theorem fuzzyScore_le_ten (query text : String) : fuzzyScore query text ≤ 10 := by
  unfold fuzzyScore
  have h : fuzzyMatches query text ≤ query.length := by
    have := fuzzyLoop_le text query.data 0 0
    rw [Nat.zero_add] at this
    exact this
  have hq : ((fuzzyMatches query text : ℚ) / (query.length : ℚ)) ≤ 1 := by
    apply div_le_one_of_le₀
    · exact_mod_cast h
    · positivity
  linarith

theorem indexOfAux_spec (c : Char) (rest : List Char) (i : Nat) :
    (dropThrough c rest = none ∧ indexOfAux c rest i = -1)
      ∨ ∃ k, indexOfAux c rest i = ((i + k : Nat) : Int)
          ∧ dropThrough c rest = some (rest.drop (k + 1)) := by
  induction rest generalizing i with
  | nil => left; simp [dropThrough, indexOfAux]
  | cons d ds ih =>
    by_cases hd : d = c
    · right
      exact ⟨0, by simp [indexOfAux, hd], by simp [dropThrough, hd]⟩
    · rcases ih (i + 1) with ⟨h1, h2⟩ | ⟨k, h1, h2⟩
      · left
        simp [dropThrough, indexOfAux, hd, h1, h2]
      · right
        refine ⟨k + 1, ?_, ?_⟩
        · simp only [indexOfAux, hd, if_false, h1]
          congr 1
          omega
        · simp [dropThrough, hd, h2]

/-- The loop of `fuzzyScore`, which keeps a position in the text, counts what the greedy
scan counts on the rest of the text. -/
theorem fuzzyLoop_eq_greedy (text : String) (query : List Char) (textIndex matched : Nat) :
    fuzzyLoop text query textIndex matched
      = matched + greedyMatches query (text.data.drop textIndex) := by
  induction query generalizing textIndex matched with
  | nil => simp [fuzzyLoop, greedyMatches]
  | cons c cs ih =>
    simp only [fuzzyLoop, greedyMatches, indexOf]
    rcases indexOfAux_spec c (text.data.drop textIndex) textIndex with ⟨h1, h2⟩ | ⟨k, h1, h2⟩
    · simp only [h1, h2, ne_eq, not_true, if_false]
      exact ih textIndex matched
    · have hne : ((textIndex + k : Nat) : Int) ≠ -1 := by omega
      simp only [h1, h2, ne_eq, hne, not_false_eq_true, if_true]
      have hpos : (((textIndex + k : Nat) : Int) + 1).toNat = textIndex + k + 1 := by omega
      rw [hpos, ih, List.drop_drop]
      have : textIndex + k + 1 = textIndex + (k + 1) := by omega
      rw [this]
      omega

theorem fuzzyMatches_eq_greedy (query text : String) :
    fuzzyMatches query text = greedyMatches query.data text.data := by
  simp [fuzzyMatches, fuzzyLoop_eq_greedy]

/-! ## C8: a query that the text contains dominates -/

theorem textScore_ge_of_contains (query text : String) (h : query.data <:+: text.data) :
    100 + 25 * (splitSpaces query).countP (fun word => decide (word.data <:+: text.data))
      ≤ textScore query text := by
  rw [textScore_eq]
  unfold claimedTextScore
  simp only [h, if_true]
  omega

theorem textScore_of_not_contains (query text : String) (h : ¬ query.data <:+: text.data) :
    textScore query text
      = 25 * (splitSpaces query).countP (fun word => decide (word.data <:+: text.data)) := by
  rw [textScore_eq]
  unfold claimedTextScore
  have hp : ¬ query.data <+: text.data := fun hh => h hh.isInfix
  simp [h, hp]

/-- C8: for a record built by `addToIndex` and two queries that split on whitespace into
the same words, the first a substring of the searchable text and the second not, the score
of the first is at least the score of the second, with or without fuzzy mode; both calls
return a score, unless the primary field of the record is truthy and not a string, in which
case both calls raise the same type error. -/
theorem score_substring_dominates (type : String) (id : JsVal)
    (data : List (String × JsVal)) (q₁ q₂ : String) (fuzzy : Bool)
    (hw : splitSpaces q₁ = splitSpaces q₂)
    (h₁ : q₁.data <:+: (mkRecord type id data).searchableText.data)
    (h₂ : ¬ q₂.data <:+: (mkRecord type id data).searchableText.data) :
    (∃ s₁ s₂ : ℚ, calculateSearchScore q₁ (mkRecord type id data) fuzzy = .ok s₁
        ∧ calculateSearchScore q₂ (mkRecord type id data) fuzzy = .ok s₂ ∧ s₂ ≤ s₁)
      ∨ (raisesOn (mkRecord type id data) = true
        ∧ calculateSearchScore q₁ (mkRecord type id data) fuzzy = .error noToLowerCase
        ∧ calculateSearchScore q₂ (mkRecord type id data) fuzzy = .error noToLowerCase) := by
  cases hr : raisesOn (mkRecord type id data) with
  | true =>
    right
    exact ⟨rfl, calculateSearchScore_raises _ _ _ hr, calculateSearchScore_raises _ _ _ hr⟩
  | false =>
    left
    refine ⟨_, _, calculateSearchScore_ok _ _ _ hr, calculateSearchScore_ok _ _ _ hr, ?_⟩
    have hb : guardedFieldBoost q₂ (mkRecord type id data) = 0 :=
      guardedFieldBoost_eq_zero type id data q₂ h₂
    have ht1 := textScore_ge_of_contains q₁ _ h₁
    have ht2 := textScore_of_not_contains q₂ _ h₂
    rw [hw] at ht1
    have hf2 := fuzzyScore_le_ten q₂ (mkRecord type id data).searchableText
    have hf1 := fuzzyScore_nonneg q₁ (mkRecord type id data).searchableText
    have hne : (textScore q₁ (mkRecord type id data).searchableText == 0) = false := by
      rw [beq_eq_false_iff_ne]
      omega
    have hle : ((textScore q₂ (mkRecord type id data).searchableText : Nat) : ℚ) + 10
        ≤ ((textScore q₁ (mkRecord type id data).searchableText : Nat) : ℚ) := by
      have : textScore q₂ (mkRecord type id data).searchableText + 10
          ≤ textScore q₁ (mkRecord type id data).searchableText := by omega
      exact_mod_cast this
    have hb1 : (0 : ℚ) ≤ (guardedFieldBoost q₁ (mkRecord type id data) : ℚ) := by positivity
    rw [hb, hne]
    simp only [Bool.and_false, Bool.false_eq_true, if_false, Nat.cast_zero, add_zero]
    split <;> linarith

/-- The queries "fix authentication" and "fix  authentication" (two spaces) on the sample
task: the same words, the first is in the text and the second is not. -/
theorem score_substring_dominates_witness :
    splitSpaces "fix authentication" = splitSpaces "fix  authentication"
      ∧ "fix authentication".data <:+: sampleTask.searchableText.data
      ∧ ¬ "fix  authentication".data <:+: sampleTask.searchableText.data
      ∧ ((∃ s₁ s₂ : ℚ, calculateSearchScore "fix authentication" sampleTask true = .ok s₁
            ∧ calculateSearchScore "fix  authentication" sampleTask true = .ok s₂ ∧ s₂ ≤ s₁)
        ∨ (raisesOn sampleTask = true
          ∧ calculateSearchScore "fix authentication" sampleTask true = .error noToLowerCase
          ∧ calculateSearchScore "fix  authentication" sampleTask true
            = .error noToLowerCase)) :=
  ⟨by decide, by decide, by decide,
    score_substring_dominates "task" (JsVal.str "t1")
      [("title", JsVal.str "Fix authentication bug"), ("status", JsVal.str "todo"),
        ("priority", JsVal.str "high")]
      "fix authentication" "fix  authentication" true (by decide) (by decide) (by decide)⟩

/-! ## C9: the fuzzy fallback -/

/-- C9: for a record built by `addToIndex`, the score with fuzzy mode requested is the
score without fuzzy mode when that score is positive, and otherwise it is ten times the
number of characters that the greedy scan of the query finds in the searchable text,
divided by the length of the query; the call with fuzzy mode raises exactly when the call
without it raises. -/
theorem fuzzy_score_eq (type : String) (id : JsVal) (data : List (String × JsVal))
    (query : String) :
    calculateSearchScore query (mkRecord type id data) true
      = match calculateSearchScore query (mkRecord type id data) false with
        | .error e => .error e
        | .ok s =>
          if 0 < s then .ok s
          else .ok (10 * (greedyMatches query.data (mkRecord type id data).searchableText.data : ℚ)
            / (query.length : ℚ)) := by
  cases hr : raisesOn (mkRecord type id data) with
  | true =>
    rw [calculateSearchScore_raises _ _ _ hr, calculateSearchScore_raises _ _ _ hr]
  | false =>
    rw [calculateSearchScore_ok _ _ _ hr, calculateSearchScore_ok _ _ _ hr]
    simp only [Bool.true_and, Bool.false_and, Bool.false_eq_true, if_false]
    by_cases hz : textScore query (mkRecord type id data).searchableText = 0
    · have hnc : ¬ query.data <:+: (mkRecord type id data).searchableText.data := by
        intro hc
        have := textScore_ge_of_contains query _ hc
        omega
      have hb := guardedFieldBoost_eq_zero type id data query hnc
      rw [hb, hz]
      simp only [beq_self_eq_true, if_true, Nat.cast_zero, add_zero, zero_add, lt_irrefl,
        if_false]
      congr 1
      rw [fuzzyScore, fuzzyMatches_eq_greedy]
      ring
    · have hne : (textScore query (mkRecord type id data).searchableText == 0) = false := by
        rw [beq_eq_false_iff_ne]
        exact hz
      have hpos : (0 : ℚ) < ((textScore query (mkRecord type id data).searchableText : Nat) : ℚ)
          + (guardedFieldBoost query (mkRecord type id data) : ℚ) := by
        have : 0 < textScore query (mkRecord type id data).searchableText := by omega
        have h' : (0 : ℚ) < ((textScore query (mkRecord type id data).searchableText : Nat) : ℚ) := by
          exact_mod_cast this
        have hb1 : (0 : ℚ) ≤ (guardedFieldBoost query (mkRecord type id data) : ℚ) := by
          positivity
        linarith
      rw [hne]
      simp only [Bool.false_eq_true, if_false, hpos, if_true]

/-! ## Lemmas on building the index -/

theorem mapSet_sameShape (key : String) (v v' : IndexedRecord)
    (hv : sameShape (key, v) (key, v')) :
    ∀ (index index' : List (String × IndexedRecord)), List.Forall₂ sameShape index index' →
      List.Forall₂ sameShape (mapSet key v index) (mapSet key v' index') := by
  intro index index' h
  induction h with
  | nil => exact List.Forall₂.cons hv List.Forall₂.nil
  | @cons e e' rest rest' he _ ih =>
    obtain ⟨k, r⟩ := e
    obtain ⟨k', r'⟩ := e'
    have hk : k = k' := he.1
    subst hk
    by_cases hkey : k = key
    · subst hkey
      simp only [mapSet, if_true]
      exact List.Forall₂.cons hv (by assumption)
    · simp only [mapSet, hkey, if_false]
      exact List.Forall₂.cons he ih

theorem addToIndex_sameShape (type : String) (id : JsVal) (data : List (String × JsVal))
    (index index' : List (String × IndexedRecord)) (h : List.Forall₂ sameShape index index') :
    List.Forall₂ sameShape (addToIndex index type id data) (addToIndex index' type id data) :=
  mapSet_sameShape _ _ _ ⟨rfl, Or.inl rfl⟩ index index' h

theorem addToIndex_task_sameShape (id : JsVal) (data data' : List (String × JsVal))
    (index index' : List (String × IndexedRecord)) (h : List.Forall₂ sameShape index index') :
    List.Forall₂ sameShape (addToIndex index "task" id data)
      (addToIndex index' "task" id data') :=
  mapSet_sameShape (indexKey "task" id) (mkRecord "task" id data) (mkRecord "task" id data')
    ⟨rfl, Or.inr ⟨rfl, rfl, rfl⟩⟩ index index' h

theorem forEachItems_sameShape
    (callback : JsVal → List (String × IndexedRecord) →
      Except Failure (List (String × IndexedRecord)))
    (hc : keepsShape callback) (items : List JsVal) :
    ∀ (index index' : List (String × IndexedRecord)), List.Forall₂ sameShape index index' →
      (forEachItems callback items index).1 = (forEachItems callback items index').1
        ∧ List.Forall₂ sameShape (forEachItems callback items index).2
          (forEachItems callback items index').2 := by
  induction items with
  | nil =>
    intro index index' h
    exact ⟨rfl, h⟩
  | cons item rest ih =>
    intro index index' h
    rcases hc item index index' h with ⟨e, h1, h2⟩ | ⟨next, next', h1, h2, hn⟩
    · simp only [forEachItems, h1, h2]
      exact ⟨trivial, h⟩
    · simp only [forEachItems, h1, h2]
      exact ih next next' hn

theorem forEach_sameShape
    (callback : JsVal → List (String × IndexedRecord) →
      Except Failure (List (String × IndexedRecord)))
    (hc : keepsShape callback) (value : JsVal)
    (index index' : List (String × IndexedRecord)) (h : List.Forall₂ sameShape index index') :
    (forEach callback value index).1 = (forEach callback value index').1
      ∧ List.Forall₂ sameShape (forEach callback value index).2
        (forEach callback value index').2 := by
  cases value with
  | arr items => exact forEachItems_sameShape callback hc items index index' h
  | _ => exact ⟨rfl, h⟩

theorem indexMember_keepsShape : keepsShape indexMember := by
  intro item index index' h
  unfold indexMember
  split
  · exact Or.inl ⟨_, rfl, rfl⟩
  · exact Or.inr ⟨_, _, rfl, rfl, addToIndex_sameShape _ _ _ _ _ h⟩

theorem indexProject_keepsShape : keepsShape indexProject := by
  intro item index index' h
  unfold indexProject
  split
  · exact Or.inl ⟨_, rfl, rfl⟩
  · exact Or.inr ⟨_, _, rfl, rfl, addToIndex_sameShape _ _ _ _ _ h⟩

theorem indexGoal_keepsShape : keepsShape indexGoal := by
  intro item index index' h
  unfold indexGoal
  split
  · exact Or.inl ⟨_, rfl, rfl⟩
  · exact Or.inr ⟨_, _, rfl, rfl, addToIndex_sameShape _ _ _ _ _ h⟩

theorem indexComment_keepsShape : keepsShape indexComment := by
  intro item index index' h
  unfold indexComment
  split
  · exact Or.inl ⟨_, rfl, rfl⟩
  · split
    · exact Or.inl ⟨_, rfl, rfl⟩
    · exact Or.inr ⟨_, _, rfl, rfl, addToIndex_sameShape _ _ _ _ _ h⟩

/-- The loop of `indexTasks` under two clocks: the same outcome, indexes of the same
shape. -/
theorem indexTask_sameShape (clock clock' : Nat → String) (items : List JsVal) :
    ∀ (index index' : List (String × IndexedRecord)) (tick tick' : Nat),
      List.Forall₂ sameShape index index' →
      (forEachItems (indexTask clock) items (index, tick)).1
          = (forEachItems (indexTask clock') items (index', tick')).1
        ∧ List.Forall₂ sameShape (forEachItems (indexTask clock) items (index, tick)).2.1
          (forEachItems (indexTask clock') items (index', tick')).2.1 := by
  induction items with
  | nil =>
    intro index index' tick tick' h
    exact ⟨rfl, h⟩
  | cons item rest ih =>
    intro index index' tick tick' h
    by_cases hn : isNullish item = true
    · simp only [forEachItems, indexTask, hn, if_true]
      exact ⟨trivial, h⟩
    · simp only [forEachItems, indexTask, hn, if_false]
      exact ih _ _ _ _ (addToIndex_task_sameShape _ _ _ _ _ h)

theorem indexGoals_sameShape (sources : Sources)
    (index index' : List (String × IndexedRecord)) (h : List.Forall₂ sameShape index index') :
    List.Forall₂ sameShape (indexGoals sources index) (indexGoals sources index') := by
  unfold indexGoals
  split
  · exact h
  · exact (forEach_sameShape _ indexGoal_keepsShape _ _ _ h).2

theorem indexComments_sameShape (sources : Sources)
    (index index' : List (String × IndexedRecord)) (h : List.Forall₂ sameShape index index') :
    List.Forall₂ sameShape (indexComments sources index) (indexComments sources index') := by
  unfold indexComments
  split
  · exact h
  · exact (forEach_sameShape _ indexComment_keepsShape _ _ _ h).2

theorem buildSearchIndex_sameShape (m m' : SearchFilterManager) (sources : Sources)
    (clock clock' : Nat → String) :
    (buildSearchIndex m sources clock).1 = (buildSearchIndex m' sources clock').1
      ∧ List.Forall₂ sameShape (buildSearchIndex m sources clock).2.searchIndex
        (buildSearchIndex m' sources clock').2.searchIndex := by
  have ht := indexTask_sameShape clock clock' (getAllTasks sources.taskCards) [] [] 0 0
    List.Forall₂.nil
  unfold buildSearchIndex indexTasks
  generalize forEachItems (indexTask clock) (getAllTasks sources.taskCards) ([], 0) = a at ht ⊢
  generalize forEachItems (indexTask clock') (getAllTasks sources.taskCards) ([], 0) = a' at ht ⊢
  obtain ⟨o, idx, t⟩ := a
  obtain ⟨o', idx', t'⟩ := a'
  simp only at ht
  obtain ⟨ho, hidx⟩ := ht
  subst ho
  cases o with
  | error e => exact ⟨rfl, hidx⟩
  | ok u =>
    simp only
    have hm := forEach_sameShape _ indexMember_keepsShape (getAllTeamMembers sources) idx idx' hidx
    unfold indexTeamMembers
    generalize forEach indexMember (getAllTeamMembers sources) idx = b at hm ⊢
    generalize forEach indexMember (getAllTeamMembers sources) idx' = b' at hm ⊢
    obtain ⟨o, idx⟩ := b
    obtain ⟨o', idx'⟩ := b'
    simp only at hm
    obtain ⟨ho, hidx⟩ := hm
    subst ho
    cases o with
    | error e => exact ⟨rfl, hidx⟩
    | ok u =>
      simp only
      have hp := forEach_sameShape _ indexProject_keepsShape getAllProjects idx idx' hidx
      unfold indexProjects
      generalize forEach indexProject getAllProjects idx = c at hp ⊢
      generalize forEach indexProject getAllProjects idx' = c' at hp ⊢
      obtain ⟨o, idx⟩ := c
      obtain ⟨o', idx'⟩ := c'
      simp only at hp
      obtain ⟨ho, hidx⟩ := hp
      subst ho
      cases o with
      | error e => exact ⟨rfl, hidx⟩
      | ok u =>
        exact ⟨rfl, indexComments_sameShape _ _ _ (indexGoals_sameShape _ _ _ hidx)⟩

theorem buildSearchIndex_index_eq (m m' : SearchFilterManager) (sources : Sources)
    (clock : Nat → String) :
    (buildSearchIndex m sources clock).2.searchIndex
      = (buildSearchIndex m' sources clock).2.searchIndex := by
  unfold buildSearchIndex
  rcases indexTasks sources clock [] with ⟨o₁, i₁⟩
  cases o₁ with
  | error e => rfl
  | ok u =>
    simp only
    rcases indexTeamMembers sources i₁ with ⟨o₂, i₂⟩
    cases o₂ with
    | error e => rfl
    | ok u =>
      simp only
      rcases indexProjects i₂ with ⟨o₃, i₃⟩
      cases o₃ with
      | error e => rfl
      | ok u => rfl

/-! ## C10: building the index twice -/

/-- C10, as stated, fails: with one card in the document and the clock one second later at
the second call, the searchable text of the task record differs between the two calls. -/
theorem buildSearchIndex_text_differs :
    ((buildSearchIndex sampleManager oneCardSources
        (fun _ => "2024-01-01T00:00:00.000Z")).2.searchIndex.map
          (fun e => e.2.searchableText)).head?
        = some ("fix bug  todo high unassigned current-sprint "
            ++ "2024-01-01t00:00:00.000z 2024-01-01t00:00:00.000z")
      ∧ ((buildSearchIndex
          (buildSearchIndex sampleManager oneCardSources
            (fun _ => "2024-01-01T00:00:00.000Z")).2
          oneCardSources (fun _ => "2024-01-01T00:00:01.000Z")).2.searchIndex.map
            (fun e => e.2.searchableText)).head?
        = some ("fix bug  todo high unassigned current-sprint "
            ++ "2024-01-01t00:00:01.000z 2024-01-01t00:00:01.000z")
      ∧ "fix bug  todo high unassigned current-sprint "
            ++ "2024-01-01t00:00:00.000z 2024-01-01t00:00:00.000z"
        ≠ "fix bug  todo high unassigned current-sprint "
            ++ "2024-01-01t00:00:01.000z 2024-01-01t00:00:01.000z" := by
  refine ⟨?_, ?_, by decide⟩ <;> with_unfolding_all rfl

/-- C10, amended: two calls of `buildSearchIndex` on the same sources, whatever the clock
reads, have the same outcome and give indexes with the same number of records, under the
same keys in the same order, with the same type and id, and with the same record (hence the
same searchable text) wherever the record is not a task; when the clock reads the same at
both calls the two indexes are equal. -/
theorem buildSearchIndex_twice (m : SearchFilterManager) (sources : Sources)
    (clock clock' : Nat → String) :
    (buildSearchIndex (buildSearchIndex m sources clock).2 sources clock').1
        = (buildSearchIndex m sources clock).1
      ∧ (buildSearchIndex (buildSearchIndex m sources clock).2 sources clock').2.searchIndex.length
        = (buildSearchIndex m sources clock).2.searchIndex.length
      ∧ List.Forall₂
          (fun e e' => e.1 = e'.1 ∧ e.2.type = e'.2.type ∧ e.2.id = e'.2.id
            ∧ (e.2.type ≠ "task" → e.2 = e'.2))
          (buildSearchIndex m sources clock).2.searchIndex
          (buildSearchIndex (buildSearchIndex m sources clock).2 sources clock').2.searchIndex
      ∧ (buildSearchIndex (buildSearchIndex m sources clock).2 sources clock).2.searchIndex
        = (buildSearchIndex m sources clock).2.searchIndex := by
  have h := buildSearchIndex_sameShape m (buildSearchIndex m sources clock).2 sources clock clock'
  refine ⟨h.1.symm, h.2.length_eq.symm, ?_, buildSearchIndex_index_eq _ _ _ _⟩
  refine h.2.imp ?_
  rintro ⟨k, r⟩ ⟨k', r'⟩ ⟨hk, hr⟩
  refine ⟨hk, ?_⟩
  rcases hr with heq | ⟨h1, h2, h3⟩
  · simp only at heq
    subst heq
    exact ⟨rfl, rfl, fun _ => rfl⟩
  · exact ⟨h1.trans h2.symm, h3, fun hne => absurd h1 hne⟩

/-! ## Lemmas on the index as a map -/

theorem mapGet_mapSet_self {α : Type} (key : String) (value : α) (entries : List (String × α)) :
    mapGet key (mapSet key value entries) = some value := by
  induction entries with
  | nil => simp [mapSet, mapGet]
  | cons e rest ih =>
    obtain ⟨k, v⟩ := e
    by_cases hk : k = key
    · simp [mapSet, mapGet, hk]
    · simp [mapSet, mapGet, hk, ih]

theorem mapSet_keys {α : Type} (key : String) (value : α) (entries : List (String × α)) :
    (mapSet key value entries).map Prod.fst
      = if key ∈ entries.map Prod.fst then entries.map Prod.fst
        else entries.map Prod.fst ++ [key] := by
  induction entries with
  | nil => simp [mapSet]
  | cons e rest ih =>
    obtain ⟨k, v⟩ := e
    by_cases hk : k = key
    · simp [mapSet, hk]
    · have hk' : ¬ key = k := fun h => hk h.symm
      simp only [mapSet, hk, if_false, List.map_cons, ih, List.mem_cons, hk', false_or]
      split <;> simp

theorem mapSet_filter_ne {α : Type} (key : String) (value : α) (entries : List (String × α)) :
    (mapSet key value entries).filter (fun e => decide (e.1 ≠ key))
      = entries.filter (fun e => decide (e.1 ≠ key)) := by
  induction entries with
  | nil => simp [mapSet]
  | cons e rest ih =>
    obtain ⟨k, v⟩ := e
    by_cases hk : k = key
    · simp [mapSet, hk]
    · simp only [mapSet, hk, if_false, List.filter_cons, ih]

theorem mapSet_filter_eq {α : Type} (key : String) (value : α) (entries : List (String × α))
    (h : (entries.map Prod.fst).Nodup) :
    (mapSet key value entries).filter (fun e => decide (e.1 = key)) = [(key, value)] := by
  induction entries with
  | nil => simp [mapSet]
  | cons e rest ih =>
    obtain ⟨k, v⟩ := e
    simp only [List.map_cons, List.nodup_cons] at h
    by_cases hk : k = key
    · subst hk
      have hrest : rest.filter (fun e => decide (e.1 = k)) = [] := by
        rw [List.filter_eq_nil_iff]
        intro e he
        have : e.1 ≠ k := fun hh => h.1 (hh ▸ List.mem_map_of_mem Prod.fst he)
        simpa using this
      simp [mapSet, hrest]
    · simp [mapSet, hk, ih h.2]

theorem mapSet_length {α : Type} (key : String) (value : α) (entries : List (String × α)) :
    (mapSet key value entries).length
      = if key ∈ entries.map Prod.fst then entries.length else entries.length + 1 := by
  have h := congrArg List.length (mapSet_keys key value entries)
  rw [List.length_map] at h
  rw [h]
  split <;> simp

theorem mapSet_nodup {α : Type} (key : String) (value : α) (entries : List (String × α))
    (h : (entries.map Prod.fst).Nodup) : ((mapSet key value entries).map Prod.fst).Nodup := by
  rw [mapSet_keys]
  split
  · exact h
  · next hk =>
    rw [List.nodup_append]
    refine ⟨h, List.nodup_singleton _, ?_⟩
    intro a ha hb
    simp only [List.mem_singleton] at hb
    exact hk (hb ▸ ha)

theorem mem_mapSet {α : Type} (key : String) (value : α) (entries : List (String × α))
    (e : String × α) (h : e ∈ mapSet key value entries) : e = (key, value) ∨ e ∈ entries := by
  induction entries with
  | nil =>
    simp only [mapSet, List.mem_singleton] at h
    exact Or.inl h
  | cons a rest ih =>
    obtain ⟨k, v⟩ := a
    by_cases hk : k = key
    · simp only [mapSet, hk, if_true, List.mem_cons] at h
      rcases h with h | h
      · exact Or.inl h
      · exact Or.inr (List.mem_cons_of_mem _ h)
    · simp only [mapSet, hk, if_false, List.mem_cons] at h
      rcases h with h | h
      · exact Or.inr (h ▸ List.mem_cons_self _ _)
      · rcases ih h with h' | h'
        · exact Or.inl h'
        · exact Or.inr (List.mem_cons_of_mem _ h')

/-! ## C12 and C13: one record per key, and its searchable text -/

theorem toStr_str (s : String) : (JsVal.str s).toStr = s := by
  simp [JsVal.toStr]

theorem indexKey_str_data (type s : String) :
    (indexKey type (JsVal.str s)).data = type.data ++ ':' :: s.data := by
  simp only [indexKey, toStr_str]
  rw [data_append, data_append]
  simp

theorem stringValues_eq (fields : List (String × JsVal)) :
    stringValues fields = stringFields fields := by
  induction fields with
  | nil => rfl
  | cons f rest ih =>
    obtain ⟨n, v⟩ := f
    cases v <;> simp [stringValues, stringFields, List.filterMap_cons] <;> exact ih

theorem intercalate_go (acc : String) (strings : List String) :
    String.intercalate.go acc " " strings
      = match strings with
        | [] => acc
        | s :: rest => acc ++ " " ++ joinSpace (s :: rest) := by
  induction strings generalizing acc with
  | nil => rfl
  | cons s rest ih =>
    simp only [String.intercalate.go]
    rw [ih]
    cases rest with
    | nil => rfl
    | cons t rest' =>
      simp only [joinSpace]
      simp [String.append_assoc]

theorem joinSpace_eq_intercalate (strings : List String) :
    joinSpace strings = String.intercalate " " strings := by
  cases strings with
  | nil => rfl
  | cons s rest =>
    simp only [String.intercalate]
    rw [intercalate_go]
    cases rest with
    | nil => rfl
    | cons t rest' => rfl


theorem entityType_key_injective (t t' : String) (ht : t ∈ entityTypes) (ht' : t' ∈ entityTypes)
    (s s' : String) (h : indexKey t (JsVal.str s) = indexKey t' (JsVal.str s')) :
    t = t' ∧ s = s' := by
  have hd := congrArg String.data h
  rw [indexKey_str_data, indexKey_str_data] at hd
  simp only [entityTypes, List.mem_cons, List.mem_singleton, List.not_mem_nil, or_false] at ht ht'
  rcases ht with rfl | rfl | rfl | rfl | rfl <;> rcases ht' with rfl | rfl | rfl | rfl | rfl <;>
    first
      | (refine ⟨rfl, ?_⟩
         have hd' := List.append_cancel_left hd
         simp only [List.cons.injEq, true_and] at hd'
         exact String.ext hd')
      | (exfalso
         have hh := congrArg List.head? hd
         rw [List.head?_append_of_ne_nil _ (by decide),
           List.head?_append_of_ne_nil _ (by decide)] at hh
         exact absurd hh (by decide))

/-- C13: the searchable text that `addToIndex` stores for a field mapping is the lowercased
concatenation, joined by one space, of the string-typed field values in field order; the
values that are not strings contribute nothing: the text is that of the mapping with only
its string-typed fields. -/
theorem addToIndex_stored_text (searchIndex : List (String × IndexedRecord)) (type : String)
    (id : JsVal) (fields : List (String × JsVal)) :
    (mapGet (indexKey type id) (addToIndex searchIndex type id fields)).map
          (fun record => record.searchableText)
        = some (claimedSearchableText fields)
      ∧ claimedSearchableText fields
        = claimedSearchableText (fields.filter (fun field => field.2.isString)) := by
  constructor
  · simp only [addToIndex, mapGet_mapSet_self, Option.map_some', mkRecord, searchableTextOf,
      claimedSearchableText, stringValues_eq, joinSpace_eq_intercalate]
  · unfold claimedSearchableText
    congr 2
    induction fields with
    | nil => rfl
    | cons f rest ih =>
      obtain ⟨n, v⟩ := f
      cases v <;> simp [stringFields, List.filterMap_cons, List.filter_cons, JsVal.isString] <;>
        exact ih


theorem indexWellFormed_nil : indexWellFormed [] := by
  constructor
  · simp
  · intro e he
    simp at he

/-- C12, as stated, fails: the ids `"1"` and `1` are different and have the same key. With
the record of (task, `"1"`) in the index, `addToIndex('task', 1, ...)` finds the pair (task,
`1`) absent, and yet the size stays 1 and the record of (task, `"1"`) is overwritten. -/
theorem addToIndex_number_id_overwrites :
    JsVal.num 1 ≠ JsVal.str "1"
      ∧ addToIndex [] "task" (JsVal.str "1") [("title", JsVal.str "first")]
        = [("task:1", mkRecord "task" (JsVal.str "1") [("title", JsVal.str "first")])]
      ∧ addToIndex (addToIndex [] "task" (JsVal.str "1") [("title", JsVal.str "first")])
          "task" (JsVal.num 1) [("title", JsVal.str "second")]
        = [("task:1", mkRecord "task" (JsVal.num 1) [("title", JsVal.str "second")])] := by
  refine ⟨by simp, ?_, ?_⟩ <;> with_unfolding_all rfl

/-- C12, amended: the index holds at most one record per key (the text of type, colon and
id). For an index without repeated keys whose records are stored under their own key,
`addToIndex(type, id, data)` gives such an index again; it leaves exactly one record under
the key of (type, id), the newly built one, which is the only record of that type and id;
it leaves the records under every other key as they were, in their order; it increases the
size by 1 if the key was absent and by 0 if it was present; and two different (type, id)
pairs over the five entity types whose ids are strings have different keys, so that they
never overwrite each other. -/
theorem addToIndex_one_record_per_key (searchIndex : List (String × IndexedRecord))
    (type : String) (id : JsVal) (data : List (String × JsVal))
    (h : indexWellFormed searchIndex) :
    indexWellFormed (addToIndex searchIndex type id data)
      ∧ (addToIndex searchIndex type id data).filter (fun e => decide (e.1 = indexKey type id))
        = [(indexKey type id, mkRecord type id data)]
      ∧ (∀ e ∈ addToIndex searchIndex type id data, e.2.type = type → e.2.id = id →
          e = (indexKey type id, mkRecord type id data))
      ∧ (addToIndex searchIndex type id data).filter (fun e => decide (e.1 ≠ indexKey type id))
        = searchIndex.filter (fun e => decide (e.1 ≠ indexKey type id))
      ∧ (addToIndex searchIndex type id data).length
        = (if indexKey type id ∈ searchIndex.map Prod.fst then searchIndex.length
          else searchIndex.length + 1)
      ∧ (∀ t ∈ entityTypes, ∀ t' ∈ entityTypes, ∀ s s' : String,
          indexKey t (JsVal.str s) = indexKey t' (JsVal.str s') → t = t' ∧ s = s') := by
  have hwf : indexWellFormed (addToIndex searchIndex type id data) := by
    refine ⟨mapSet_nodup _ _ _ h.1, fun e he => ?_⟩
    rcases mem_mapSet _ _ _ e he with heq | hin
    · rw [heq]
      rfl
    · exact h.2 e hin
  have hone := mapSet_filter_eq (indexKey type id) (mkRecord type id data) searchIndex h.1
  refine ⟨hwf, hone, fun e he ht hi => ?_, mapSet_filter_ne _ _ _, mapSet_length _ _ _,
    fun t ht t' ht' s s' hk => entityType_key_injective t t' ht ht' s s' hk⟩
  have hkey : e.1 = indexKey type id := by
    rw [hwf.2 e he, ht, hi]
  have hmem : e ∈ (addToIndex searchIndex type id data).filter
      (fun e => decide (e.1 = indexKey type id)) :=
    List.mem_filter.mpr ⟨he, by simpa using hkey⟩
  unfold addToIndex at hmem
  rw [hone] at hmem
  simpa using hmem

/-- The task `t1` indexed twice: the second call replaces the record and the size stays 1. -/
theorem addToIndex_one_record_per_key_witness :
    indexWellFormed (addToIndex [] "task" (JsVal.str "t1") [("title", JsVal.str "first")])
      ∧ (addToIndex (addToIndex [] "task" (JsVal.str "t1") [("title", JsVal.str "first")])
            "task" (JsVal.str "t1") [("title", JsVal.str "second")]).filter
          (fun e => decide (e.1 = indexKey "task" (JsVal.str "t1")))
        = [(indexKey "task" (JsVal.str "t1"),
            mkRecord "task" (JsVal.str "t1") [("title", JsVal.str "second")])]
      ∧ (addToIndex (addToIndex [] "task" (JsVal.str "t1") [("title", JsVal.str "first")])
            "task" (JsVal.str "t1") [("title", JsVal.str "second")]).length = 1 :=
  ⟨(addToIndex_one_record_per_key [] "task" (JsVal.str "t1") [("title", JsVal.str "first")]
      indexWellFormed_nil).1,
    (addToIndex_one_record_per_key _ "task" (JsVal.str "t1") [("title", JsVal.str "second")]
      (addToIndex_one_record_per_key [] "task" (JsVal.str "t1") [("title", JsVal.str "first")]
        indexWellFormed_nil).1).2.1,
    by with_unfolding_all rfl⟩

/-! ## C11: a failing source -/

/-- C11: when `getTeamMembers()` returns an array that holds `null`, `buildSearchIndex`
raises a type error and the index holds the record of the task only: the projects, the goal
and the comment of the other sources are absent. When `getTeamMembers()` raises instead,
`buildSearchIndex` returns and the index holds the records of all sources, with the sample
members. -/
theorem buildSearchIndex_malformed_members :
    (buildSearchIndex sampleManager malformedMembersSources (fun _ => "now")).1
        = .error cannotRead
      ∧ (buildSearchIndex sampleManager malformedMembersSources
          (fun _ => "now")).2.searchIndex.map Prod.fst = ["task:t1"]
      ∧ (buildSearchIndex sampleManager raisingMembersSources (fun _ => "now")).1 = .ok ()
      ∧ (buildSearchIndex sampleManager raisingMembersSources
          (fun _ => "now")).2.searchIndex.map Prod.fst
        = ["task:t1", "member:user1", "member:user2", "member:user3", "member:user4",
            "member:user5", "project:proj1", "project:proj2", "project:proj3", "project:proj4",
            "goal:g1", "comment:c1"] := by
  refine ⟨?_, ?_, ?_, ?_⟩ <;> with_unfolding_all rfl

/-! ## C14 and C15: the most recent queries, capped at 100 -/

theorem addToSearchHistory_eq (searchHistory : List HistoryEntry) (query now : String)
    (h : 2 ≤ query.length) :
    addToSearchHistory searchHistory query now
      = { query := query, timestamp := now, count := 1 }
        :: (searchHistory.filter (fun item => item.query != query)).take 99 := by
  have hlt : ¬ query.length < 2 := by omega
  have hfind : (searchHistory.filter (fun item => item.query != query)).find?
      (fun e => e.query == query) = none := by
    rw [List.find?_eq_none]
    intro e he
    have := (List.mem_filter.mp he).2
    simpa using this
  simp only [addToSearchHistory, hlt, if_false, hfind]
  rfl

theorem numberedQuery_injective : Function.Injective numberedQuery := by
  intro i j h
  have hl := congrArg String.length h
  simp only [numberedQuery, String.length, List.length_replicate] at hl
  omega

theorem numberedQuery_length (i : Nat) : 2 ≤ (numberedQuery i).length := by
  simp [numberedQuery, String.length]

theorem numberedHistory_nodup (n : Nat) :
    ((numberedHistory n).map (fun e => e.query)).Nodup := by
  simp only [numberedHistory, List.map_map]
  exact (List.nodup_range n).map numberedQuery_injective

theorem numberedCalls_nodup (n : Nat) : ((numberedCalls n).map Prod.fst).Nodup := by
  simp only [numberedCalls, List.map_map]
  exact (List.nodup_range n).map numberedQuery_injective

theorem numberedCalls_length (n : Nat) : ∀ c ∈ numberedCalls n, 2 ≤ c.1.length := by
  intro c hc
  simp only [numberedCalls, List.mem_map] at hc
  obtain ⟨i, _, rfl⟩ := hc
  exact numberedQuery_length i

/-- C14, as stated, fails: the history of the 100 queries number 0 to 99 has no duplicate
query; after recording the query "new", the entry of the query number 99, a previous entry
with another query, is no longer in the history. -/
theorem addToSearchHistory_drops_oldest :
    ((numberedHistory 100).map (fun e => e.query)).Nodup
      ∧ ({ query := numberedQuery 99, timestamp := "t0", count := 1 } : HistoryEntry)
          ∈ numberedHistory 100
      ∧ numberedQuery 99 ≠ "new"
      ∧ ({ query := numberedQuery 99, timestamp := "t0", count := 1 } : HistoryEntry)
          ∉ addToSearchHistory (numberedHistory 100) "new" "now" :=
  ⟨numberedHistory_nodup 100, by decide!, by decide!, by decide!⟩

/-- C14, amended: for every history and every query of length at least 2, after
`addToSearchHistory` the entry at the front has that query, it is the only entry with that
query, and the entries after it are the first 99 of the previous entries with another
query, in their previous order. -/
theorem addToSearchHistory_moves_to_front (searchHistory : List HistoryEntry)
    (query now : String) (h : 2 ≤ query.length) :
    (addToSearchHistory searchHistory query now).head?.map (fun e => e.query) = some query
      ∧ ((addToSearchHistory searchHistory query now).filter
          (fun e => e.query == query)).length = 1
      ∧ (addToSearchHistory searchHistory query now).tail
        = (searchHistory.filter (fun item => item.query != query)).take 99 := by
  rw [addToSearchHistory_eq searchHistory query now h]
  refine ⟨rfl, ?_, rfl⟩
  have hnone : ((searchHistory.filter (fun item => item.query != query)).take 99).filter
      (fun e => e.query == query) = [] := by
    rw [List.filter_eq_nil_iff]
    intro e he
    have := (List.mem_filter.mp (List.mem_of_mem_take he)).2
    simpa using this
  simp [List.filter_cons, hnone]

/-- The query "auth" recorded again in the history of the sample scenario. -/
theorem addToSearchHistory_moves_to_front_witness :
    2 ≤ "auth".length
      ∧ (addToSearchHistory authHistory "auth" "t5").head?.map (fun e => e.query) = some "auth"
      ∧ ((addToSearchHistory authHistory "auth" "t5").filter
          (fun e => e.query == "auth")).length = 1
      ∧ (addToSearchHistory authHistory "auth" "t5").tail
        = [{ query := "authentication bug", timestamp := "t4", count := 1 }] :=
  ⟨by decide, (addToSearchHistory_moves_to_front authHistory "auth" "t5" (by decide)).1,
    (addToSearchHistory_moves_to_front authHistory "auth" "t5" (by decide)).2.1,
    by decide⟩

theorem recordAll_append (calls : List (String × String)) (call : String × String)
    (searchHistory : List HistoryEntry) :
    recordAll (calls ++ [call]) searchHistory
      = addToSearchHistory (recordAll calls searchHistory) call.1 call.2 := by
  simp [recordAll, List.foldl_append]

/-- After recording queries that are all different and of length at least 2, from the
empty history, the queries of the history are the last 100 recorded, the last first. -/
theorem recordAll_queries (calls : List (String × String))
    (hd : (calls.map Prod.fst).Nodup) (hl : ∀ c ∈ calls, 2 ≤ c.1.length) :
    (recordAll calls []).map (fun e => e.query) = ((calls.map Prod.fst).reverse).take 100 := by
  induction calls using List.reverseRecOn with
  | nil => rfl
  | append_singleton cs c ih =>
    have hd' : (cs.map Prod.fst).Nodup ∧ c.1 ∉ cs.map Prod.fst := by
      rw [List.map_append, List.nodup_append] at hd
      refine ⟨hd.1, fun hin => ?_⟩
      exact hd.2.2 hin (by simp)
    have ih' := ih hd'.1 (fun x hx => hl x (List.mem_append_left _ hx))
    have hc : 2 ≤ c.1.length := hl c (by simp)
    rw [recordAll_append, addToSearchHistory_eq _ _ _ hc]
    have hnot : c.1 ∉ (recordAll cs []).map (fun e => e.query) := by
      rw [ih']
      intro hin
      exact hd'.2 (List.mem_reverse.mp (List.mem_of_mem_take hin))
    have hfilter : (recordAll cs []).filter (fun item => item.query != c.1) = recordAll cs [] := by
      rw [List.filter_eq_self]
      intro e he
      have : e.query ≠ c.1 := fun heq => hnot (heq ▸ List.mem_map_of_mem (fun e => e.query) he)
      simpa using this
    rw [hfilter]
    simp only [List.map_cons, List.map_take, ih', List.take_take, List.map_append,
      List.map_nil, List.reverse_append, List.reverse_cons, List.reverse_nil, List.nil_append,
      List.singleton_append]
    rfl

theorem not_mem_take_reverse {α : Type} (l : List α) (hd : l.Nodup) (n : Nat) (a : α)
    (ha : a ∈ l.take (l.length - n)) : a ∉ (l.reverse).take n := by
  intro hin
  have hsplit : l.reverse = (l.drop (l.length - n)).reverse ++ (l.take (l.length - n)).reverse := by
    rw [← List.reverse_append, List.take_append_drop]
  have hlen : ((l.drop (l.length - n)).reverse).length ≤ n := by
    simp only [List.length_reverse, List.length_drop]
    omega
  have htake : (l.reverse).take n = (l.drop (l.length - n)).reverse ∨
      ∃ k, (l.reverse).take n = (l.drop (l.length - n)).reverse ++
        ((l.take (l.length - n)).reverse).take k := by
    right
    refine ⟨n - ((l.drop (l.length - n)).reverse).length, ?_⟩
    rw [hsplit, List.take_append_eq_append_take, List.take_of_length_le hlen]
  have hdis : ∀ x, x ∈ l.take (l.length - n) → x ∉ l.drop (l.length - n) := by
    have hnd := hd
    rw [← List.take_append_drop (l.length - n) l, List.nodup_append] at hnd
    exact fun x hx hx' => hnd.2.2 hx hx'
  by_cases hn : l.length ≤ n
  · have : l.length - n = 0 := by omega
    rw [this] at ha
    simp at ha
  · have hlen' : ((l.drop (l.length - n)).reverse).length = n := by
      simp only [List.length_reverse, List.length_drop]
      omega
    have : (l.reverse).take n = (l.drop (l.length - n)).reverse := by
      rw [hsplit, List.take_append_eq_append_take, List.take_of_length_le hlen, hlen']
      simp
    rw [this] at hin
    exact hdis a ha (List.mem_reverse.mp hin)

/-- C15, as stated, fails: a history of 101 entries (as an import with `merge` can leave)
still has 101 entries after `addToSearchHistory("a")`, which returns at once. -/
theorem addToSearchHistory_short_query_keeps_long_history :
    addToSearchHistory (numberedHistory 101) "a" "now" = numberedHistory 101
      ∧ (numberedHistory 101).length = 101 := by
  constructor
  · have hlt : "a".length < 2 := by decide
    simp only [addToSearchHistory, hlt, if_true]
  · simp [numberedHistory]

/-- C15, amended: after a call of `addToSearchHistory` with a query of length at least 2,
or on a history of at most 100 entries, the history has at most 100 entries; and after
recording, from the empty history, queries that are all different and of length at least 2,
the queries of the history are the 100 most recently recorded (all of them when there are
fewer), the most recent first, and every query recorded before these is absent. -/
theorem addToSearchHistory_cap (searchHistory : List HistoryEntry) (query now : String)
    (calls : List (String × String))
    (hd : (calls.map Prod.fst).Nodup) (hl : ∀ c ∈ calls, 2 ≤ c.1.length) :
    ((2 ≤ query.length ∨ searchHistory.length ≤ 100) →
        (addToSearchHistory searchHistory query now).length ≤ 100)
      ∧ (recordAll calls []).map (fun e => e.query) = ((calls.map Prod.fst).reverse).take 100
      ∧ (recordAll calls []).length = min 100 calls.length
      ∧ (∀ q ∈ (calls.map Prod.fst).take (calls.length - 100),
          q ∉ (recordAll calls []).map (fun e => e.query)) := by
  have hq := recordAll_queries calls hd hl
  refine ⟨fun h => ?_, hq, ?_, fun q hq' => ?_⟩
  · by_cases h2 : 2 ≤ query.length
    · rw [addToSearchHistory_eq _ _ _ h2]
      simp only [List.length_cons, List.length_take]
      omega
    · have hs : searchHistory.length ≤ 100 := by
        rcases h with h | h
        · exact absurd h h2
        · exact h
      have hlt : query.length < 2 := by omega
      simp only [addToSearchHistory, hlt, if_true]
      exact hs
  · have := congrArg List.length hq
    simpa using this
  · rw [hq]
    have hlen : calls.length = (calls.map Prod.fst).length := by simp
    rw [hlen] at hq'
    exact not_mem_take_reverse _ hd 100 q hq'

/-- The 150 queries number 0 to 149 recorded from the empty history: the history holds the
100 queries number 149 down to 50, and the 50 queries number 0 to 49 are absent. -/
theorem addToSearchHistory_cap_witness :
    (recordAll (numberedCalls 150) []).map (fun e => e.query)
        = (((numberedCalls 150).map Prod.fst).reverse).take 100
      ∧ (recordAll (numberedCalls 150) []).length = 100
      ∧ (∀ q ∈ ((numberedCalls 150).map Prod.fst).take 50,
          q ∉ (recordAll (numberedCalls 150) []).map (fun e => e.query)) := by
  have h := addToSearchHistory_cap [] "auth" "t1" (numberedCalls 150) (numberedCalls_nodup 150)
    (numberedCalls_length 150)
  have hlen : (numberedCalls 150).length = 150 := by simp [numberedCalls]
  rw [hlen] at h
  exact ⟨h.2.1, h.2.2.1, h.2.2.2⟩

/-! ## C17: an id that no saved search has -/

theorem find?_id_eq_none (savedSearches : List SavedSearch) (searchId : String)
    (h : ∀ s ∈ savedSearches, s.id ≠ searchId) :
    savedSearches.find? (fun s => s.id == searchId) = none := by
  rw [List.find?_eq_none]
  intro s hs
  simpa using h s hs

theorem findIdx?_id (savedSearches : List SavedSearch) (searchId : String) :
    (savedSearches.findIdx? (fun s => s.id == searchId)).isSome = true
      ↔ ∃ s ∈ savedSearches, s.id = searchId := by
  rw [List.findIdx?_isSome]
  simp

/-- C17: for an id that no saved search has, `loadSavedSearch` returns `null` and
`deleteSavedSearch` returns `false`, and both leave the whole state as it was; and for every
state and id `deleteSavedSearch` returns `true` exactly when a saved search has the id. -/
theorem unknown_saved_search (m : SearchFilterManager) (searchId now searchNow : String)
    (h : ∀ s ∈ m.savedSearches, s.id ≠ searchId) :
    loadSavedSearch m searchId now searchNow = (.ok none, m)
      ∧ deleteSavedSearch m searchId = (false, m)
      ∧ (∀ (m' : SearchFilterManager) (id : String),
          (deleteSavedSearch m' id).1 = true ↔ ∃ s ∈ m'.savedSearches, s.id = id) := by
  refine ⟨?_, ?_, fun m' id => ?_⟩
  · simp only [loadSavedSearch, find?_id_eq_none _ _ h]
  · have hnone : m.savedSearches.findIdx? (fun s => s.id == searchId) = none := by
      cases hf : m.savedSearches.findIdx? (fun s => s.id == searchId) with
      | none => rfl
      | some i =>
        have := (findIdx?_id m.savedSearches searchId).mp (by simp [hf])
        obtain ⟨s, hs, hid⟩ := this
        exact absurd hid (h s hs)
    simp only [deleteSavedSearch, hnone]
  · rw [← findIdx?_id]
    unfold deleteSavedSearch
    cases m'.savedSearches.findIdx? (fun s => s.id == id) <;> simp

/-- The id `search_2` in the manager that holds the saved search `search_1`. -/
theorem unknown_saved_search_witness :
    (∀ s ∈ savedManager.savedSearches, s.id ≠ "search_2")
      ∧ loadSavedSearch savedManager "search_2" "t2" "t3" = (.ok none, savedManager)
      ∧ deleteSavedSearch savedManager "search_2" = (false, savedManager)
      ∧ (deleteSavedSearch savedManager "search_1").1 = true :=
  ⟨by decide, (unknown_saved_search savedManager "search_2" "t2" "t3" (by decide)).1,
    (unknown_saved_search savedManager "search_2" "t2" "t3" (by decide)).2.1,
    by decide⟩

/-! ## Lemmas on the filter calls -/

theorem mapGet_mapSet_ne {α : Type} (key key' : String) (value : α)
    (entries : List (String × α)) (h : key ≠ key') :
    mapGet key (mapSet key' value entries) = mapGet key entries := by
  induction entries with
  | nil =>
    have h' : ¬ key' = key := fun hh => h hh.symm
    simp [mapSet, mapGet, h']
  | cons e rest ih =>
    obtain ⟨k, v⟩ := e
    by_cases hk : k = key'
    · subst hk
      have h' : ¬ k = key := fun hh => h hh.symm
      simp [mapSet, mapGet, h']
    · simp only [mapSet, hk, if_false, mapGet, ih]

theorem mapGet_mapSet_isSome {α : Type} (key key' : String) (value old : α)
    (entries : List (String × α)) (h : mapGet key' entries = some old) :
    (mapGet key (mapSet key' value entries)).isSome = (mapGet key entries).isSome := by
  by_cases hk : key = key'
  · subst hk
    rw [mapGet_mapSet_self, h]
    rfl
  · rw [mapGet_mapSet_ne _ _ _ _ hk]

theorem mapSet_of_not_mem {α : Type} (key : String) (value : α) (entries : List (String × α))
    (h : key ∉ entries.map Prod.fst) : mapSet key value entries = entries ++ [(key, value)] := by
  induction entries with
  | nil => rfl
  | cons e rest ih =>
    obtain ⟨k, v⟩ := e
    simp only [List.map_cons, List.mem_cons, not_or] at h
    have hk : ¬ k = key := fun hh => h.1 hh.symm
    simp only [mapSet, hk, if_false, ih h.2, List.cons_append]

theorem activateFilter_registered (m : SearchFilterManager) (name : String) (value : JsVal)
    (key : String) : registered (activateFilter m name value).2 key ↔ registered m key := by
  unfold activateFilter registered
  cases hf : mapGet name m.filters with
  | none => rfl
  | some filter =>
    simp only
    rw [mapGet_mapSet_isSome key name _ filter m.filters hf]

theorem deactivateFilter_registered (m : SearchFilterManager) (name : String) (key : String) :
    registered (deactivateFilter m name).2 key ↔ registered m key := by
  unfold deactivateFilter registered
  cases hf : mapGet name m.filters with
  | none => rfl
  | some filter =>
    simp only
    rw [mapGet_mapSet_isSome key name _ filter m.filters hf]

theorem deactivateFilter_active (m : SearchFilterManager) (name : String)
    (h : registered m name) :
    (deactivateFilter m name).2.activeFilters = mapDelete name m.activeFilters := by
  unfold deactivateFilter
  unfold registered at h
  cases hf : mapGet name m.filters with
  | none => simp [hf] at h
  | some filter => rfl

theorem deactivateFilter_saved (m : SearchFilterManager) (name : String) :
    (deactivateFilter m name).2.savedSearches = m.savedSearches := by
  unfold deactivateFilter
  cases mapGet name m.filters <;> rfl

theorem activateFilter_saved (m : SearchFilterManager) (name : String) (value : JsVal) :
    (activateFilter m name value).2.savedSearches = m.savedSearches := by
  unfold activateFilter
  cases mapGet name m.filters <;> rfl

/-- The loop of `clearAllFilters` over names that are all registered removes the entries of
these names, and changes neither the set of registered names nor the saved searches. -/
theorem clearNames (names : List String) :
    ∀ (m : SearchFilterManager), (∀ n ∈ names, registered m n) →
      (names.foldl (fun m name => (deactivateFilter m name).2) m).activeFilters
          = m.activeFilters.filter (fun e => decide (e.1 ∉ names))
        ∧ (∀ key, registered (names.foldl (fun m name => (deactivateFilter m name).2) m) key
            ↔ registered m key)
        ∧ (names.foldl (fun m name => (deactivateFilter m name).2) m).savedSearches
          = m.savedSearches := by
  induction names with
  | nil =>
    intro m _
    simp
  | cons n rest ih =>
    intro m h
    have hn : registered m n := h n (List.mem_cons_self _ _)
    have hrest : ∀ k ∈ rest, registered (deactivateFilter m n).2 k := fun k hk =>
      (deactivateFilter_registered m n k).mpr (h k (List.mem_cons_of_mem _ hk))
    obtain ⟨h1, h2, h3⟩ := ih (deactivateFilter m n).2 hrest
    rw [List.foldl_cons]
    refine ⟨?_, fun key => (h2 key).trans (deactivateFilter_registered m n key), ?_⟩
    · rw [h1, deactivateFilter_active m n hn, mapDelete, List.filter_filter]
      congr 1
      funext e
      by_cases he : e.1 = n
      · simp [he]
      · simp [he]
    · rw [h3, deactivateFilter_saved]

theorem clearAllFilters_spec (m : SearchFilterManager)
    (h : ∀ e ∈ m.activeFilters, registered m e.1) :
    (clearAllFilters m).activeFilters = []
      ∧ (∀ key, registered (clearAllFilters m) key ↔ registered m key)
      ∧ (clearAllFilters m).savedSearches = m.savedSearches := by
  have hn : ∀ n ∈ m.activeFilters.map Prod.fst, registered m n := by
    intro n hn
    obtain ⟨e, he, rfl⟩ := List.mem_map.mp hn
    exact h e he
  obtain ⟨h1, h2, h3⟩ := clearNames (m.activeFilters.map Prod.fst) m hn
  refine ⟨?_, h2, h3⟩
  unfold clearAllFilters
  rw [h1, List.filter_eq_nil_iff]
  intro e he
  have : e.1 ∈ m.activeFilters.map Prod.fst := List.mem_map_of_mem Prod.fst he
  simpa using this

/-- Every active name is registered: the three calls keep it so. -/
theorem applyFilterCall_spec (m : SearchFilterManager) (call : FilterCall)
    (h : ∀ e ∈ m.activeFilters, registered m e.1) :
    (∀ e ∈ (applyFilterCall m call).activeFilters, registered (applyFilterCall m call) e.1)
      ∧ (∀ key, registered (applyFilterCall m call) key ↔ registered m key)
      ∧ (applyFilterCall m call).savedSearches = m.savedSearches := by
  cases call with
  | activate name value =>
    refine ⟨fun e he => ?_, fun key => activateFilter_registered m name value key,
      activateFilter_saved m name value⟩
    rw [applyFilterCall, activateFilter_registered]
    simp only [applyFilterCall] at he
    unfold activateFilter at he
    cases hf : mapGet name m.filters with
    | none =>
      rw [hf] at he
      exact h e he
    | some filter =>
      rw [hf] at he
      simp only at he
      rcases mem_mapSet _ _ _ e he with heq | hin
      · rw [heq]
        unfold registered
        simp [hf]
      · exact h e hin
  | deactivate name =>
    refine ⟨fun e he => ?_, fun key => deactivateFilter_registered m name key,
      deactivateFilter_saved m name⟩
    rw [applyFilterCall, deactivateFilter_registered]
    simp only [applyFilterCall] at he
    unfold deactivateFilter at he
    cases hf : mapGet name m.filters with
    | none =>
      rw [hf] at he
      exact h e he
    | some filter =>
      rw [hf] at he
      simp only [mapDelete] at he
      exact h e (List.mem_filter.mp he).1
  | clearAll =>
    obtain ⟨h1, h2, h3⟩ := clearAllFilters_spec m h
    refine ⟨fun e he => ?_, h2, h3⟩
    simp only [applyFilterCall, h1] at he
    simp at he

theorem applyFilterCalls_spec (calls : List FilterCall) :
    ∀ (m : SearchFilterManager), (∀ e ∈ m.activeFilters, registered m e.1) →
      (∀ e ∈ (applyFilterCalls m calls).activeFilters,
          registered (applyFilterCalls m calls) e.1)
        ∧ (∀ key, registered (applyFilterCalls m calls) key ↔ registered m key)
        ∧ (applyFilterCalls m calls).savedSearches = m.savedSearches := by
  induction calls with
  | nil =>
    intro m h
    exact ⟨h, fun _ => Iff.rfl, rfl⟩
  | cons call rest ih =>
    intro m h
    obtain ⟨h1, h2, h3⟩ := applyFilterCall_spec m call h
    obtain ⟨h1', h2', h3'⟩ := ih (applyFilterCall m call) h1
    exact ⟨h1', fun key => (h2' key).trans (h2 key), h3'.trans h3⟩

/-- The loop of `loadSavedSearch` over the snapshot: the names of the snapshot, with their
values, come after the active filters in their order. -/
theorem restoreSnapshot (snapshot : List (String × Filter)) :
    ∀ (m : SearchFilterManager),
      (snapshot.map Prod.fst).Nodup →
      (∀ e ∈ snapshot, registered m e.1 ∧ e.2.value ≠ JsVal.undefined) →
      (∀ e ∈ snapshot, e.1 ∉ m.activeFilters.map Prod.fst) →
      activeValues (snapshot.foldl (fun m entry => (activateFilter m entry.1 entry.2.value).2) m)
          = activeValues m ++ snapshot.map (fun e => (e.1, e.2.value))
        ∧ (snapshot.foldl (fun m entry => (activateFilter m entry.1 entry.2.value).2)
            m).savedSearches = m.savedSearches := by
  induction snapshot with
  | nil =>
    intro m _ _ _
    simp
  | cons e rest ih =>
    intro m hnd hreg hdis
    obtain ⟨n, f⟩ := e
    simp only [List.map_cons, List.nodup_cons] at hnd
    have hn := hreg (n, f) (List.mem_cons_self _ _)
    have hnotin := hdis (n, f) (List.mem_cons_self _ _)
    simp only at hn hnotin
    obtain ⟨g, hg⟩ := Option.isSome_iff_exists.mp hn.1
    have hval : (match f.value with
        | JsVal.undefined => JsVal.bool true
        | v => v) = f.value := by
      cases hv : f.value <;> first | rfl | exact absurd hv hn.2
    have hact : (activateFilter m n f.value).2.activeFilters
        = m.activeFilters ++ [(n, { g with active := true, value := f.value })] := by
      unfold activateFilter
      rw [hg]
      show mapSet n { g with active := true, value := (match f.value with
        | JsVal.undefined => JsVal.bool true
        | v => v) } m.activeFilters = _
      rw [hval]
      exact mapSet_of_not_mem _ _ _ hnotin
    have hvals : activeValues (activateFilter m n f.value).2
        = activeValues m ++ [(n, f.value)] := by
      simp [activeValues, hact]
    have hreg' : ∀ e ∈ rest, registered (activateFilter m n f.value).2 e.1
        ∧ e.2.value ≠ JsVal.undefined := fun e he =>
      ⟨(activateFilter_registered m n f.value e.1).mpr
          (hreg e (List.mem_cons_of_mem _ he)).1,
        (hreg e (List.mem_cons_of_mem _ he)).2⟩
    have hdis' : ∀ e ∈ rest, e.1 ∉ (activateFilter m n f.value).2.activeFilters.map Prod.fst := by
      intro e he hin
      rw [hact, List.map_append, List.mem_append] at hin
      rcases hin with hin | hin
      · exact hdis e (List.mem_cons_of_mem _ he) hin
      · simp only [List.map_cons, List.map_nil, List.mem_singleton] at hin
        exact hnd.1 (hin ▸ List.mem_map_of_mem Prod.fst he)
    obtain ⟨h1, h2⟩ := ih (activateFilter m n f.value).2 hnd.2 hreg' hdis'
    rw [List.foldl_cons]
    refine ⟨?_, h2.trans (activateFilter_saved m n f.value)⟩
    rw [h1, hvals]
    simp

theorem search_activeFilters (m : SearchFilterManager) (query : String)
    (options : SearchOptions) (now : String) :
    (search m query options now).2.activeFilters = m.activeFilters := by
  unfold search
  by_cases hq : query.length < 2
  · simp only [hq, if_true]
  · simp only [hq, if_false]
    cases collectResults (toLowerCase query) options m.searchIndex <;> rfl

theorem filtersWellFormed_of_no_active (m : SearchFilterManager) (h : m.activeFilters = []) :
    filtersWellFormed m := by
  unfold filtersWellFormed
  rw [h]
  simp

/-- The three calls keep the active filters well formed. -/
theorem filtersWellFormed_applyFilterCall (m : SearchFilterManager) (call : FilterCall)
    (h : filtersWellFormed m) : filtersWellFormed (applyFilterCall m call) := by
  have hreg := applyFilterCall_spec m call (fun e he => (h.2 e he).1)
  cases call with
  | activate name value =>
    refine ⟨?_, fun e he => ⟨hreg.1 e he, ?_⟩⟩
    · simp only [applyFilterCall]
      unfold activateFilter
      cases mapGet name m.filters with
      | none => exact h.1
      | some filter => exact mapSet_nodup _ _ _ h.1
    · simp only [applyFilterCall] at he
      unfold activateFilter at he
      cases hf : mapGet name m.filters with
      | none =>
        rw [hf] at he
        exact (h.2 e he).2
      | some filter =>
        rw [hf] at he
        simp only at he
        rcases mem_mapSet _ _ _ e he with heq | hin
        · rw [heq]
          cases value <;> simp
        · exact (h.2 e hin).2
  | deactivate name =>
    refine ⟨?_, fun e he => ⟨hreg.1 e he, ?_⟩⟩
    · simp only [applyFilterCall]
      unfold deactivateFilter
      cases mapGet name m.filters with
      | none => exact h.1
      | some filter =>
        exact h.1.sublist ((List.filter_sublist _).map Prod.fst)
    · simp only [applyFilterCall] at he
      unfold deactivateFilter at he
      cases hf : mapGet name m.filters with
      | none =>
        rw [hf] at he
        exact (h.2 e he).2
      | some filter =>
        rw [hf] at he
        simp only [mapDelete] at he
        exact (h.2 e (List.mem_filter.mp he).1).2
  | clearAll =>
    apply filtersWellFormed_of_no_active
    exact (clearAllFilters_spec m (fun e he => (h.2 e he).1)).1

/-! ## C16: a saved search restores its filters -/

/-- C16: in a state whose active filters are as the filter methods keep them (their names
are registered and different, no value is `undefined`), after `saveSearch` with an id that
no saved search has yet, then any sequence of calls of `activateFilter`, `deactivateFilter`
and `clearAllFilters`, then `loadSavedSearch` with that id, the saved search is found and
the active filters are those of the state in which the search was saved: the same names in
the same order, each with the value it had. -/
theorem saved_filters_restored (m : SearchFilterManager)
    (query name id created lastUsed : String) (calls : List FilterCall)
    (now searchNow : String)
    (hwf : filtersWellFormed m) (hid : ∀ s ∈ m.savedSearches, s.id ≠ id) :
    activeValues (loadSavedSearch
        (applyFilterCalls (saveSearch m query name id created lastUsed).2 calls)
        (saveSearch m query name id created lastUsed).1.id now searchNow).2
        = activeValues m
      ∧ (loadSavedSearch
        (applyFilterCalls (saveSearch m query name id created lastUsed).2 calls)
        (saveSearch m query name id created lastUsed).1.id now searchNow).1 ≠ .ok none := by
  have hsaved : (saveSearch m query name id created lastUsed).1.id = id := rfl
  have hsnap : (saveSearch m query name id created lastUsed).1.filters = m.activeFilters := rfl
  have hstate : ∀ e ∈ (saveSearch m query name id created lastUsed).2.activeFilters,
      registered (saveSearch m query name id created lastUsed).2 e.1 := fun e he => (hwf.2 e he).1
  obtain ⟨hb1, hb2, hb3⟩ :=
    applyFilterCalls_spec calls (saveSearch m query name id created lastUsed).2 hstate
  have hfind : (applyFilterCalls (saveSearch m query name id created lastUsed).2
      calls).savedSearches.find? (fun s => s.id == id)
      = some (saveSearch m query name id created lastUsed).1 := by
    rw [hb3]
    show (m.savedSearches ++ [(saveSearch m query name id created lastUsed).1]).find?
      (fun s => s.id == id) = _
    rw [List.find?_append, find?_id_eq_none _ _ hid]
    simp [hsaved]
  obtain ⟨hc1, hc2, _⟩ := clearAllFilters_spec _ hb1
  have hreg : ∀ e ∈ m.activeFilters,
      registered (clearAllFilters
        (applyFilterCalls (saveSearch m query name id created lastUsed).2 calls)) e.1
      ∧ e.2.value ≠ JsVal.undefined := fun e he =>
    ⟨(hc2 e.1).mpr ((hb2 e.1).mpr (hwf.2 e he).1), (hwf.2 e he).2⟩
  have hdis : ∀ e ∈ m.activeFilters, e.1 ∉ (clearAllFilters
      (applyFilterCalls (saveSearch m query name id created lastUsed).2
        calls)).activeFilters.map Prod.fst := by
    intro e _
    rw [hc1]
    simp
  obtain ⟨hr1, _⟩ := restoreSnapshot m.activeFilters _ hwf.1 hreg hdis
  rw [hsaved]
  unfold loadSavedSearch
  rw [hfind]
  simp only [hsnap]
  constructor
  · unfold activeValues
    rw [search_activeFilters]
    simp only
    unfold activeValues at hr1
    rw [hr1, hc1]
    simp
  · intro hnull
    cases hs : (search _ (saveSearch m query name id created lastUsed).1.query {} searchNow).1 with
    | error e =>
      rw [hs] at hnull
      simp [Except.map] at hnull
    | ok results =>
      rw [hs] at hnull
      simp [Except.map] at hnull

theorem filteredManager_wellFormed : filtersWellFormed filteredManager := by
  refine ⟨by decide, fun e he => ?_⟩
  simp only [filteredManager, List.mem_singleton] at he
  subst he
  refine ⟨by unfold registered; decide, by simp⟩

/-- The search "fix" saved with the priority filter on "high"; then the filters are cleared
and the priority filter is activated on "low"; loading the saved search puts the priority
filter back on "high". -/
theorem saved_filters_restored_witness :
    filtersWellFormed filteredManager
      ∧ activeValues (applyFilterCalls
          (saveSearch filteredManager "fix" "My fixes" "search_1" "t1" "t1").2
          [FilterCall.clearAll, FilterCall.activate "taskPriority" (JsVal.str "low")])
        = [("taskPriority", JsVal.str "low")]
      ∧ activeValues (loadSavedSearch
          (applyFilterCalls (saveSearch filteredManager "fix" "My fixes" "search_1" "t1" "t1").2
            [FilterCall.clearAll, FilterCall.activate "taskPriority" (JsVal.str "low")])
          "search_1" "t2" "t3").2
        = [("taskPriority", JsVal.str "high")] :=
  ⟨filteredManager_wellFormed, by with_unfolding_all rfl,
    (saved_filters_restored filteredManager "fix" "My fixes" "search_1" "t1" "t1"
      [FilterCall.clearAll, FilterCall.activate "taskPriority" (JsVal.str "low")] "t2" "t3"
      filteredManager_wellFormed (by simp [filteredManager, sampleManager])).1⟩

/-! ## C18, C19 and C20: import -/

/-- C18, as stated, fails: for an object without the keys `savedSearches` and
`searchHistory`, given as a value or as the text `{}`, `importSearchData` raises nothing:
it returns `true` and the state is as before, with `merge` or without. -/
theorem importSearchData_accepts_missing_keys :
    importSearchData sampleParse sampleManager
        (ImportInput.value (Payload.object PayloadList.falsy PayloadList.falsy)) true
        = (.ok true, some sampleManager)
      ∧ importSearchData sampleParse sampleManager
        (ImportInput.value (Payload.object PayloadList.falsy PayloadList.falsy)) false
        = (.ok true, some sampleManager)
      ∧ importSearchData sampleParse sampleManager (ImportInput.text "{}") true
        = (.ok true, some sampleManager) :=
  ⟨rfl, rfl, rfl⟩

/-- C18, amended: `importSearchData` raises an error, whose message is "Invalid import
data: " followed by the message of the cause, when its input is a text that `JSON.parse`
rejects and when it is `null` or `undefined`; every error that it raises has such a
message; and for an object that has neither `savedSearches` nor `searchHistory` it raises
nothing: it returns `true` and leaves the state as it was. -/
theorem importSearchData_raises (parse : String → Except Failure Payload)
    (m : SearchFilterManager) (merge : Bool) :
    (∀ (json : String) (cause : Failure), parse json = .error cause →
        importSearchData parse m (ImportInput.text json) merge
          = (.error (Failure.error ("Invalid import data: " ++ cause.message)), some m))
      ∧ importSearchData parse m (ImportInput.value Payload.nullish) merge
        = (.error (Failure.error ("Invalid import data: " ++ cannotRead.message)), some m)
      ∧ (∀ (data : ImportInput) (e : Failure),
          (importSearchData parse m data merge).1 = .error e →
            ∃ cause : Failure, e = Failure.error ("Invalid import data: " ++ cause.message))
      ∧ importSearchData parse m
          (ImportInput.value (Payload.object PayloadList.falsy PayloadList.falsy)) merge
        = (.ok true, some m) := by
  refine ⟨fun json cause h => ?_, rfl, fun data e h => ?_, ?_⟩
  · simp only [importSearchData, readPayload, h, invalidImport]
  · unfold importSearchData at h
    cases hp : readPayload parse data with
    | error cause =>
      rw [hp] at h
      simp only [Except.error.injEq] at h
      exact ⟨cause, h.symm⟩
    | ok payload =>
      rw [hp] at h
      cases payload with
      | nullish =>
        simp only [Except.error.injEq] at h
        exact ⟨cannotRead, h.symm⟩
      | object saved history =>
        cases merge with
        | false =>
          simp only [Bool.false_eq_true, if_false] at h
          split at h <;> simp at h
        | true =>
          simp only [if_true] at h
          cases saved with
          | notIterable =>
            simp only [mergeList, Except.error.injEq] at h
            exact ⟨notIterableError, h.symm⟩
          | falsy =>
            cases history with
            | notIterable =>
              simp only [mergeList, Except.error.injEq] at h
              exact ⟨notIterableError, h.symm⟩
            | falsy => simp [mergeList, listOf] at h
            | array items => simp [mergeList, listOf] at h
            | iterable elements =>
              by_cases he : elements.isEmpty = true <;> simp [mergeList, listOf, he] at h
          | array items' =>
            cases history with
            | notIterable =>
              simp only [mergeList, Except.error.injEq] at h
              exact ⟨notIterableError, h.symm⟩
            | falsy => simp [mergeList, listOf] at h
            | array items => simp [mergeList, listOf] at h
            | iterable elements =>
              by_cases he : elements.isEmpty = true <;> simp [mergeList, listOf, he] at h
          | iterable elements' =>
            cases history with
            | notIterable =>
              simp only [mergeList, Except.error.injEq] at h
              exact ⟨notIterableError, h.symm⟩
            | falsy =>
              by_cases he' : elements'.isEmpty = true <;> simp [mergeList, listOf, he'] at h
            | array items =>
              by_cases he' : elements'.isEmpty = true <;> simp [mergeList, listOf, he'] at h
            | iterable elements =>
              by_cases he : elements.isEmpty = true <;>
                by_cases he' : elements'.isEmpty = true <;>
                simp [mergeList, listOf, he, he'] at h
  · cases merge <;> rfl

/-- C19, as stated, fails: with `merge`, a payload whose `savedSearches` is an array of one
saved search and whose `searchHistory` is a number makes `importSearchData` raise after it
has appended the saved search: the state had no saved search and now has one. -/
theorem importSearchData_partial_mutation :
    (importSearchData sampleParse sampleManager
        (ImportInput.value
          (Payload.object (PayloadList.array [importedSearch]) PayloadList.notIterable))
        true).1 = .error (invalidImport notIterableError)
      ∧ (importSearchData sampleParse sampleManager
        (ImportInput.value
          (Payload.object (PayloadList.array [importedSearch]) PayloadList.notIterable))
        true).2.map (fun m => m.savedSearches.map (fun s => s.id)) = some ["search_9"]
      ∧ sampleManager.savedSearches.map (fun s => s.id) = [] :=
  ⟨rfl, rfl, rfl⟩

/-- C19, amended: if `importSearchData` raises an error while it reads and merges the
payload, the search history (with the index, the registry and the active filters) is what
it was before the call, and so are the saved searches, unless `merge` is set,
`savedSearches` of the payload is a truthy value that can be spread and `searchHistory` of
the payload is a truthy value that cannot be spread: then the saved searches are the old
list followed by what `savedSearches` spreads to, the entries of an array, or the values of
a string or `Set`, with which the list is no longer a list of saved searches. -/
theorem importSearchData_raise_state (parse : String → Except Failure Payload)
    (m : SearchFilterManager) (data : ImportInput) (merge : Bool) (e : Failure)
    (h : (importSearchData parse m data merge).1 = .error e) :
    (importSearchData parse m data merge).2 = some m
      ∨ (merge = true ∧ ∃ items,
          readPayload parse data
            = .ok (Payload.object (PayloadList.array items) PayloadList.notIterable)
          ∧ (importSearchData parse m data merge).2
            = some { m with savedSearches := m.savedSearches ++ items })
      ∨ (merge = true ∧ ∃ elements, elements ≠ []
          ∧ readPayload parse data
            = .ok (Payload.object (PayloadList.iterable elements) PayloadList.notIterable)
          ∧ mergeList m.savedSearches (PayloadList.iterable elements)
            = .ok (m.savedSearches, elements)
          ∧ (importSearchData parse m data merge).2 = none) := by
  unfold importSearchData at h ⊢
  cases hp : readPayload parse data with
  | error cause => exact Or.inl rfl
  | ok payload =>
    rw [hp] at h
    cases payload with
    | nullish => exact Or.inl rfl
    | object saved history =>
      cases merge with
      | false =>
        simp only [Bool.false_eq_true, if_false] at h
        split at h <;> simp at h
      | true =>
        cases saved with
        | notIterable => exact Or.inl rfl
        | falsy =>
          cases history with
          | notIterable => exact Or.inl rfl
          | falsy => simp [mergeList, listOf] at h
          | array items => simp [mergeList, listOf] at h
          | iterable elements =>
            by_cases he : elements.isEmpty = true <;> simp [mergeList, listOf, he] at h
        | array items' =>
          cases history with
          | notIterable => exact Or.inr (Or.inl ⟨rfl, items', rfl, rfl⟩)
          | falsy => simp [mergeList, listOf] at h
          | array items => simp [mergeList, listOf] at h
          | iterable elements =>
            by_cases he : elements.isEmpty = true <;> simp [mergeList, listOf, he] at h
        | iterable elements' =>
          cases history with
          | notIterable =>
            cases elements' with
            | nil => exact Or.inl rfl
            | cons first rest =>
              exact Or.inr (Or.inr ⟨rfl, first :: rest, List.cons_ne_nil _ _, rfl, rfl, rfl⟩)
          | falsy =>
            by_cases he' : elements'.isEmpty = true <;> simp [mergeList, listOf, he'] at h
          | array items =>
            by_cases he' : elements'.isEmpty = true <;> simp [mergeList, listOf, he'] at h
          | iterable elements =>
            by_cases he : elements.isEmpty = true <;>
              by_cases he' : elements'.isEmpty = true <;>
              simp [mergeList, listOf, he, he'] at h

/-- The import of `{"savedSearches": "ab", "searchHistory": 5}` into the sample manager
with `merge`: the characters of "ab" are put behind the saved searches, then the spread of
5 raises. -/
theorem importSearchData_raise_state_witness :
    (importSearchData sampleParse sampleManager stringPayload true).1
        = .error (invalidImport notIterableError)
      ∧ readPayload sampleParse stringPayload
        = .ok (Payload.object (PayloadList.iterable [JsVal.str "a", JsVal.str "b"])
            PayloadList.notIterable)
      ∧ (importSearchData sampleParse sampleManager stringPayload true).2 = none
      ∧ ((importSearchData sampleParse sampleManager stringPayload true).2
          = some sampleManager
        ∨ (true = true ∧ ∃ items,
          readPayload sampleParse stringPayload
            = .ok (Payload.object (PayloadList.array items) PayloadList.notIterable)
          ∧ (importSearchData sampleParse sampleManager stringPayload true).2
            = some { sampleManager with
                savedSearches := sampleManager.savedSearches ++ items })
        ∨ (true = true ∧ ∃ elements, elements ≠ []
          ∧ readPayload sampleParse stringPayload
            = .ok (Payload.object (PayloadList.iterable elements) PayloadList.notIterable)
          ∧ mergeList sampleManager.savedSearches (PayloadList.iterable elements)
            = .ok (sampleManager.savedSearches, elements)
          ∧ (importSearchData sampleParse sampleManager stringPayload true).2 = none)) :=
  ⟨rfl, rfl, rfl, importSearchData_raise_state sampleParse sampleManager
    stringPayload true (invalidImport notIterableError) rfl⟩

/-- C20: for a payload that holds both lists, `importSearchData` returns `true`; with
`merge` the saved searches are the old list followed by the list of the payload, and so is
the search history, nothing being removed; without `merge` both lists are those of the
payload. -/
theorem importSearchData_lists (parse : String → Except Failure Payload)
    (m : SearchFilterManager) (data : ImportInput) (saved : List SavedSearch)
    (history : List HistoryEntry)
    (h : readPayload parse data
      = .ok (Payload.object (PayloadList.array saved) (PayloadList.array history))) :
    importSearchData parse m data true
        = (.ok true, some { m with
            savedSearches := m.savedSearches ++ saved
            searchHistory := m.searchHistory ++ history })
      ∧ importSearchData parse m data false
        = (.ok true, some { m with savedSearches := saved, searchHistory := history }) := by
  unfold importSearchData
  rw [h]
  exact ⟨rfl, rfl⟩

/-- The import of one saved search and of the history of the sample scenario into the
manager that holds the saved search `search_1`. -/
theorem importSearchData_lists_witness :
    readPayload sampleParse importedLists
        = .ok (Payload.object (PayloadList.array [importedSearch])
          (PayloadList.array authHistory))
      ∧ importSearchData sampleParse savedManager importedLists true
        = (.ok true, some { savedManager with
            savedSearches := savedManager.savedSearches ++ [importedSearch]
            searchHistory := savedManager.searchHistory ++ authHistory })
      ∧ importSearchData sampleParse savedManager importedLists false
        = (.ok true, some { savedManager with
            savedSearches := [importedSearch], searchHistory := authHistory }) :=
  ⟨rfl,
    (importSearchData_lists sampleParse savedManager importedLists [importedSearch]
      authHistory rfl).1,
    (importSearchData_lists sampleParse savedManager importedLists [importedSearch]
      authHistory rfl).2⟩

/-! ## The goals and the comments are isolated -/

theorem indexKey_head (type : String) (id : JsVal) (h : type.data ≠ []) :
    (indexKey type id).data.head? = type.data.head? := by
  unfold indexKey
  rw [data_append, data_append, List.append_assoc]
  exact List.head?_append_of_ne_nil _ h

theorem mapSet_append_of_not_mem {α : Type} (key : String) (value : α)
    (front rest : List (String × α)) (h : key ∉ front.map Prod.fst) :
    mapSet key value (front ++ rest) = front ++ mapSet key value rest := by
  induction front with
  | nil => rfl
  | cons e front' ih =>
    obtain ⟨k, v⟩ := e
    simp only [List.map_cons, List.mem_cons, not_or] at h
    have hk : ¬ k = key := fun hh => h.1 hh.symm
    have ih' := ih h.2
    simp only [List.cons_append, mapSet, hk, if_false]
    exact congrArg _ ih'

theorem forEachItems_preserves {σ : Type} (callback : JsVal → σ → Except Failure σ)
    (P : σ → Prop) (hc : ∀ item s s', callback item s = .ok s' → P s → P s')
    (items : List JsVal) : ∀ s, P s → P (forEachItems callback items s).2 := by
  induction items with
  | nil => exact fun s hs => hs
  | cons item rest ih =>
    intro s hs
    unfold forEachItems
    cases h : callback item s with
    | error e => exact hs
    | ok s' => exact ih s' (hc item s s' h hs)

theorem forEach_preserves {σ : Type} (callback : JsVal → σ → Except Failure σ)
    (P : σ → Prop) (hc : ∀ item s s', callback item s = .ok s' → P s → P s')
    (value : JsVal) (s : σ) (hs : P s) : P (forEach callback value s).2 := by
  cases value with
  | arr items => exact forEachItems_preserves callback P hc items s hs
  | _ => exact hs

theorem addToIndex_frontKeys (searchIndex : List (String × IndexedRecord)) (type : String)
    (id : JsVal) (data : List (String × JsVal))
    (ht : type = "task" ∨ type = "member" ∨ type = "project")
    (h : ∀ e ∈ searchIndex, isFrontKey e.1) :
    ∀ e ∈ addToIndex searchIndex type id data, isFrontKey e.1 := by
  intro e he
  rcases mem_mapSet _ _ _ e he with heq | hin
  · rw [heq]
    unfold isFrontKey
    rcases ht with rfl | rfl | rfl
    · exact Or.inl (by rw [indexKey_head _ _ (by decide)]; rfl)
    · exact Or.inr (Or.inl (by rw [indexKey_head _ _ (by decide)]; rfl))
    · exact Or.inr (Or.inr (by rw [indexKey_head _ _ (by decide)]; rfl))
  · exact h e hin

/-- A record added under a key of a goal or of a comment leaves the front of the index,
which holds keys of tasks, members and projects only, as it was. -/
theorem addToIndex_keeps_front (front rest : List (String × IndexedRecord)) (type : String)
    (id : JsVal) (data : List (String × JsVal)) (ht : type = "goal" ∨ type = "comment")
    (h : ∀ e ∈ front, isFrontKey e.1) :
    ∃ rest', addToIndex (front ++ rest) type id data = front ++ rest' := by
  refine ⟨mapSet (indexKey type id) (mkRecord type id data) rest, ?_⟩
  apply mapSet_append_of_not_mem
  intro hin
  obtain ⟨e, he, hkey⟩ := List.mem_map.mp hin
  have hfront := h e he
  rw [hkey] at hfront
  unfold isFrontKey at hfront
  rcases ht with rfl | rfl
  · rw [indexKey_head _ _ (by decide)] at hfront
    revert hfront
    decide
  · rw [indexKey_head _ _ (by decide)] at hfront
    revert hfront
    decide

theorem indexGoals_keeps_front (sources : Sources) (front : List (String × IndexedRecord))
    (h : ∀ e ∈ front, isFrontKey e.1) (searchIndex : List (String × IndexedRecord))
    (hs : ∃ rest, searchIndex = front ++ rest) :
    ∃ rest, indexGoals sources searchIndex = front ++ rest := by
  unfold indexGoals
  split
  · exact hs
  · apply forEach_preserves indexGoal (fun index => ∃ rest, index = front ++ rest) _ _ _ hs
    intro item s s' hcall hP
    obtain ⟨rest, rfl⟩ := hP
    unfold indexGoal at hcall
    split at hcall
    · simp at hcall
    · simp only [Except.ok.injEq] at hcall
      rw [← hcall]
      exact addToIndex_keeps_front front rest "goal" _ _ (Or.inl rfl) h

theorem indexComments_keeps_front (sources : Sources) (front : List (String × IndexedRecord))
    (h : ∀ e ∈ front, isFrontKey e.1) (searchIndex : List (String × IndexedRecord))
    (hs : ∃ rest, searchIndex = front ++ rest) :
    ∃ rest, indexComments sources searchIndex = front ++ rest := by
  unfold indexComments
  split
  · exact hs
  · apply forEach_preserves indexComment (fun index => ∃ rest, index = front ++ rest) _ _ _ hs
    intro item s s' hcall hP
    obtain ⟨rest, rfl⟩ := hP
    unfold indexComment at hcall
    split at hcall
    · simp at hcall
    · split at hcall
      · simp at hcall
      · simp only [Except.ok.injEq] at hcall
        rw [← hcall]
        exact addToIndex_keeps_front front rest "comment" _ _ (Or.inr rfl) h

theorem indexTasks_frontKeys (sources : Sources) (clock : Nat → String) :
    ∀ e ∈ (indexTasks sources clock []).2, isFrontKey e.1 := by
  unfold indexTasks
  apply forEachItems_preserves (indexTask clock)
    (fun s => ∀ e ∈ s.1, isFrontKey e.1) _ _ ([], 0)
  · intro e he
    simp at he
  · intro item s s' hcall hP
    unfold indexTask at hcall
    split at hcall
    · simp at hcall
    · simp only [Except.ok.injEq] at hcall
      rw [← hcall]
      exact addToIndex_frontKeys _ _ _ _ (Or.inl rfl) hP

theorem indexTeamMembers_frontKeys (sources : Sources)
    (searchIndex : List (String × IndexedRecord)) (h : ∀ e ∈ searchIndex, isFrontKey e.1) :
    ∀ e ∈ (indexTeamMembers sources searchIndex).2, isFrontKey e.1 := by
  unfold indexTeamMembers
  apply forEach_preserves indexMember (fun index => ∀ e ∈ index, isFrontKey e.1) _ _ _ h
  intro item s s' hcall hP
  unfold indexMember at hcall
  split at hcall
  · simp at hcall
  · simp only [Except.ok.injEq] at hcall
    rw [← hcall]
    exact addToIndex_frontKeys _ _ _ _ (Or.inr (Or.inl rfl)) hP

theorem indexProjects_frontKeys (searchIndex : List (String × IndexedRecord))
    (h : ∀ e ∈ searchIndex, isFrontKey e.1) :
    ∀ e ∈ (indexProjects searchIndex).2, isFrontKey e.1 := by
  unfold indexProjects
  apply forEach_preserves indexProject (fun index => ∀ e ∈ index, isFrontKey e.1) _ _ _ h
  intro item s s' hcall hP
  unfold indexProject at hcall
  split at hcall
  · simp at hcall
  · simp only [Except.ok.injEq] at hcall
    rw [← hcall]
    exact addToIndex_frontKeys _ _ _ _ (Or.inr (Or.inr rfl)) hP

/-- Whatever the sources of the goals and of the comments do (raise, or return a value of
any shape), the outcome of `buildSearchIndex` is the one it has when both raise, and the
index starts with the index it has when both raise: the records of the tasks, the members
and the projects are all there, in their order. -/
theorem buildSearchIndex_goals_comments_isolated (m : SearchFilterManager) (sources : Sources)
    (clock : Nat → String) (goals comments : Except Failure JsVal) (e e' : Failure) :
    (buildSearchIndex m (withGoalsAndComments sources goals comments) clock).1
        = (buildSearchIndex m (withGoalsAndComments sources (.error e) (.error e')) clock).1
      ∧ ∃ rest,
        (buildSearchIndex m (withGoalsAndComments sources goals comments) clock).2.searchIndex
          = (buildSearchIndex m (withGoalsAndComments sources (.error e) (.error e'))
              clock).2.searchIndex ++ rest := by
  have htasks := indexTasks_frontKeys sources clock
  unfold buildSearchIndex
  have h1 : ∀ g c, indexTasks (withGoalsAndComments sources g c) clock []
      = indexTasks sources clock [] := fun _ _ => rfl
  have h2 : ∀ g c index, indexTeamMembers (withGoalsAndComments sources g c) index
      = indexTeamMembers sources index := fun _ _ _ => rfl
  simp only [h1, h2]
  rcases hA : indexTasks sources clock [] with ⟨o₁, i₁⟩
  rw [hA] at htasks
  cases o₁ with
  | error err => exact ⟨rfl, [], by simp⟩
  | ok u =>
    simp only
    have hmembers := indexTeamMembers_frontKeys sources i₁ htasks
    rcases hB : indexTeamMembers sources i₁ with ⟨o₂, i₂⟩
    rw [hB] at hmembers
    cases o₂ with
    | error err => exact ⟨rfl, [], by simp⟩
    | ok u =>
      simp only
      have hprojects := indexProjects_frontKeys i₂ hmembers
      rcases hC : indexProjects i₂ with ⟨o₃, i₃⟩
      rw [hC] at hprojects
      cases o₃ with
      | error err => exact ⟨rfl, [], by simp⟩
      | ok u =>
        simp only
        refine ⟨trivial, ?_⟩
        have hbase : indexComments (withGoalsAndComments sources (.error e) (.error e'))
            (indexGoals (withGoalsAndComments sources (.error e) (.error e')) i₃) = i₃ := rfl
        rw [hbase]
        exact indexComments_keeps_front _ i₃ hprojects _
          (indexGoals_keeps_front _ i₃ hprojects i₃ ⟨[], by simp⟩)

/-! ## C23: saving a search appends one entry -/

/-- C23: `saveSearch(query, name)` leaves `savedSearches` equal to the list it had with one
entry appended, the entry it returns; that entry has the given query, the given name (the
query when the name is empty) and a use count of 1. Nothing is required of the entries the
list already has. -/
theorem saveSearch_appends (m : SearchFilterManager) (query name : String)
    (id created lastUsed : String) :
    (saveSearch m query name id created lastUsed).2.savedSearches
        = m.savedSearches ++ [(saveSearch m query name id created lastUsed).1]
      ∧ (saveSearch m query name id created lastUsed).1.query = query
      ∧ (saveSearch m query name id created lastUsed).1.name
          = (if name = "" then query else name)
      ∧ (saveSearch m query name id created lastUsed).1.useCount = 1 := by
  refine ⟨rfl, rfl, ?_, rfl⟩
  show (if (JsVal.str name).truthy then name else query) = _
  by_cases h : name = ""
  · subst h
    rfl
  · have hd : name.data ≠ [] := fun hd => h (String.ext hd)
    simp [JsVal.truthy, h, hd]

/-! ## C24: the popular searches -/

theorem sortByCount_sorted (entries : List HistoryEntry) :
    (sortByCount entries).Pairwise (fun a b => b.count ≤ a.count) := by
  haveI : IsTotal HistoryEntry (fun a b => b.count ≤ a.count) := ⟨fun a b => le_total _ _⟩
  haveI : IsTrans HistoryEntry (fun a b => b.count ≤ a.count) :=
    ⟨fun _ _ _ hab hbc => le_trans hbc hab⟩
  exact List.sorted_insertionSort _ entries

theorem sortByCount_perm (entries : List HistoryEntry) :
    (sortByCount entries).Perm entries :=
  List.perm_insertionSort _ entries

/-- The sort by count is stable: the entries of one count keep the order they had. -/
theorem sortByCount_filter_count (entries : List HistoryEntry) (c : Nat) :
    (sortByCount entries).filter (fun e => decide (e.count = c))
      = entries.filter (fun e => decide (e.count = c)) := by
  have hpw : (entries.filter (fun e => decide (e.count = c))).Pairwise
      (fun a b => b.count ≤ a.count) := by
    rw [List.pairwise_iff_forall_sublist]
    intro a b hab
    have ha : a ∈ entries.filter (fun e => decide (e.count = c)) := hab.subset (by simp)
    have hb : b ∈ entries.filter (fun e => decide (e.count = c)) := hab.subset (by simp)
    have ha' : a.count = c := by simpa using (List.mem_filter.mp ha).2
    have hb' : b.count = c := by simpa using (List.mem_filter.mp hb).2
    rw [ha', hb']
  have hsub : List.Sublist (entries.filter (fun e => decide (e.count = c)))
      (sortByCount entries) :=
    List.sublist_insertionSort hpw (List.filter_sublist _)
  have hsub' := hsub.filter (fun e => decide (e.count = c))
  rw [List.filter_filter] at hsub'
  simp only [Bool.and_self] at hsub'
  have hlen : ((sortByCount entries).filter (fun e => decide (e.count = c))).length
      = (entries.filter (fun e => decide (e.count = c))).length :=
    ((sortByCount_perm entries).filter _).length_eq
  exact (hsub'.eq_of_length hlen.symm).symm

theorem sliceTo_natCast {α : Type} (list : List α) (n : Nat) :
    sliceTo list (n : Int) = list.take n := by
  unfold sliceTo
  have h0 : ¬ (n : Int) < 0 := by omega
  rw [if_neg h0, Int.toNat_ofNat]

/-- The first entries of a history sorted by count: they are in non-increasing order of
count, what is left out has no higher count, and the entries of one count are the first
ones of that count in the history, in the order of the history. -/
theorem take_sortByCount (history : List HistoryEntry) (n : Nat) :
    ((sortByCount history).take n).length = min n history.length
      ∧ ((sortByCount history).take n).Pairwise (fun a b => b.count ≤ a.count)
      ∧ (((sortByCount history).take n) ++ (sortByCount history).drop n).Perm history
      ∧ (∀ a ∈ (sortByCount history).take n, ∀ b ∈ (sortByCount history).drop n,
          b.count ≤ a.count)
      ∧ ∀ c, ((sortByCount history).take n).filter (fun e => decide (e.count = c))
          <+: history.filter (fun e => decide (e.count = c)) := by
  refine ⟨?_, ?_, ?_, ?_, ?_⟩
  · rw [List.length_take, (sortByCount_perm history).length_eq]
  · exact (sortByCount_sorted history).sublist (List.take_sublist _ _)
  · rw [List.take_append_drop]
    exact sortByCount_perm history
  · intro a ha b hb
    have hs := sortByCount_sorted history
    rw [← List.take_append_drop n (sortByCount history), List.pairwise_append] at hs
    exact hs.2.2 a ha b hb
  · intro c
    rw [← sortByCount_filter_count history c]
    exact (List.take_prefix n (sortByCount history)).filter _

/-- C24: for every history and every `N ≥ 0`, `getPopularSearches(N)` returns `N` entries
of the history (all of them when the history has fewer), in non-increasing order of count;
the entries it leaves out have no higher count than the ones it returns, and the returned
entries of one count are the first ones of that count in the history, in history order. -/
theorem getPopularSearches_top (history : List HistoryEntry) (n : Nat) :
    (getPopularSearches history (n : Int)).length = min n history.length
      ∧ (getPopularSearches history (n : Int)).Pairwise (fun a b => b.count ≤ a.count)
      ∧ (∃ rest, (getPopularSearches history (n : Int) ++ rest).Perm history
          ∧ ∀ a ∈ getPopularSearches history (n : Int), ∀ b ∈ rest, b.count ≤ a.count)
      ∧ ∀ c, (getPopularSearches history (n : Int)).filter (fun e => decide (e.count = c))
          <+: history.filter (fun e => decide (e.count = c)) := by
  unfold getPopularSearches
  rw [sliceTo_natCast]
  obtain ⟨h1, h2, h3, h4, h5⟩ := take_sortByCount history n
  exact ⟨h1, h2, ⟨_, h3, h4⟩, h5⟩

/-! ## C25: the similar queries -/

theorem similar_filter_eq (history : List HistoryEntry) (p : String) :
    history.filter (fun item =>
      toLowerCase item.query != toLowerCase p &&
        (includes (toLowerCase item.query) (toLowerCase p) ||
          includes (toLowerCase p) (toLowerCase item.query)))
      = history.filter (fun e => decide (isSimilar p e)) := by
  apply List.filter_congr
  intro e _
  rw [Bool.eq_iff_iff]
  simp only [Bool.and_eq_true, Bool.or_eq_true, bne_iff_ne, ne_eq, decide_eq_true_eq,
    includes_iff, isSimilar]

/-- C25: `getSimilarQueries(p)` returns the queries of the history entries whose query
differs from `p` and contains `p` or is contained in `p`, letter case ignored: these
entries are taken in the order of the history, sorted by non-increasing count (entries of
one count keep their order) and cut at the limit. So every returned query is the query of
such an entry, the order is by non-increasing count, and when the limit is not below the
number of such entries every one of them is returned. -/
theorem getSimilarQueries_spec (history : List HistoryEntry) (p : String) (limit : Int) :
    ∃ entries : List HistoryEntry,
      getSimilarQueries history p limit = entries.map (fun e => e.query)
        ∧ entries = sliceTo (sortByCount (history.filter (fun e => decide (isSimilar p e))))
            limit
        ∧ entries.Pairwise (fun a b => b.count ≤ a.count)
        ∧ (∀ e ∈ entries, e ∈ history ∧ isSimilar p e)
        ∧ (((history.filter (fun e => decide (isSimilar p e))).length : Int) ≤ limit →
            ∀ e ∈ history, isSimilar p e → e ∈ entries) := by
  refine ⟨sliceTo (sortByCount (history.filter (fun e => decide (isSimilar p e)))) limit,
    ?_, rfl, ?_, ?_, ?_⟩
  · unfold getSimilarQueries
    simp only []
    rw [similar_filter_eq]
  · exact (sortByCount_sorted _).sublist (sliceTo_sublist _ _)
  · intro e he
    have h1 : e ∈ sortByCount (history.filter (fun e => decide (isSimilar p e))) :=
      (sliceTo_sublist _ _).subset he
    have h2 := (sortByCount_perm _).mem_iff.mp h1
    rw [List.mem_filter] at h2
    exact ⟨h2.1, by simpa using h2.2⟩
  · intro hlen e he hs
    rw [sliceTo_of_length_le _ _ (by rw [(sortByCount_perm _).length_eq]; exact hlen)]
    apply (sortByCount_perm _).mem_iff.mpr
    rw [List.mem_filter]
    exact ⟨he, by simpa using hs⟩

/-! ## C26: the completions of a partial query -/

theorem mem_setAdd (suggestions : List String) (word w : String) :
    w ∈ setAdd suggestions word ↔ w ∈ suggestions ∨ w = word := by
  unfold setAdd
  split
  · next h =>
    constructor
    · exact Or.inl
    · rintro (h' | h')
      · exact h'
      · exact h' ▸ h
  · simp

theorem setAdd_nodup (suggestions : List String) (word : String) (h : suggestions.Nodup) :
    (setAdd suggestions word).Nodup := by
  unfold setAdd
  split
  · exact h
  · next hw =>
    rw [List.nodup_append]
    refine ⟨h, List.nodup_singleton _, ?_⟩
    intro a ha hb
    rw [List.mem_singleton] at hb
    exact hw (hb ▸ ha)

theorem completes_iff (p word : String) :
    (decide (word.length > 2) && startsWith word (toLowerCase p) && word != toLowerCase p)
        = true
      ↔ completes p word := by
  simp only [Bool.and_eq_true, decide_eq_true_eq, startsWith_iff, bne_iff_ne, ne_eq,
    completes, gt_iff_lt, and_assoc]

/-- The words of one record are added to the set. -/
theorem addWords (p : String) (words : List String) :
    ∀ (suggestions : List String), suggestions.Nodup →
      (words.foldl (fun suggestions word =>
          if word.length > 2 && startsWith word (toLowerCase p) && word != toLowerCase p then
            setAdd suggestions word
          else suggestions) suggestions).Nodup
        ∧ ∀ w, w ∈ words.foldl (fun suggestions word =>
            if word.length > 2 && startsWith word (toLowerCase p) && word != toLowerCase p
            then setAdd suggestions word
            else suggestions) suggestions
          ↔ w ∈ suggestions ∨ (w ∈ words ∧ completes p w) := by
  induction words with
  | nil =>
    intro suggestions h
    simp [h]
  | cons word rest ih =>
    intro suggestions h
    rw [List.foldl_cons]
    by_cases hc : (decide (word.length > 2) && startsWith word (toLowerCase p)
        && word != toLowerCase p) = true
    · rw [if_pos hc]
      obtain ⟨h1, h2⟩ := ih (setAdd suggestions word) (setAdd_nodup _ _ h)
      refine ⟨h1, fun w => ?_⟩
      rw [h2, mem_setAdd, List.mem_cons]
      have hc' := (completes_iff p word).mp hc
      constructor
      · rintro ((hw | hw) | ⟨hw, hcw⟩)
        · exact Or.inl hw
        · exact Or.inr ⟨Or.inl hw, hw ▸ hc'⟩
        · exact Or.inr ⟨Or.inr hw, hcw⟩
      · rintro (hw | ⟨hw | hw, hcw⟩)
        · exact Or.inl (Or.inl hw)
        · exact Or.inl (Or.inr hw)
        · exact Or.inr ⟨hw, hcw⟩
    · rw [if_neg hc]
      obtain ⟨h1, h2⟩ := ih suggestions h
      refine ⟨h1, fun w => ?_⟩
      rw [h2, List.mem_cons]
      have hc' : ¬ completes p word := fun hcw => hc ((completes_iff p word).mpr hcw)
      constructor
      · rintro (hw | ⟨hw, hcw⟩)
        · exact Or.inl hw
        · exact Or.inr ⟨Or.inr hw, hcw⟩
      · rintro (hw | ⟨hw | hw, hcw⟩)
        · exact Or.inl hw
        · exact absurd (hw ▸ hcw) hc'
        · exact Or.inr ⟨hw, hcw⟩

/-- The words of the records of an index are added to the set. -/
theorem addRecords (p : String) (searchIndex : List (String × IndexedRecord)) :
    ∀ (suggestions : List String), suggestions.Nodup →
      (searchIndex.foldl (fun suggestions entry =>
          (splitSpaces entry.2.searchableText).foldl (fun suggestions word =>
            if word.length > 2 && startsWith word (toLowerCase p) && word != toLowerCase p
            then setAdd suggestions word
            else suggestions) suggestions) suggestions).Nodup
        ∧ ∀ w, w ∈ searchIndex.foldl (fun suggestions entry =>
            (splitSpaces entry.2.searchableText).foldl (fun suggestions word =>
              if word.length > 2 && startsWith word (toLowerCase p) && word != toLowerCase p
              then setAdd suggestions word
              else suggestions) suggestions) suggestions
          ↔ w ∈ suggestions
            ∨ ∃ e ∈ searchIndex, w ∈ splitSpaces e.2.searchableText ∧ completes p w := by
  induction searchIndex with
  | nil =>
    intro suggestions h
    simp [h]
  | cons entry rest ih =>
    intro suggestions h
    rw [List.foldl_cons]
    obtain ⟨h1, h2⟩ := addWords p (splitSpaces entry.2.searchableText) suggestions h
    obtain ⟨h3, h4⟩ := ih _ h1
    refine ⟨h3, fun w => ?_⟩
    rw [h4, h2]
    constructor
    · rintro ((hw | hw) | ⟨e, he, hw⟩)
      · exact Or.inl hw
      · exact Or.inr ⟨entry, List.mem_cons_self _ _, hw⟩
      · exact Or.inr ⟨e, List.mem_cons_of_mem _ he, hw⟩
    · rintro (hw | ⟨e, he, hw⟩)
      · exact Or.inl (Or.inl hw)
      · rcases List.mem_cons.mp he with rfl | he
        · exact Or.inl (Or.inr hw)
        · exact Or.inr ⟨e, he, hw⟩

/-- C26: `getAutoCompleteSuggestions(p)` returns a list without duplicates whose elements
are exactly the pieces that `split(/\s+/)` makes of the `searchableText` of the indexed
records which start with the lowercased `p`, have more than 2 characters and are not the
lowercased `p`. -/
theorem getAutoCompleteSuggestions_spec (searchIndex : List (String × IndexedRecord))
    (p : String) :
    (getAutoCompleteSuggestions searchIndex p).Nodup
      ∧ ∀ w, w ∈ getAutoCompleteSuggestions searchIndex p
          ↔ ∃ e ∈ searchIndex, w ∈ splitSpaces e.2.searchableText
              ∧ 2 < w.length ∧ (toLowerCase p).data <+: w.data ∧ w ≠ toLowerCase p := by
  obtain ⟨h1, h2⟩ := addRecords p searchIndex [] List.nodup_nil
  refine ⟨h1, fun w => ?_⟩
  have := h2 w
  simp only [List.not_mem_nil, false_or] at this
  exact this

/-! ## C27: generating suggestions changes nothing -/

/-- C27: `generateSuggestions` leaves the state as it was: the search history (content and
order), the index, the saved searches and the active filters, and the registry as well.
The getters it uses are functions of the history and of the index that they read: the
sorts of `getPopularSearches` and `getSimilarQueries` act on a copy. -/
theorem generateSuggestions_state (m : SearchFilterManager) (query : String)
    (results : List SearchResult) :
    (generateSuggestions m query results).2.searchHistory = m.searchHistory
      ∧ (generateSuggestions m query results).2.searchIndex = m.searchIndex
      ∧ (generateSuggestions m query results).2.savedSearches = m.savedSearches
      ∧ (generateSuggestions m query results).2.activeFilters = m.activeFilters
      ∧ (generateSuggestions m query results).2 = m :=
  ⟨rfl, rfl, rfl, rfl, rfl⟩

/-! ## C28 and C29: the greedy scan and the subsequences -/

/-- C28: the greedy scan is not an optimal alignment: for the query "xab" and the text
"abx" it matches 1 character, while "ab" is a common subsequence of length 2. -/
theorem fuzzy_greedy_not_optimal :
    ∃ (query text : String) (common : List Char),
      List.Sublist common query.data ∧ List.Sublist common text.data
        ∧ fuzzyMatches query text < common.length
        ∧ query = "xab" ∧ text = "abx" ∧ fuzzyMatches query text = 1 ∧ common.length = 2 :=
  ⟨"xab", "abx", ['a', 'b'], by decide, by decide, by decide, rfl, rfl, by decide, rfl⟩

theorem dropThrough_some (c : Char) (text rest : List Char)
    (h : dropThrough c text = some rest) :
    ∃ before, text = before ++ c :: rest ∧ c ∉ before := by
  induction text with
  | nil => simp [dropThrough] at h
  | cons d ds ih =>
    unfold dropThrough at h
    by_cases hd : d = c
    · rw [if_pos hd] at h
      refine ⟨[], ?_, by simp⟩
      simp only [Option.some.injEq] at h
      rw [hd, h]
      rfl
    · rw [if_neg hd] at h
      obtain ⟨before, h1, h2⟩ := ih h
      refine ⟨d :: before, by rw [h1]; rfl, ?_⟩
      intro hmem
      rcases List.mem_cons.mp hmem with h' | h'
      · exact hd h'.symm
      · exact h2 h'

theorem dropThrough_none (c : Char) (text : List Char) (h : dropThrough c text = none) :
    c ∉ text := by
  induction text with
  | nil => simp
  | cons d ds ih =>
    unfold dropThrough at h
    by_cases hd : d = c
    · rw [if_pos hd] at h
      simp at h
    · rw [if_neg hd] at h
      intro hmem
      rcases List.mem_cons.mp hmem with h' | h'
      · exact hd h'.symm
      · exact ih h h'

theorem greedyMatches_le (query : List Char) :
    ∀ text : List Char, greedyMatches query text ≤ query.length := by
  induction query with
  | nil => intro text; simp [greedyMatches]
  | cons c cs ih =>
    intro text
    unfold greedyMatches
    cases dropThrough c text with
    | none =>
      have := ih text
      simp only [List.length_cons]
      omega
    | some rest =>
      have := ih rest
      simp only [List.length_cons]
      omega

/-- What follows the first occurrence of a character has, as subsequences, the
subsequences of what follows any occurrence. -/
theorem sublist_after_first (c : Char) (cs : List Char) :
    ∀ (text : List Char), List.Sublist (c :: cs) text →
      ∃ rest, dropThrough c text = some rest ∧ List.Sublist cs rest := by
  intro text
  induction text with
  | nil => intro h; simp at h
  | cons d ds ih =>
    intro h
    unfold dropThrough
    by_cases hd : d = c
    · rw [if_pos hd]
      refine ⟨ds, rfl, ?_⟩
      rw [hd] at h
      exact (List.cons_sublist_cons.mp h)
    · rw [if_neg hd]
      have h' : List.Sublist (c :: cs) ds := by
        cases h with
        | cons _ h' => exact h'
        | cons₂ _ _ => exact absurd rfl hd
      exact ih h'

/-- The greedy scan finds every character of the query exactly when the query is a
subsequence of the text. -/
theorem greedyMatches_eq_length_iff (query : List Char) :
    ∀ text : List Char, greedyMatches query text = query.length ↔ List.Sublist query text := by
  induction query with
  | nil => intro text; simp [greedyMatches]
  | cons c cs ih =>
    intro text
    constructor
    · intro h
      unfold greedyMatches at h
      cases hd : dropThrough c text with
      | none =>
        rw [hd] at h
        have := greedyMatches_le cs text
        simp only [List.length_cons] at h
        omega
      | some rest =>
        rw [hd] at h
        simp only [List.length_cons, Nat.add_right_cancel_iff] at h
        obtain ⟨before, h1, _⟩ := dropThrough_some c text rest hd
        rw [h1]
        exact ((List.cons_sublist_cons.mpr ((ih rest).mp h))).trans
          (List.sublist_append_right _ _)
    · intro h
      obtain ⟨rest, h1, h2⟩ := sublist_after_first c cs text h
      unfold greedyMatches
      rw [h1]
      simp only [List.length_cons, Nat.add_right_cancel_iff]
      exact (ih rest).mpr h2

/-- C29: for a query that is not empty the fuzzy score lies between 0 and 10, and it is 10
exactly when the query is a subsequence of the text (its characters occur in the text in
order, not necessarily next to each other). -/
theorem fuzzyScore_ten_iff_subsequence (query text : String) (hq : query ≠ "") :
    0 ≤ fuzzyScore query text ∧ fuzzyScore query text ≤ 10
      ∧ (fuzzyScore query text = 10 ↔ List.Sublist query.data text.data) := by
  refine ⟨fuzzyScore_nonneg _ _, fuzzyScore_le_ten _ _, ?_⟩
  have hd : query.data ≠ [] := fun h => hq (String.ext h)
  have hlen : 0 < query.length := List.length_pos.mpr hd
  have hlenq : (0 : ℚ) < (query.length : ℚ) := by exact_mod_cast hlen
  rw [← greedyMatches_eq_length_iff, ← fuzzyMatches_eq_greedy]
  unfold fuzzyScore
  constructor
  · intro h
    have h1 : (fuzzyMatches query text : ℚ) / (query.length : ℚ) = 1 := by linarith
    rw [div_eq_one_iff_eq (ne_of_gt hlenq)] at h1
    have : fuzzyMatches query text = query.length := by exact_mod_cast h1
    exact this
  · intro h
    have : fuzzyMatches query text = query.length := h
    rw [this, div_self (ne_of_gt hlenq)]
    norm_num

/-- The query "fab" is a subsequence of "fix authentication bug": its fuzzy score is 10. -/
theorem fuzzyScore_ten_iff_subsequence_witness :
    "fab" ≠ ""
      ∧ fuzzyScore "fab" "fix authentication bug" = 10
      ∧ 0 ≤ fuzzyScore "fab" "fix authentication bug"
      ∧ fuzzyScore "fab" "fix authentication bug" ≤ 10
      ∧ (fuzzyScore "fab" "fix authentication bug" = 10
          ↔ List.Sublist "fab".data "fix authentication bug".data) :=
  ⟨by decide, by decide!,
    fuzzyScore_ten_iff_subsequence "fab" "fix authentication bug" (by decide)⟩

/-! ## C30: a query that begins or ends with whitespace -/

theorem toLower_of_isJsSpace (c : Char) (h : isJsSpace c = true) : Char.toLower c = c := by
  unfold Char.toLower
  unfold isJsSpace at h
  simp only [Bool.or_eq_true, Bool.and_eq_true, decide_eq_true_eq, beq_iff_eq] at h
  have hn : ¬ (c.toNat ≥ 65 ∧ c.toNat ≤ 90) := by omega
  simp only [hn, if_false]

theorem nil_mem_splitSpacesAux_cons (c : Char) (rest : List Char) (h : isJsSpace c = true) :
    [] ∈ splitSpacesAux [] false (c :: rest) := by
  simp [splitSpacesAux, h]

theorem nil_mem_splitSpacesAux_concat (c : Char) (h : isJsSpace c = true)
    (front : List Char) :
    ∀ (cur : List Char) (inRun : Bool), [] ∈ splitSpacesAux cur inRun (front ++ [c]) := by
  induction front with
  | nil =>
    intro cur inRun
    cases inRun <;> simp [splitSpacesAux, h]
  | cons d ds ih =>
    intro cur inRun
    rw [List.cons_append]
    unfold splitSpacesAux
    by_cases hd : isJsSpace d = true
    · rw [if_pos hd]
      cases inRun
      · simp only [Bool.false_eq_true, if_false]
        exact List.mem_cons_of_mem _ (ih [] true)
      · simp only [if_true]
        exact ih [] true
    · rw [if_neg hd]
      exact ih (d :: cur) false

/-- The lowercased query has an empty word when the query begins or ends with
whitespace. -/
theorem empty_word_of_blank_end (query : String)
    (h : (∃ c rest, query.data = c :: rest ∧ isJsSpace c = true)
      ∨ ∃ front c, query.data = front ++ [c] ∧ isJsSpace c = true) :
    "" ∈ splitSpaces (toLowerCase query) := by
  unfold splitSpaces
  apply List.mem_map.mpr
  refine ⟨[], ?_, rfl⟩
  show [] ∈ splitSpacesAux [] false (query.data.map Char.toLower)
  rcases h with ⟨c, rest, hd, hc⟩ | ⟨front, c, hd, hc⟩
  · rw [hd, List.map_cons, toLower_of_isJsSpace c hc]
    exact nil_mem_splitSpacesAux_cons c _ hc
  · rw [hd, List.map_append, List.map_singleton, toLower_of_isJsSpace c hc]
    exact nil_mem_splitSpacesAux_concat c hc _ [] false

theorem textScore_ge_of_empty_word (query text : String) (h : "" ∈ splitSpaces query) :
    25 ≤ textScore query text := by
  rw [textScore_eq]
  unfold claimedTextScore
  have hpos : 0 < (splitSpaces query).countP (fun word => decide (word.data <:+: text.data)) :=
    List.countP_pos_iff.mpr ⟨"", h, by simp⟩
  omega

theorem score_ge_of_empty_word (query : String) (item : IndexedRecord) (fuzzy : Bool) (s : ℚ)
    (h : "" ∈ splitSpaces query) (hs : calculateSearchScore query item fuzzy = .ok s) :
    25 ≤ s := by
  have hr : raisesOn item = false := by
    cases hraise : raisesOn item
    · rfl
    · rw [calculateSearchScore_raises query item fuzzy hraise] at hs
      simp at hs
  rw [calculateSearchScore_ok query item fuzzy hr] at hs
  simp only [Except.ok.injEq] at hs
  have h25 : (25 : ℚ) ≤ (textScore query item.searchableText : ℚ) := by
    exact_mod_cast textScore_ge_of_empty_word query item.searchableText h
  have hb : (0 : ℚ) ≤ (guardedFieldBoost query item : ℚ) := Nat.cast_nonneg _
  have hf := fuzzyScore_nonneg query item.searchableText
  rw [← hs]
  split <;> linarith

/-- When the loop of `search` ends without a failure, the score of every record of a
requested type was computed. -/
theorem collectResults_scores (query : String) (options : SearchOptions) :
    ∀ (searchIndex : List (String × IndexedRecord)) (results : List SearchResult),
      collectResults query options searchIndex = .ok results →
      ∀ e ∈ searchIndex, options.types.contains e.2.type = true →
        ∃ s, calculateSearchScore query e.2 options.fuzzy = .ok s := by
  intro searchIndex
  induction searchIndex with
  | nil => intro _ _ e he; simp at he
  | cons first rest ih =>
    intro results h e he ht
    obtain ⟨key, item⟩ := first
    unfold collectResults at h
    by_cases hty : options.types.contains item.type = true
    · simp only [hty, Bool.not_true, Bool.false_eq_true, if_false] at h
      cases hc : calculateSearchScore query item options.fuzzy with
      | error f =>
        rw [hc] at h
        simp at h
      | ok score =>
        rw [hc] at h
        simp only at h
        have hrest : ∃ results', collectResults query options rest = .ok results' := by
          split at h
          · split at h
            · simp at h
            · split at h
              · simp at h
              · next results' hr => exact ⟨results', hr⟩
          · exact ⟨results, h⟩
        obtain ⟨results', hr⟩ := hrest
        rcases List.mem_cons.mp he with heq | hin
        · subst heq
          exact ⟨score, hc⟩
        · exact ih results' hr e hin ht
    · have hty' : options.types.contains item.type = false := by
        simpa using hty
      simp only [hty', Bool.not_false, if_true] at h
      rcases List.mem_cons.mp he with heq | hin
      · subst heq
        exact absurd ht hty
      · exact ih results h e hin ht

/-- When the number of matches does not exceed the limit, `search` returns every match. -/
theorem search_returns_matches (m : SearchFilterManager) (query : String)
    (options : SearchOptions) (now : String) (res : List SearchResult)
    (hq : 2 ≤ query.length) (h : (search m query options now).1 = .ok res)
    (hcount : ((m.searchIndex.filter
        (fun e => isMatch m.activeFilters (toLowerCase query) options e.2)).length : Int)
      ≤ options.limit)
    (e : String × IndexedRecord) (he : e ∈ m.searchIndex) (r : SearchResult)
    (hcand : candidate (toLowerCase query) options e.2 = some r)
    (hpass : m.activeFilters.all (fun f => f.2.function r f.2.value) = true) : r ∈ res := by
  rcases search_ok_cases m query options now res h with ⟨hlt, _⟩ | ⟨_, results, hc, hres⟩
  · omega
  have hresults := collectResults_eq_filterMap _ _ _ _ hc
  have hlen : (applyFilters m.activeFilters (sortByScore results)).length
      = (m.searchIndex.filter
          (fun e => isMatch m.activeFilters (toLowerCase query) options e.2)).length := by
    rw [applyFilters_eq_filter, ((sortByScore_perm results).filter _).length_eq, hresults]
    exact length_filter_candidates _ _ _ _
  have hall : res = applyFilters m.activeFilters (sortByScore results) := by
    rw [hres]
    apply sliceTo_of_length_le
    rw [hlen]
    exact hcount
  have hmem : r ∈ results := by
    rw [hresults]
    exact List.mem_filterMap.mpr ⟨e, he, hcand⟩
  rw [hall, applyFilters_eq_filter]
  refine List.mem_filter.mpr ⟨(sortByScore_perm results).mem_iff.mpr hmem, ?_⟩
  rw [passesFilters_eq_all]
  exact hpass

/-- C30: for a query of length at least 2 that begins or ends with whitespace, every score
that `calculateSearchScore` returns for the lowercased query is at least 25, whatever the
record contains; so when `search` returns, every indexed record of a requested type has a
result of score at least 25, and that result is returned when it passes the active filters
and the number of matches does not exceed the limit. -/
theorem search_blank_end_returns_all (m : SearchFilterManager) (query : String)
    (options : SearchOptions) (now : String) (res : List SearchResult)
    (hq : 2 ≤ query.length)
    (hblank : (∃ c rest, query.data = c :: rest ∧ isJsSpace c = true)
      ∨ ∃ front c, query.data = front ++ [c] ∧ isJsSpace c = true)
    (h : (search m query options now).1 = .ok res) :
    (∀ (item : IndexedRecord) (fuzzy : Bool) (s : ℚ),
        calculateSearchScore (toLowerCase query) item fuzzy = .ok s → 25 ≤ s)
      ∧ (∀ (item : IndexedRecord), raisesOn item = false →
          ∃ s, calculateSearchScore (toLowerCase query) item false = .ok s ∧ 25 ≤ s)
      ∧ ∀ e ∈ m.searchIndex, options.types.contains e.2.type = true →
          ∃ r, candidate (toLowerCase query) options e.2 = some r
            ∧ r.toIndexedRecord = e.2 ∧ 25 ≤ r.score
            ∧ (m.activeFilters.all (fun f => f.2.function r f.2.value) = true →
                ((m.searchIndex.filter (fun e =>
                    isMatch m.activeFilters (toLowerCase query) options e.2)).length : Int)
                  ≤ options.limit →
                r ∈ res) := by
  have hword := empty_word_of_blank_end query hblank
  refine ⟨fun item fuzzy s hs => score_ge_of_empty_word _ item fuzzy s hword hs,
    fun item hr => ?_, fun e he ht => ?_⟩
  · have hs := calculateSearchScore_ok (toLowerCase query) item false hr
    exact ⟨_, hs, score_ge_of_empty_word _ item false _ hword hs⟩
  · rcases search_ok_cases m query options now res h with ⟨hlt, _⟩ | ⟨_, results, hc, _⟩
    · omega
    obtain ⟨s, hs⟩ := collectResults_scores _ _ _ _ hc e he ht
    have h25 := score_ge_of_empty_word _ e.2 options.fuzzy s hword hs
    have hpos : (0 : ℚ) < s := by linarith
    have hcand : candidate (toLowerCase query) options e.2
        = some (resultFor (toLowerCase query) options e.2 s) := by
      unfold candidate
      rw [if_pos ht, hs]
      simp only [hpos, if_true]
    exact ⟨_, hcand, rfl, h25, fun hpass hcount =>
      search_returns_matches m query options now res hq h hcount e he _ hcand hpass⟩

/-- The search for " zz", a query that starts with a space, on the sample manager. -/
theorem search_blank_eq : (search sampleManager " zz" {} "t1").1 = .ok
    [ { toIndexedRecord := mkRecord "task" (JsVal.str "t1")
            [("title", JsVal.str "Fix authentication bug"), ("status", JsVal.str "todo"),
              ("priority", JsVal.str "high")],
        score := 25, highlights := some [] },
      { toIndexedRecord := mkRecord "task" (JsVal.str "t2")
            [("title", JsVal.str "Fix login page"), ("status", JsVal.str "todo"),
              ("priority", JsVal.str "low")],
        score := 25, highlights := some [] },
      { toIndexedRecord := mkRecord "member" (JsVal.str "user1")
            [("name", JsVal.str "Alex Johnson"), ("role", JsVal.str "Bug fixer")],
        score := 25, highlights := some [] } ] := by
  with_unfolding_all rfl

/-- The search for " zz" on the sample manager returns its three records, each with the
score 25, although none of them contains "zz". -/
theorem search_blank_end_returns_all_witness :
    2 ≤ " zz".length
      ∧ (∃ c rest, " zz".data = c :: rest ∧ isJsSpace c = true)
      ∧ ∃ res, (search sampleManager " zz" {} "t1").1 = .ok res
        ∧ res.map (fun r => (r.id.toStr, r.score)) = [("t1", 25), ("t2", 25), ("user1", 25)]
        ∧ ∀ e ∈ sampleManager.searchIndex,
            ∃ r, candidate (toLowerCase " zz") {} e.2 = some r ∧ r.toIndexedRecord = e.2
              ∧ 25 ≤ r.score ∧ r ∈ res :=
  ⟨by decide, ⟨' ', ['z', 'z'], rfl, by decide⟩, _, search_blank_eq, by with_unfolding_all rfl,
    fun e he => by
      obtain ⟨r, h1, h2, h3, h4⟩ :=
        (search_blank_end_returns_all sampleManager " zz" {} "t1" _ (by decide)
          (Or.inl ⟨' ', ['z', 'z'], rfl, by decide⟩) search_blank_eq).2.2 e he
          (by
            have : e ∈ sampleManager.searchIndex := he
            simp only [sampleManager] at this
            rcases List.mem_cons.mp this with rfl | this
            · decide
            rcases List.mem_cons.mp this with rfl | this
            · decide
            rcases List.mem_cons.mp this with rfl | this
            · decide
            simp at this)
      exact ⟨r, h1, h2, h3, h4 rfl (by decide!)⟩⟩

/-! ## C21: the active filters after a sequence of calls -/

theorem mapGet_isSome_iff {α : Type} (key : String) (entries : List (String × α)) :
    (mapGet key entries).isSome = true ↔ key ∈ entries.map Prod.fst := by
  induction entries with
  | nil => simp [mapGet]
  | cons e rest ih =>
    obtain ⟨k, v⟩ := e
    unfold mapGet
    by_cases hk : k = key
    · simp [hk]
    · rw [if_neg hk, ih]
      simp only [List.map_cons, List.mem_cons]
      constructor
      · exact Or.inr
      · rintro (h | h)
        · exact absurd h.symm hk
        · exact h

theorem mapGet_mapDelete {α : Type} (key key' : String) (entries : List (String × α)) :
    mapGet key (mapDelete key' entries) = if key = key' then none else mapGet key entries := by
  induction entries with
  | nil => simp [mapDelete, mapGet]
  | cons e rest ih =>
    obtain ⟨k, v⟩ := e
    unfold mapDelete at ih ⊢
    rw [List.filter_cons]
    by_cases hk : k = key'
    · have hb : ((k, v).1 != key') = false := by simp [hk]
      rw [hb]
      simp only [Bool.false_eq_true, if_false]
      rw [ih]
      by_cases hkey : key = key'
      · simp [hkey]
      · have : ¬ k = key := fun h => hkey (h ▸ hk)
        simp [hkey, mapGet, this]
    · have hb : ((k, v).1 != key') = true := by simp [hk]
      rw [hb]
      simp only [if_true]
      unfold mapGet
      by_cases hkk : k = key
      · have : ¬ key = key' := fun h => hk (hkk.trans h)
        simp [hkk, this]
      · rw [if_neg hkk, if_neg hkk, ih]

theorem mem_keys_mapSet {α : Type} (key k : String) (value : α) (entries : List (String × α)) :
    key ∈ (mapSet k value entries).map Prod.fst ↔ key = k ∨ key ∈ entries.map Prod.fst := by
  rw [mapSet_keys]
  split
  · next h =>
    constructor
    · exact Or.inr
    · rintro (h' | h')
      · exact h' ▸ h
      · exact h'
  · simp only [List.mem_append, List.mem_singleton]
    tauto

theorem mem_keys_mapDelete {α : Type} (key k : String) (entries : List (String × α)) :
    key ∈ (mapDelete k entries).map Prod.fst ↔ key ≠ k ∧ key ∈ entries.map Prod.fst := by
  rw [← mapGet_isSome_iff, ← mapGet_isSome_iff, mapGet_mapDelete]
  by_cases h : key = k <;> simp [h]

/-- The effect of `activateFilter` on the flags and on the values. -/
theorem activateFilter_track (m : SearchFilterManager) (name : String) (value : JsVal)
    (h : flagsAgree m) :
    flagsAgree (activateFilter m name value).2
      ∧ ∀ key, (mapGet key (activateFilter m name value).2.activeFilters).map (fun f => f.value)
          = if key = name ∧ (mapGet name m.filters).isSome = true then some (storedValue value)
            else (mapGet key m.activeFilters).map (fun f => f.value) := by
  unfold activateFilter
  cases hf : mapGet name m.filters with
  | none =>
    refine ⟨h, fun key => ?_⟩
    simp
  | some filter =>
    have hstored : (match value with
        | JsVal.undefined => JsVal.bool true
        | v => v) = storedValue value := by
      cases value <;> rfl
    simp only [hstored]
    refine ⟨fun key g hg => ?_, fun key => ?_⟩
    · simp only at hg ⊢
      rw [mem_keys_mapSet]
      by_cases hk : key = name
      · subst hk
        rw [mapGet_mapSet_self] at hg
        simp only [Option.some.injEq] at hg
        rw [← hg]
        simp
      · rw [mapGet_mapSet_ne _ _ _ _ hk] at hg
        rw [h key g hg]
        simp [hk]
    · simp only [Option.isSome_some, and_true]
      by_cases hk : key = name
      · subst hk
        rw [mapGet_mapSet_self]
        simp
      · rw [mapGet_mapSet_ne _ _ _ _ hk, if_neg hk]

/-- The effect of `deactivateFilter` on the flags and on the values. -/
theorem deactivateFilter_track (m : SearchFilterManager) (name : String) (h : flagsAgree m) :
    flagsAgree (deactivateFilter m name).2
      ∧ ∀ key, (mapGet key (deactivateFilter m name).2.activeFilters).map (fun f => f.value)
          = if key = name ∧ (mapGet name m.filters).isSome = true then none
            else (mapGet key m.activeFilters).map (fun f => f.value) := by
  unfold deactivateFilter
  cases hf : mapGet name m.filters with
  | none =>
    refine ⟨h, fun key => ?_⟩
    simp
  | some filter =>
    refine ⟨fun key g hg => ?_, fun key => ?_⟩
    · simp only at hg ⊢
      rw [mem_keys_mapDelete]
      by_cases hk : key = name
      · subst hk
        rw [mapGet_mapSet_self] at hg
        simp only [Option.some.injEq] at hg
        rw [← hg]
        simp
      · rw [mapGet_mapSet_ne _ _ _ _ hk] at hg
        rw [h key g hg]
        simp [hk]
    · simp only [Option.isSome_some, and_true]
      rw [mapGet_mapDelete]
      by_cases hk : key = name
      · simp [hk]
      · simp [hk]

/-- The flags of the registry after the deactivation of a list of names. -/
theorem clearFlags (names : List String) :
    ∀ (m : SearchFilterManager) (key : String) (g : Filter),
      mapGet key (names.foldl (fun m name => (deactivateFilter m name).2) m).filters = some g →
      ∃ f, mapGet key m.filters = some f
        ∧ g.active = (if key ∈ names then false else f.active) := by
  induction names with
  | nil =>
    intro m key g hg
    exact ⟨g, hg, by simp⟩
  | cons n ns ih =>
    intro m key g hg
    rw [List.foldl_cons] at hg
    obtain ⟨f1, hf1, hact⟩ := ih _ key g hg
    unfold deactivateFilter at hf1
    cases hf : mapGet n m.filters with
    | none =>
      rw [hf] at hf1
      simp only at hf1
      have hne : key ≠ n := by
        intro hk
        rw [hk, hf] at hf1
        simp at hf1
      refine ⟨f1, hf1, ?_⟩
      rw [hact]
      simp [hne]
    | some f0 =>
      rw [hf] at hf1
      simp only at hf1
      by_cases hk : key = n
      · subst hk
        rw [mapGet_mapSet_self] at hf1
        simp only [Option.some.injEq] at hf1
        refine ⟨f0, hf, ?_⟩
        rw [hact, ← hf1]
        simp
      · rw [mapGet_mapSet_ne _ _ _ _ hk] at hf1
        refine ⟨f1, hf1, ?_⟩
        rw [hact]
        simp [hk]

/-- The effect of `clearAllFilters` on the flags and on the values. -/
theorem clearAllFilters_track (m : SearchFilterManager) (hw : filtersWellFormed m)
    (h : flagsAgree m) :
    flagsAgree (clearAllFilters m)
      ∧ ∀ key : String,
          (mapGet key (clearAllFilters m).activeFilters).map (fun f => f.value) = none := by
  have hempty := (clearAllFilters_spec m (fun e he => (hw.2 e he).1)).1
  refine ⟨fun key g hg => ?_, fun key => by rw [hempty]; rfl⟩
  rw [hempty]
  simp only [List.map_nil, List.not_mem_nil, iff_false, Bool.not_eq_true]
  obtain ⟨f, hf, hact⟩ := clearFlags _ m key g hg
  rw [hact]
  split
  · rfl
  · next hk =>
    cases hfa : f.active
    · rfl
    · exact absurd ((h key f hf).mp hfa) hk

/-- One call keeps the agreement of the flags with the active filters. -/
theorem applyFilterCall_flags (m : SearchFilterManager) (call : FilterCall)
    (hw : filtersWellFormed m) (h : flagsAgree m) : flagsAgree (applyFilterCall m call) := by
  cases call with
  | activate n value => exact (activateFilter_track m n value h).1
  | deactivate n => exact (deactivateFilter_track m n h).1
  | clearAll => exact (clearAllFilters_track m hw h).1

/-- One call: the value of a name follows the call. -/
theorem applyFilterCall_value (m : SearchFilterManager) (call : FilterCall)
    (hw : filtersWellFormed m) (h : flagsAgree m) (name : String) (last : Option JsVal)
    (hlast : (mapGet name m.activeFilters).map (fun f => f.value)
      = if (mapGet name m.filters).isSome = true then last.map storedValue else none) :
    (mapGet name (applyFilterCall m call).activeFilters).map (fun f => f.value)
      = if (mapGet name m.filters).isSome = true
        then (lastStep name last call).map storedValue else none := by
  cases call with
  | activate n value =>
    have h2 := (activateFilter_track m n value h).2
    simp only [applyFilterCall, lastStep]
    rw [h2 name, hlast]
    by_cases hn : n = name
    · subst hn
      by_cases hr : (mapGet n m.filters).isSome = true
      · simp [hr]
      · simp [hr]
    · have hn' : ¬ name = n := fun h' => hn h'.symm
      simp [hn, hn']
  | deactivate n =>
    have h2 := (deactivateFilter_track m n h).2
    simp only [applyFilterCall, lastStep]
    rw [h2 name, hlast]
    by_cases hn : n = name
    · subst hn
      by_cases hr : (mapGet n m.filters).isSome = true
      · simp [hr]
      · simp [hr]
    · have hn' : ¬ name = n := fun h' => hn h'.symm
      simp [hn, hn']
  | clearAll =>
    have h2 := (clearAllFilters_track m hw h).2
    simp only [applyFilterCall, lastStep]
    rw [h2 name]
    simp

/-- The invariants and the values after a sequence of calls from a state with no active
filter. -/
theorem applyFilterCalls_track (m : SearchFilterManager) (hnone : m.activeFilters = [])
    (hflags : ∀ name filter, mapGet name m.filters = some filter → filter.active = false)
    (calls : List FilterCall) :
    filtersWellFormed (applyFilterCalls m calls)
      ∧ flagsAgree (applyFilterCalls m calls)
      ∧ (∀ name, (mapGet name (applyFilterCalls m calls).filters).isSome
          = (mapGet name m.filters).isSome)
      ∧ ∀ name, (mapGet name (applyFilterCalls m calls).activeFilters).map (fun f => f.value)
          = if (mapGet name m.filters).isSome = true
            then (lastActivation name calls).map storedValue else none := by
  induction calls using List.reverseRecOn with
  | nil =>
    refine ⟨filtersWellFormed_of_no_active m hnone, fun name filter hf => ?_, fun _ => rfl,
      fun name => ?_⟩
    · show filter.active = true ↔ name ∈ m.activeFilters.map Prod.fst
      rw [hnone, hflags name filter hf]
      simp
    · show (mapGet name m.activeFilters).map (fun f => f.value) = _
      rw [hnone]
      simp [lastActivation, mapGet]
  | append_singleton calls call ih =>
    obtain ⟨hw, hf, hreg, hval⟩ := ih
    have happ : applyFilterCalls m (calls ++ [call])
        = applyFilterCall (applyFilterCalls m calls) call := by
      simp [applyFilterCalls, List.foldl_append]
    have hlast : ∀ name, lastActivation name (calls ++ [call])
        = lastStep name (lastActivation name calls) call := by
      intro name
      simp [lastActivation, List.foldl_append]
    rw [happ]
    have hregs := (applyFilterCall_spec (applyFilterCalls m calls) call
      (fun e he => (hw.2 e he).1)).2.1
    refine ⟨filtersWellFormed_applyFilterCall _ call hw,
      applyFilterCall_flags _ call hw hf, fun name => ?_, fun name => ?_⟩
    · have := hregs name
      unfold registered at this
      rw [← hreg name]
      exact Bool.eq_iff_iff.mpr this
    · have h1 := hval name
      rw [← hreg name] at h1
      have h2 := applyFilterCall_value _ call hw hf name _ h1
      rw [h2, hreg name, hlast name]

/-- C21 as stated fails where the value passed is `undefined`: after
`activateFilter("taskPriority", undefined)` on the sample manager, whose registry has the
filter `taskPriority`, the last call for the name is an activation that passed `undefined`,
and the entry of `taskPriority` holds `true`. -/
theorem activateFilter_undefined_stores_true :
    lastActivation "taskPriority" [FilterCall.activate "taskPriority" JsVal.undefined]
        = some JsVal.undefined
      ∧ activeValues
          (applyFilterCalls sampleManager [FilterCall.activate "taskPriority" JsVal.undefined])
        = [("taskPriority", JsVal.bool true)]
      ∧ JsVal.bool true ≠ JsVal.undefined :=
  ⟨rfl, rfl, fun h => JsVal.noConfusion h⟩

/-- C21, amended: after any sequence of `activateFilter`, `deactivateFilter` and
`clearAllFilters` calls from a state with no active filter and no flag set, the keys of
`activeFilters` are distinct; a name is a key exactly when it is registered and the last
call that affects it is an activation; the value of its entry is the value passed to that
activation, or `true` when that value was `undefined`; the flag `active` of every filter of
the registry tells whether its name is a key; the names of the registry are the same; and
`clearAllFilters` leaves `activeFilters` empty. -/
theorem filter_calls_last_activation (m : SearchFilterManager) (calls : List FilterCall)
    (hnone : m.activeFilters = [])
    (hflags : ∀ name filter, mapGet name m.filters = some filter → filter.active = false) :
    ((applyFilterCalls m calls).activeFilters.map Prod.fst).Nodup
      ∧ (∀ name, name ∈ (applyFilterCalls m calls).activeFilters.map Prod.fst
          ↔ registered m name ∧ (lastActivation name calls).isSome = true)
      ∧ (∀ name, (mapGet name (applyFilterCalls m calls).activeFilters).map (fun f => f.value)
          = if (mapGet name m.filters).isSome = true
            then (lastActivation name calls).map storedValue else none)
      ∧ storedValue JsVal.undefined = JsVal.bool true
      ∧ (∀ value, value ≠ JsVal.undefined → storedValue value = value)
      ∧ flagsAgree (applyFilterCalls m calls)
      ∧ (∀ name, registered (applyFilterCalls m calls) name ↔ registered m name)
      ∧ (clearAllFilters (applyFilterCalls m calls)).activeFilters = [] := by
  obtain ⟨hw, hf, hreg, hval⟩ := applyFilterCalls_track m hnone hflags calls
  refine ⟨hw.1, fun name => ?_, hval, rfl, fun value hv => ?_, hf, fun name => ?_,
    (clearAllFilters_spec _ (fun e he => (hw.2 e he).1)).1⟩
  · rw [← mapGet_isSome_iff]
    have h1 := congrArg Option.isSome (hval name)
    rw [Option.isSome_map'] at h1
    rw [h1]
    unfold registered
    by_cases hr : (mapGet name m.filters).isSome = true
    · simp [hr]
    · simp [hr]
  · cases value with
    | undefined => exact absurd rfl hv
    | _ => rfl
  · unfold registered
    rw [hreg name]

/-- On the sample manager, after `taskPriority` is activated on "high" and then on "low",
with calls for a name that is not registered in between and after, the only entry is that
of `taskPriority` with the value "low". -/
theorem filter_calls_last_activation_witness :
    sampleManager.activeFilters = []
      ∧ activeValues (applyFilterCalls sampleManager sampleCalls)
        = [("taskPriority", JsVal.str "low")]
      ∧ lastActivation "taskPriority" sampleCalls = some (JsVal.str "low")
      ∧ ((applyFilterCalls sampleManager sampleCalls).activeFilters.map Prod.fst).Nodup
      ∧ flagsAgree (applyFilterCalls sampleManager sampleCalls)
      ∧ (clearAllFilters (applyFilterCalls sampleManager sampleCalls)).activeFilters = [] :=
  have h := filter_calls_last_activation sampleManager sampleCalls rfl
    (fun name filter hf => by
      simp only [sampleManager, mapGet] at hf
      split at hf
      · simp only [Option.some.injEq] at hf
        rw [← hf]
      · simp at hf)
  ⟨rfl, rfl, rfl, h.1, h.2.2.2.2.2.1, h.2.2.2.2.2.2.2⟩

/-! ## C22: the spans of the highlights -/

theorem toNat_ofNat_of_lt (n : Nat) (h : n < 55296) : (Char.ofNat n).toNat = n := by
  unfold Char.ofNat
  have hv : n.isValidChar := Or.inl h
  rw [dif_pos hv]
  rfl

theorem char_eq_of_toNat_eq (a b : Char) (h : a.toNat = b.toNat) : a = b := by
  have := congrArg Char.ofNat h
  simpa using this

theorem toNat_toLower (c : Char) :
    (Char.toLower c).toNat
      = if 65 ≤ c.toNat ∧ c.toNat ≤ 90 then c.toNat + 32 else c.toNat := by
  unfold Char.toLower
  simp only [ge_iff_le]
  split
  · rw [toNat_ofNat_of_lt _ (by omega)]
  · rfl

theorem toNat_toUpper (c : Char) :
    (Char.toUpper c).toNat
      = if 97 ≤ c.toNat ∧ c.toNat ≤ 122 then c.toNat - 32 else c.toNat := by
  unfold Char.toUpper
  simp only [ge_iff_le]
  split
  · rw [toNat_ofNat_of_lt _ (by omega)]
  · rfl

theorem toLower_toLower (c : Char) : Char.toLower (Char.toLower c) = Char.toLower c := by
  apply char_eq_of_toNat_eq
  rw [toNat_toLower, toNat_toLower]
  split <;> (try split) <;> omega

/-- An ASCII character is compared by its ASCII upper case. -/
theorem canonicalize_of_ascii (c : Char) (h : c.toNat < 128) :
    canonicalize c = Char.toUpper c := by
  unfold canonicalize
  rw [if_pos h]

/-- A character that is not ASCII is not compared as an ASCII character. -/
theorem canonicalize_not_ascii (c : Char) (h : ¬ c.toNat < 128) :
    ¬ (canonicalize c).toNat < 128 := by
  unfold canonicalize
  rw [if_neg h]
  split
  · rw [toNat_ofNat_of_lt _ (by omega)]
    omega
  · split
    · rw [toNat_ofNat_of_lt _ (by omega)]
      omega
    · exact h

/-- An ASCII character of the pattern matches a character that is not an ASCII capital
exactly when that character is its lower case. -/
theorem canonicalize_eq_iff (q t : Char) (hq : q.toNat < 128)
    (ht : ¬ (65 ≤ t.toNat ∧ t.toNat ≤ 90)) :
    canonicalize q = canonicalize t ↔ Char.toLower q = t := by
  by_cases hta : t.toNat < 128
  · rw [canonicalize_of_ascii q hq, canonicalize_of_ascii t hta]
    constructor
    · intro h
      apply char_eq_of_toNat_eq
      have h' := congrArg Char.toNat h
      rw [toNat_toUpper, toNat_toUpper] at h'
      rw [toNat_toLower]
      split at h' <;> split at h' <;> split <;> omega
    · intro h
      apply char_eq_of_toNat_eq
      have h' := congrArg Char.toNat h
      rw [toNat_toLower] at h'
      rw [toNat_toUpper, toNat_toUpper]
      split at h' <;> split <;> split <;> omega
  · have h1 := canonicalize_not_ascii t hta
    constructor
    · intro h
      rw [← h, canonicalize_of_ascii q hq, toNat_toUpper] at h1
      split at h1 <;> omega
    · intro h
      have h' := congrArg Char.toNat h
      rw [toNat_toLower] at h'
      split at h' <;> omega

/-- Where an ASCII pattern is matched in a text without ASCII capitals, the lowercased
pattern starts. -/
theorem matchesAt_iff (query : List Char) (hq : ∀ c ∈ query, c.toNat < 128) :
    ∀ rest : List Char, (∀ c ∈ rest, ¬ (65 ≤ c.toNat ∧ c.toNat ≤ 90)) →
      (matchesAt query rest = true ↔ query.map Char.toLower <+: rest) := by
  induction query with
  | nil =>
    intro rest _
    simp [matchesAt]
  | cons a as ih =>
    intro rest hrest
    cases rest with
    | nil => simp [matchesAt, List.isPrefixOf]
    | cons t ts =>
      have ha : a.toNat < 128 := hq a (List.mem_cons_self _ _)
      have has : ∀ c ∈ as, c.toNat < 128 := fun c hc => hq c (List.mem_cons_of_mem _ hc)
      have ht := hrest t (List.mem_cons_self _ _)
      have hts : ∀ c ∈ ts, ¬ (65 ≤ c.toNat ∧ c.toNat ≤ 90) :=
        fun c hc => hrest c (List.mem_cons_of_mem _ hc)
      have ih' := ih has ts hts
      unfold matchesAt at ih' ⊢
      simp only [List.map_cons, List.isPrefixOf, Bool.and_eq_true, beq_iff_eq,
        List.cons_prefix_cons]
      rw [ih', canonicalize_eq_iff a t ha ht]

theorem length_le_of_matchesAt (query rest : List Char) (h : matchesAt query rest = true) :
    query.length ≤ rest.length := by
  unfold matchesAt at h
  have := (List.isPrefixOf_iff_prefix.mp h).length_le
  simpa using this

/-- The highlights of the scan of a text from the position `pos` on: where they lie, what
they hold, and their order. -/
theorem highlightScan_spans (query : List Char) (hq : query ≠ []) :
    ∀ (rest : List Char) (pos skip : Nat),
      (∀ h ∈ highlightScan query rest pos skip,
          pos + skip ≤ h.start ∧ h.stop = h.start + query.length
            ∧ h.stop ≤ pos + rest.length
            ∧ h.text.data = (rest.drop (h.start - pos)).take query.length
            ∧ matchesAt query (rest.drop (h.start - pos)) = true)
        ∧ (highlightScan query rest pos skip).Pairwise (fun a b => a.stop ≤ b.start) := by
  have hlen : 0 < query.length := List.length_pos.mpr hq
  intro rest
  induction rest with
  | nil =>
    intro pos skip
    have hnil : highlightScan query [] pos skip = [] := by
      cases skip <;> rfl
    rw [hnil]
    exact ⟨fun h hh => by simp at hh, List.Pairwise.nil⟩
  | cons c cs ih =>
    intro pos skip
    have hshift : ∀ (k : Nat) (h : Highlight), pos + 1 + k ≤ h.start →
        (c :: cs).drop (h.start - pos) = cs.drop (h.start - (pos + 1)) := by
      intro k h hstart
      have : h.start - pos = (h.start - (pos + 1)) + 1 := by omega
      rw [this, List.drop_succ_cons]
    cases skip with
    | succ k =>
      have heq : highlightScan query (c :: cs) pos (k + 1)
          = highlightScan query cs (pos + 1) k := rfl
      rw [heq]
      obtain ⟨h1, h2⟩ := ih (pos + 1) k
      refine ⟨fun h hh => ?_, h2⟩
      obtain ⟨a1, a2, a3, a4, a5⟩ := h1 h hh
      rw [hshift k h a1]
      refine ⟨by omega, a2, ?_, a4, a5⟩
      simp only [List.length_cons]
      omega
    | zero =>
      by_cases hm : matchesAt query (c :: cs) = true
      · have heq : highlightScan query (c :: cs) pos 0
            = { start := pos, stop := pos + query.length,
                text := ⟨(c :: cs).take query.length⟩ }
              :: highlightScan query cs (pos + 1) (query.length - 1) := by
          simp only [highlightScan, hm, if_true]
        rw [heq]
        have hle := length_le_of_matchesAt query (c :: cs) hm
        obtain ⟨h1, h2⟩ := ih (pos + 1) (query.length - 1)
        refine ⟨fun h hh => ?_, ?_⟩
        · rcases List.mem_cons.mp hh with rfl | hh
          · refine ⟨by simp, rfl, by simp only; omega, ?_, ?_⟩
            · simp only [Nat.sub_self, List.drop_zero]
            · simp only [Nat.sub_self, List.drop_zero]
              exact hm
          · obtain ⟨a1, a2, a3, a4, a5⟩ := h1 h hh
            rw [hshift (query.length - 1) h a1]
            refine ⟨by omega, a2, ?_, a4, a5⟩
            simp only [List.length_cons]
            omega
        · rw [List.pairwise_cons]
          refine ⟨fun b hb => ?_, h2⟩
          have := (h1 b hb).1
          simp only
          omega
      · have heq : highlightScan query (c :: cs) pos 0
            = highlightScan query cs (pos + 1) 0 := by
          simp only [highlightScan, hm, Bool.false_eq_true, if_false]
        rw [heq]
        obtain ⟨h1, h2⟩ := ih (pos + 1) 0
        refine ⟨fun h hh => ?_, h2⟩
        obtain ⟨a1, a2, a3, a4, a5⟩ := h1 h hh
        rw [hshift 0 h a1]
        refine ⟨by omega, a2, ?_, a4, a5⟩
        simp only [List.length_cons]
        omega

/-- For an ASCII pattern and a text without ASCII capitals, the scan finds a highlight
exactly when the lowercased pattern occurs in what is left to scan. -/
theorem highlightScan_ne_nil_iff (query : List Char) (hq : query ≠ [])
    (hascii : ∀ c ∈ query, c.toNat < 128) :
    ∀ (rest : List Char) (pos skip : Nat), (∀ c ∈ rest, ¬ (65 ≤ c.toNat ∧ c.toNat ≤ 90)) →
      (highlightScan query rest pos skip ≠ []
        ↔ query.map Char.toLower <:+: rest.drop skip) := by
  intro rest
  induction rest with
  | nil =>
    intro pos skip _
    have hnil : highlightScan query [] pos skip = [] := by
      cases skip <;> rfl
    rw [hnil]
    simp only [ne_eq, not_true_eq_false, List.drop_nil, false_iff]
    intro hinf
    have := List.eq_nil_of_infix_nil hinf
    simp only [List.map_eq_nil_iff] at this
    exact hq this
  | cons c cs ih =>
    intro pos skip hrest
    have hcs : ∀ d ∈ cs, ¬ (65 ≤ d.toNat ∧ d.toNat ≤ 90) :=
      fun d hd => hrest d (List.mem_cons_of_mem _ hd)
    cases skip with
    | succ k =>
      have heq : highlightScan query (c :: cs) pos (k + 1)
          = highlightScan query cs (pos + 1) k := rfl
      rw [heq, ih (pos + 1) k hcs, List.drop_succ_cons]
    | zero =>
      by_cases hm : matchesAt query (c :: cs) = true
      · have heq : highlightScan query (c :: cs) pos 0
            = { start := pos, stop := pos + query.length,
                text := ⟨(c :: cs).take query.length⟩ }
              :: highlightScan query cs (pos + 1) (query.length - 1) := by
          simp only [highlightScan, hm, if_true]
        rw [heq]
        simp only [ne_eq, reduceCtorEq, not_false_eq_true, List.drop_zero, true_iff]
        exact ((matchesAt_iff query hascii (c :: cs) hrest).mp hm).isInfix
      · have heq : highlightScan query (c :: cs) pos 0
            = highlightScan query cs (pos + 1) 0 := by
          simp only [highlightScan, hm, Bool.false_eq_true, if_false]
        rw [heq, ih (pos + 1) 0 hcs, List.drop_zero, List.drop_zero, List.infix_cons_iff]
        have hnpre : ¬ query.map Char.toLower <+: c :: cs :=
          fun hp => hm ((matchesAt_iff query hascii (c :: cs) hrest).mpr hp)
        constructor
        · exact Or.inr
        · rintro (hp | hi)
          · exact absurd hp hnpre
          · exact hi

/-- The searchable text that `addToIndex` computes has no ASCII capital. -/
theorem searchableText_lowercase (type : String) (id : JsVal) (data : List (String × JsVal)) :
    ∀ c ∈ (mkRecord type id data).searchableText.data, ¬ (65 ≤ c.toNat ∧ c.toNat ≤ 90) := by
  intro c hc
  have hc' : c ∈ (joinSpace (stringValues data)).data.map Char.toLower := hc
  obtain ⟨d, _, rfl⟩ := List.mem_map.mp hc'
  rw [toNat_toLower]
  split <;> omega

/-- C22 as stated fails for letters that share an upper case: for the lowercased query
"ασ" (small alpha, small sigma) and the record whose `searchableText` is "ας" (small alpha,
final small sigma), `getHighlights` returns the span of "ας", whose text is not the query,
although the query is not a substring of the text; a fuzzy `search` for "ασ" returns that
record with this highlight. -/
theorem getHighlights_sigma :
    sigmaRecord.searchableText = "ας"
      ∧ toLowerCase "ασ" = "ασ"
      ∧ getHighlights "ασ" sigmaRecord = .ok [{ start := 0, stop := 2, text := "ας" }]
      ∧ ("ας" : String) ≠ toLowerCase "ασ"
      ∧ ¬ (toLowerCase "ασ").data <:+: sigmaRecord.searchableText.data
      ∧ (search sigmaManager "ασ" { fuzzy := true } "t1").1
        = .ok [{ toIndexedRecord := sigmaRecord, score := 5,
                 highlights := some [{ start := 0, stop := 2, text := "ας" }] }] :=
  ⟨by decide, by decide, by rfl, by decide, by decide, by with_unfolding_all rfl⟩

/-- C22, amended: for a query of length at least 2 and a record, `getHighlights` returns a
list of spans; every span has `start < end ≤` the length of `searchableText` and its text
is `searchableText[start..end)`; the spans are in increasing order and do not overlap; and
when the characters of the query are ASCII and the text has no ASCII capital, as every text
that `addToIndex` lowercased, the text of every span is the lowercased query and the list
is not empty exactly when the lowercased query is a substring of `searchableText`. -/
theorem getHighlights_spans (item : IndexedRecord) (query : String) (hq : 2 ≤ query.length) :
    ∃ highlights, getHighlights query item = .ok highlights
      ∧ (∀ h ∈ highlights,
          h.start < h.stop ∧ h.stop ≤ item.searchableText.length
            ∧ h.text.data = (item.searchableText.data.drop h.start).take (h.stop - h.start))
      ∧ highlights.Pairwise (fun a b => a.start < b.start ∧ a.stop ≤ b.start)
      ∧ ((∀ c ∈ query.data, c.toNat < 128) →
          (∀ c ∈ item.searchableText.data, ¬ (65 ≤ c.toNat ∧ c.toNat ≤ 90)) →
          (∀ h ∈ highlights, h.text = toLowerCase query)
            ∧ (highlights ≠ []
              ↔ (toLowerCase query).data <:+: item.searchableText.data)) := by
  have hlen : 2 ≤ query.data.length := hq
  have hne : query.data ≠ [] := by
    intro h
    rw [h] at hlen
    simp at hlen
  obtain ⟨h1, h2⟩ := highlightScan_spans query.data hne item.searchableText.data 0 0
  refine ⟨_, by unfold getHighlights; rw [if_neg hne], fun h hh => ?_, ?_,
    fun hascii hlow => ⟨fun h hh => ?_, ?_⟩⟩
  · obtain ⟨_, a2, a3, a4, _⟩ := h1 h hh
    refine ⟨by omega, ?_, ?_⟩
    · have : h.stop ≤ item.searchableText.data.length := by omega
      exact this
    · have hd : h.stop - h.start = query.data.length := by omega
      rw [hd, a4]
      rfl
  · apply h2.imp_of_mem
    intro a b ha _ hab
    have := (h1 a ha).2.1
    constructor <;> omega
  · obtain ⟨_, _, _, a4, a5⟩ := h1 h hh
    have hdrop : ∀ c ∈ item.searchableText.data.drop (h.start - 0),
        ¬ (65 ≤ c.toNat ∧ c.toNat ≤ 90) :=
      fun c hc => hlow c (List.mem_of_mem_drop hc)
    have hpre := (matchesAt_iff query.data hascii _ hdrop).mp a5
    have htake := List.prefix_iff_eq_take.mp hpre
    rw [List.length_map] at htake
    apply String.ext
    rw [a4, ← htake]
    rfl
  · exact highlightScan_ne_nil_iff query.data hne hascii item.searchableText.data 0 0 hlow

/-- The record of the task "Fix authentication bug" and the query "auth": one span, which
covers the "auth" of "authentication". -/
theorem getHighlights_spans_witness :
    2 ≤ "auth".length
      ∧ (∀ c ∈ "auth".data, c.toNat < 128)
      ∧ sampleTask.searchableText = "fix authentication bug todo high"
      ∧ ∃ highlights, getHighlights "auth" sampleTask = .ok highlights
        ∧ highlights = [{ start := 4, stop := 8, text := "auth" }]
        ∧ (∀ h ∈ highlights,
            h.start < h.stop ∧ h.stop ≤ sampleTask.searchableText.length
              ∧ h.text.data = (sampleTask.searchableText.data.drop h.start).take
                  (h.stop - h.start))
        ∧ highlights.Pairwise (fun a b => a.start < b.start ∧ a.stop ≤ b.start)
        ∧ (∀ h ∈ highlights, h.text = toLowerCase "auth")
        ∧ (highlights ≠ []
          ↔ (toLowerCase "auth").data <:+: sampleTask.searchableText.data) := by
  have hascii : ∀ c ∈ "auth".data, c.toNat < 128 := by decide
  obtain ⟨highlights, h1, h2, h3, h4⟩ := getHighlights_spans sampleTask "auth" (by decide)
  have hval : getHighlights "auth" sampleTask
      = .ok [{ start := 4, stop := 8, text := "auth" }] := rfl
  have heq : highlights = [{ start := 4, stop := 8, text := "auth" }] := by
    rw [h1] at hval
    exact Except.ok.inj hval
  obtain ⟨h5, h6⟩ := h4 hascii
    (searchableText_lowercase "task" (JsVal.str "t1")
      [("title", JsVal.str "Fix authentication bug"), ("status", JsVal.str "todo"),
        ("priority", JsVal.str "high")])
  exact ⟨by decide, hascii, by decide, highlights, h1, heq, h2, h3, h5, h6⟩

/-! ## Values of the primitives on sample inputs -/

theorem splitSpaces_samples :
    splitSpaces " a" = ["", "a"] ∧ splitSpaces "a  b\tc " = ["a", "b", "c", ""]
      ∧ splitSpaces "" = [""] := by
  decide

theorem primitives_samples :
    includes "fix authentication bug" "auth" = true
      ∧ fuzzyMatches "xab" "abx" = 1
      ∧ indexKey "task" (JsVal.num 12) = "task:12"
      ∧ searchableTextOf
          [("title", JsVal.str "Fix Bug"), ("tags", JsVal.arr []), ("status", JsVal.str "todo")]
        = "fix bug todo" := by
  decide

end Epulse
